import Mathlib

/-!
Verification of the echomill central limit order book matching engine.

The definitions below are a shallow embedding of the C++ sources
`src/echomill/src/pricelevel.cpp` and `src/echomill/src/orderbook.cpp`
(with their headers).  `std::map` ladders become price-sorted lists of
levels with the best level first, `std::unordered_map` becomes an
association list, `std::list` queues become Lean lists.  `Nat` is
`uint32_t` in the source; every subtraction the engine performs is
guarded (the subtrahend never exceeds the minuend on any path modelled
here), so `Nat` with truncated subtraction agrees with the machine
arithmetic.
-/

namespace Echomill

/-- Side of an order (`types.hpp`). -/
inductive Side where
  | Buy
  | Sell
deriving DecidableEq, Repr

/-- Order type (`types.hpp`). -/
inductive OrderType where
  | Limit
  | Market
deriving DecidableEq, Repr

/-- An order record (`order.hpp`). -/
structure Order where
  id : Nat
  side : Side
  type : OrderType
  price : Int
  qty : Nat
  remaining : Nat
  timestamp : Nat
deriving DecidableEq, Repr

/-- `Order::isFilled` from `order.hpp`. -/
def Order.isFilled (o : Order) : Bool := o.remaining == 0

/-- `Order::fill` from `order.hpp`: `remaining -= amount`. -/
def Order.fill (o : Order) (amount : Nat) : Order :=
  { o with remaining := o.remaining - amount }

/-- A trade record (`trade.hpp`). -/
structure Trade where
  takerOrderId : Nat
  makerOrderId : Nat
  takerSide : Side
  price : Int
  qty : Nat
  timestamp : Nat
deriving DecidableEq, Repr

/-- Sum of the `remaining` fields of a queue of orders. -/
def sumRem (os : List Order) : Nat := (os.map Order.remaining).sum

/-- Sum of the quantities of a list of trades. -/
def sumQty (ts : List Trade) : Nat := (ts.map Trade.qty).sum

/-- A price level (`pricelevel.hpp`): price, cached total quantity, FIFO
queue of resting orders (front of the list is the head of the queue). -/
structure PriceLevel where
  price : Int
  totalQty : Nat
  orders : List Order
deriving DecidableEq, Repr

/-- The `PriceLevel(Int price)` constructor. -/
def PriceLevel.init (p : Int) : PriceLevel := ⟨p, 0, []⟩

/-- `PriceLevel::addOrder`: append to the back of the queue and grow
`m_totalQty` by the order's remaining quantity. -/
def PriceLevel.addOrder (L : PriceLevel) (o : Order) : PriceLevel :=
  { L with totalQty := L.totalQty + o.remaining, orders := L.orders ++ [o] }

/-- Models `std::find_if` over the queue followed by access to the found
element: splits the queue at the first order carrying `id`. -/
def splitFirstById (id : Nat) : List Order → Option (List Order × Order × List Order)
  | [] => none
  | o :: rest =>
    if o.id = id then some ([], o, rest)
    else
      match splitFirstById id rest with
      | none => none
      | some (pre, m, post) => some (o :: pre, m, post)

/-- `PriceLevel::removeOrder`: erase the first order with this id,
shrinking `m_totalQty` by its remaining quantity. -/
def PriceLevel.removeOrder (L : PriceLevel) (id : Nat) : Bool × PriceLevel :=
  match splitFirstById id L.orders with
  | none => (false, L)
  | some (pre, m, post) =>
    (true, { L with totalQty := L.totalQty - m.remaining, orders := pre ++ post })

/-- `PriceLevel::reduceOrder`: full cancellation when `reduceBy` reaches
the order's remaining quantity, in-place reduction otherwise. -/
def PriceLevel.reduceOrder (L : PriceLevel) (id : Nat) (reduceBy : Nat) : Bool × PriceLevel :=
  match splitFirstById id L.orders with
  | none => (false, L)
  | some (pre, m, post) =>
    if m.remaining ≤ reduceBy then
      (true, { L with totalQty := L.totalQty - m.remaining, orders := pre ++ post })
    else
      let m' : Order := { m with remaining := m.remaining - reduceBy }
      (true, { L with totalQty := L.totalQty - reduceBy, orders := pre ++ m' :: post })

/-- The loop body of `PriceLevel::match` acting on the raw queue.  Each
iteration takes the head `m`, fills `f = min(aggressor.remaining,
m.remaining)`, emits a trade and pops the head exactly when `m` is
filled.  When the head survives the fill, `f < m.remaining` forces
`f = aggressor.remaining`, so the aggressor is exhausted and the C++
`while` condition fails on the next test; the translation returns
directly in that branch, which makes the recursion structural. -/
def matchAux (price : Int) (execTime : Nat) : Order → List Order → List Trade × List Order × Order
  | a, [] => ([], [], a)
  | a, m :: rest =>
    if a.remaining = 0 then ([], m :: rest, a)
    else
      let f := min a.remaining m.remaining
      let t : Trade := ⟨a.id, m.id, a.side, price, f, execTime⟩
      if m.remaining - f = 0 then
        let r := matchAux price execTime (a.fill f) rest
        (t :: r.1, r.2)
      else
        ([t], (m.fill f) :: rest, a.fill f)

/-- `PriceLevel::match` (named `matchLevel` because `match` is reserved
in Lean).  The C++ code subtracts each fill from `m_totalQty` as it
goes; iterated truncated subtraction equals subtracting the sum
(`Nat.sub_sub`), so the wrapper subtracts `sumQty` once. -/
def PriceLevel.matchLevel (L : PriceLevel) (a : Order) (execTime : Nat) :
    List Trade × PriceLevel × Order :=
  let r := matchAux L.price execTime a L.orders
  (r.1, { L with totalQty := L.totalQty - sumQty r.1, orders := r.2.1 }, r.2.2)

/-- The id index `m_orderIndex : unordered_map<Nat, (Side, Int)>`,
modelled as an association list. -/
abbrev OrderIndex := List (Nat × Side × Int)

/-- `m_orderIndex.find(id)`. -/
def idxFind? (id : Nat) (idx : OrderIndex) : Option (Side × Int) :=
  (idx.find? (fun e => e.1 == id)).map (fun e => e.2)

/-- `m_orderIndex.erase(id)`. -/
def idxErase (id : Nat) (idx : OrderIndex) : OrderIndex :=
  idx.filter (fun e => !(e.1 == id))

/-- `m_orderIndex[id] = v` (insert-or-assign of the single entry for the
key). -/
def idxInsert (id : Nat) (v : Side × Int) (idx : OrderIndex) : OrderIndex :=
  idxErase id idx ++ [(id, v)]

/-- The per-trade condition of the index clean-up loop in
`OrderBook::matchOrder`: `it == end() || it->isFilled()` after the
`find_if` over the level's queue. -/
def makerGone (os : List Order) (x : Nat) : Bool :=
  match os.find? (fun o => o.id == x) with
  | none => true
  | some o => o.isFilled

/-- The index clean-up loop inside `OrderBook::matchOrder`: for every
trade just produced, look its maker up in the level as it stands after
the match and erase the maker's index entry when it is gone or filled. -/
def eraseFilledMakers (levelOrders : List Order) (ts : List Trade) (idx : OrderIndex) : OrderIndex :=
  ts.foldl (fun acc t =>
    if makerGone levelOrders t.makerOrderId then idxErase t.makerOrderId acc else acc) idx

/-- `ladder.find(price)` on a price-keyed map modelled as a list of
levels. -/
def ladderFind? (p : Int) (lad : List PriceLevel) : Option PriceLevel :=
  lad.find? (fun L => L.price == p)

/-- The body of `OrderBook::cancelOrder` acting on one ladder: locate the
level at `p`, run `removeOrder`, and erase the level when it ends up
empty. -/
def cancelInLadder (id : Nat) (p : Int) : List PriceLevel → Bool × List PriceLevel
  | [] => (false, [])
  | L :: rest =>
    if L.price = p then
      let r := L.removeOrder id
      if r.2.orders.isEmpty then (r.1, rest) else (r.1, r.2 :: rest)
    else
      let r := cancelInLadder id p rest
      (r.1, L :: r.2)

/-- The reduction step of `OrderBook::modifyOrder` acting on one ladder:
locate the level at `p` and run `reduceOrder` in place (the modify path
never empties a level, and the C++ code performs no level clean-up
here). -/
def reduceInLadder (id : Nat) (p : Int) (reduceBy : Nat) : List PriceLevel → Bool × List PriceLevel
  | [] => (false, [])
  | L :: rest =>
    if L.price = p then
      let r := L.reduceOrder id reduceBy
      (r.1, r.2 :: rest)
    else
      let r := reduceInLadder id p reduceBy rest
      (r.1, L :: r.2)

/-- `try_emplace(price, price)` followed by `addOrder` on a sorted
ladder; `before a c` says price `a` is iterated before price `c` on this
side (`std::greater` on bids, `std::less` on asks). -/
def ladderEmplaceAdd (before : Int → Int → Bool) (o : Order) : List PriceLevel → List PriceLevel
  | [] => [(PriceLevel.init o.price).addOrder o]
  | L :: rest =>
    if L.price = o.price then (L.addOrder o) :: rest
    else if before o.price L.price then ((PriceLevel.init o.price).addOrder o) :: L :: rest
    else L :: ladderEmplaceAdd before o rest

/-- Bid ladder ordering: `std::greater<Int>` (highest price first). -/
def bidBefore (a c : Int) : Bool := decide (c < a)

/-- Ask ladder ordering: `std::less<Int>` (lowest price first). -/
def askBefore (a c : Int) : Bool := decide (a < c)

/-- The order book (`orderbook.hpp`): two price ladders with the best
level first, and the id index.  The trade callback carries no state:
`addOrder` invokes it once per returned trade, in order, so the list of
returned trades is the exact record of observer invocations. -/
structure OrderBook where
  bids : List PriceLevel
  asks : List PriceLevel
  orderIndex : OrderIndex
deriving DecidableEq, Repr

/-- The default-constructed empty book. -/
def OrderBook.emptyBook : OrderBook := ⟨[], [], []⟩

/-- The ladder that stores resting orders of a given side. -/
def OrderBook.ladderOf (b : OrderBook) : Side → List PriceLevel
  | Side.Buy => b.bids
  | Side.Sell => b.asks

/-- `OrderBook::bestBid`. -/
def OrderBook.bestBid (b : OrderBook) : Option Int := b.bids.head?.map PriceLevel.price

/-- `OrderBook::bestAsk`. -/
def OrderBook.bestAsk (b : OrderBook) : Option Int := b.asks.head?.map PriceLevel.price

/-- `OrderBook::canMatch`. -/
def OrderBook.canMatch (b : OrderBook) (o : Order) : Bool :=
  match o.type with
  | OrderType.Market =>
    match o.side with
    | Side.Buy => !b.asks.isEmpty
    | Side.Sell => !b.bids.isEmpty
  | OrderType.Limit =>
    match o.side with
    | Side.Buy =>
      match b.asks with
      | [] => false
      | L :: _ => decide (L.price ≤ o.price)
    | Side.Sell =>
      match b.bids with
      | [] => false
      | L :: _ => decide (o.price ≤ L.price)

/-- The limit-price guard inside `OrderBook::matchOrder`: the loop breaks
when the aggressor's limit no longer reaches the best opposite level. -/
def priceStops (o : Order) (levelPrice : Int) : Bool :=
  match o.side with
  | Side.Buy => decide (o.price < levelPrice)
  | Side.Sell => decide (levelPrice < o.price)

/-- The `while` loop of `OrderBook::matchOrder` over the opposite ladder.
When the best level survives a match with a non-empty queue, the
aggressor is exhausted (`PriceLevel::match` only stops with a non-empty
queue when the aggressor's remaining quantity is zero), so the C++ loop
condition fails and the translation returns directly. -/
def matchLoop (execTime : Nat) : Order → OrderIndex → List PriceLevel → List Trade × List PriceLevel × OrderIndex × Order
  | a, idx, [] => ([], [], idx, a)
  | a, idx, L :: rest =>
    if a.remaining = 0 then ([], L :: rest, idx, a)
    else if a.type = OrderType.Limit ∧ priceStops a L.price then ([], L :: rest, idx, a)
    else
      let r := L.matchLevel a execTime
      let idx' := eraseFilledMakers r.2.1.orders r.1 idx
      if r.2.1.orders.isEmpty then
        let s := matchLoop execTime r.2.2 idx' rest
        (r.1 ++ s.1, s.2)
      else
        (r.1, r.2.1 :: rest, idx', r.2.2)

/-- `OrderBook::matchOrder`: dispatch on side, drain the opposite ladder,
and return the trades together with the updated book and the aggressor's
residual state. -/
def OrderBook.matchOrder (b : OrderBook) (o : Order) (execTime : Nat) :
    List Trade × OrderBook × Order :=
  match o.side with
  | Side.Buy =>
    let r := matchLoop execTime o b.orderIndex b.asks
    (r.1, { b with asks := r.2.1, orderIndex := r.2.2.1 }, r.2.2.2)
  | Side.Sell =>
    let r := matchLoop execTime o b.orderIndex b.bids
    (r.1, { b with bids := r.2.1, orderIndex := r.2.2.1 }, r.2.2.2)

/-- `OrderBook::cancelOrder`. -/
def OrderBook.cancelOrder (b : OrderBook) (id : Nat) : Bool × OrderBook :=
  match idxFind? id b.orderIndex with
  | none => (false, b)
  | some (side, price) =>
    match side with
    | Side.Buy =>
      let r := cancelInLadder id price b.bids
      if r.1 then (true, { b with bids := r.2, orderIndex := idxErase id b.orderIndex })
      else (false, { b with bids := r.2 })
    | Side.Sell =>
      let r := cancelInLadder id price b.asks
      if r.1 then (true, { b with asks := r.2, orderIndex := idxErase id b.orderIndex })
      else (false, { b with asks := r.2 })

/-- `OrderBook::insertOrder`: cancel any resting order with the same id,
register the id in the index, and append the order to its level. -/
def OrderBook.insertOrder (b : OrderBook) (o : Order) : OrderBook :=
  let b1 := if (idxFind? o.id b.orderIndex).isSome then (b.cancelOrder o.id).2 else b
  let b2 := { b1 with orderIndex := idxInsert o.id (o.side, o.price) b1.orderIndex }
  match o.side with
  | Side.Buy => { b2 with bids := ladderEmplaceAdd bidBefore o b2.bids }
  | Side.Sell => { b2 with asks := ladderEmplaceAdd askBefore o b2.asks }

/-- `OrderBook::modifyOrder`. -/
def OrderBook.modifyOrder (b : OrderBook) (id : Nat) (newQty : Nat) : Bool × OrderBook :=
  match idxFind? id b.orderIndex with
  | none => (false, b)
  | some (side, price) =>
    match side with
    | Side.Buy =>
      match ladderFind? price b.bids with
      | none => (false, b)
      | some L =>
        match L.orders.find? (fun o => o.id == id) with
        | none => (false, b)
        | some o =>
          if o.remaining ≤ newQty then (false, b)
          else if newQty = 0 then b.cancelOrder id
          else
            let r := reduceInLadder id price (o.remaining - newQty) b.bids
            (r.1, { b with bids := r.2 })
    | Side.Sell =>
      match ladderFind? price b.asks with
      | none => (false, b)
      | some L =>
        match L.orders.find? (fun o => o.id == id) with
        | none => (false, b)
        | some o =>
          if o.remaining ≤ newQty then (false, b)
          else if newQty = 0 then b.cancelOrder id
          else
            let r := reduceInLadder id price (o.remaining - newQty) b.asks
            (r.1, { b with asks := r.2 })

/-- `OrderBook::findOrder`; the C++ function throws on a missing id,
modelled as `none`. -/
def OrderBook.findOrder (b : OrderBook) (id : Nat) : Option Order :=
  match idxFind? id b.orderIndex with
  | none => none
  | some (side, price) =>
    match ladderFind? price (b.ladderOf side) with
    | none => none
    | some L => L.orders.find? (fun o => o.id == id)

/-- `OrderBook::addOrder`, with the local aggressor variable (holding the
residual after matching) also returned so that theorems can speak about
the quantity left after resting. -/
def OrderBook.addOrderFull (b : OrderBook) (o : Order) (execTime : Nat) :
    List Trade × OrderBook × Order :=
  let r := if b.canMatch o then b.matchOrder o execTime else ([], b, o)
  if r.2.2.isFilled = false ∧ r.2.2.type = OrderType.Limit then
    (r.1, r.2.1.insertOrder r.2.2, r.2.2)
  else
    (r.1, r.2.1, r.2.2)

/-- `OrderBook::addOrder` as the caller sees it: the trades and the new
book. -/
def OrderBook.addOrder (b : OrderBook) (o : Order) (execTime : Nat) :
    List Trade × OrderBook :=
  let r := b.addOrderFull o execTime
  (r.1, r.2.1)

/-- A public operation on the book. -/
inductive Op where
  | add (o : Order) (t : Nat)
  | cancel (id : Nat)
  | modify (id : Nat) (newQty : Nat)
deriving Repr

/-- Apply one public operation to the book state. -/
def OrderBook.applyOp (b : OrderBook) : Op → OrderBook
  | Op.add o t => (b.addOrder o t).2
  | Op.cancel id => (b.cancelOrder id).2
  | Op.modify id q => (b.modifyOrder id q).2

/-- The book state after a sequence of public operations on a fresh
book. -/
def runOps (ops : List Op) : OrderBook := ops.foldl OrderBook.applyOp OrderBook.emptyBook

/-- A book state reachable by some sequence of public operations. -/
def Reachable (b : OrderBook) : Prop := ∃ ops : List Op, b = runOps ops

/-- True when some level of the book holds an order with this id. -/
def OrderBook.hasResting (b : OrderBook) (id : Nat) : Bool :=
  (b.bids ++ b.asks).any (fun L => L.orders.any (fun o => o.id == id))

/-- Number of resting orders in the book carrying a given id. -/
def restingIdCount (b : OrderBook) (x : Nat) : Nat :=
  ((b.bids ++ b.asks).map (fun L => (L.orders.filter (fun o => o.id == x)).length)).sum

/-- All resting order ids of the book, bid side first. -/
def allIds (b : OrderBook) : List Nat :=
  (b.bids.map (fun L => L.orders.map Order.id)).flatten ++
    (b.asks.map (fun L => L.orders.map Order.id)).flatten

/-- The level-local representation invariant of `PriceLevel`: non-empty
queue, cached `total_qty` consistent with the queue, and no fully filled
order left resting. -/
def LevelWF (L : PriceLevel) : Prop :=
  L.orders ≠ [] ∧ L.totalQty = sumRem L.orders ∧ ∀ o ∈ L.orders, 0 < o.remaining

/-- The representation invariant of the whole book: ladders sorted best
first with strictly monotone prices, well-formed levels, an uncrossed
book, an id index that is complete and sound for the ladders, and
globally distinct order ids. -/
structure OrderBook.WF (b : OrderBook) : Prop where
  bidsSorted : b.bids.Pairwise (fun L M => M.price < L.price)
  asksSorted : b.asks.Pairwise (fun L M => L.price < M.price)
  bidsWF : ∀ L ∈ b.bids, LevelWF L
  asksWF : ∀ L ∈ b.asks, LevelWF L
  cross : ∀ L ∈ b.bids, ∀ M ∈ b.asks, L.price < M.price
  bidsIdx : ∀ L ∈ b.bids, ∀ o ∈ L.orders, idxFind? o.id b.orderIndex = some (Side.Buy, L.price)
  asksIdx : ∀ L ∈ b.asks, ∀ o ∈ L.orders, idxFind? o.id b.orderIndex = some (Side.Sell, L.price)
  idxSound : ∀ x s p, idxFind? x b.orderIndex = some (s, p) →
    ∃ L ∈ b.ladderOf s, L.price = p ∧ ∃ o ∈ L.orders, o.id = x
  nodupIds : (allIds b).Nodup

end Echomill

namespace Echomill

/-! ### Basic facts about orders, sums and the id index -/

theorem Order.fill_fields (o : Order) (x : Nat) :
    (o.fill x).id = o.id ∧ (o.fill x).side = o.side ∧ (o.fill x).type = o.type ∧
    (o.fill x).price = o.price ∧ (o.fill x).qty = o.qty ∧
    (o.fill x).timestamp = o.timestamp ∧ (o.fill x).remaining = o.remaining - x := by
  simp [Order.fill]

theorem Order.fill_fill (o : Order) (x y : Nat) : (o.fill x).fill y = o.fill (x + y) := by
  simp [Order.fill, Nat.sub_sub]

theorem sumRem_nil : sumRem [] = 0 := rfl

theorem sumRem_cons (o : Order) (os : List Order) :
    sumRem (o :: os) = o.remaining + sumRem os := by
  simp [sumRem]

theorem sumRem_append (l₁ l₂ : List Order) :
    sumRem (l₁ ++ l₂) = sumRem l₁ + sumRem l₂ := by
  simp [sumRem]

theorem sumQty_nil : sumQty [] = 0 := rfl

theorem sumQty_cons (t : Trade) (ts : List Trade) :
    sumQty (t :: ts) = t.qty + sumQty ts := by
  simp [sumQty]

theorem sumQty_append (l₁ l₂ : List Trade) :
    sumQty (l₁ ++ l₂) = sumQty l₁ + sumQty l₂ := by
  simp [sumQty]

theorem idxErase_find? (x id : Nat) (idx : OrderIndex) :
    (idxErase id idx).find? (fun e => e.1 == x) =
      if x = id then none else idx.find? (fun e => e.1 == x) := by
  induction idx with
  | nil => simp [idxErase]
  | cons e rest ih =>
    by_cases he : e.1 = id
    · have hdrop : idxErase id (e :: rest) = idxErase id rest := by
        simp [idxErase, List.filter_cons, he]
      by_cases hx : x = id
      · rw [hdrop, ih, if_pos hx, if_pos hx]
      · have h2 : (e.1 == x) = false := by
          refine beq_eq_false_iff_ne.mpr ?a
          rw [he]
          exact fun h => hx h.symm
        rw [hdrop, ih, if_neg hx, if_neg hx, List.find?_cons_of_neg _ (by simp [h2])]
    · have hkeep : idxErase id (e :: rest) = e :: idxErase id rest := by
        simp [idxErase, List.filter_cons, he]
      by_cases hex : e.1 = x
      · have hx : ¬ x = id := fun h => he (by rw [hex, h])
        rw [hkeep, if_neg hx, List.find?_cons_of_pos _ (by simp [hex]),
          List.find?_cons_of_pos _ (by simp [hex])]
      · have h2 : (e.1 == x) = false := beq_eq_false_iff_ne.mpr hex
        rw [hkeep, List.find?_cons_of_neg _ (by simp [h2]),
          List.find?_cons_of_neg _ (by simp [h2])] at *
        exact ih

theorem idxFind?_erase (x id : Nat) (idx : OrderIndex) :
    idxFind? x (idxErase id idx) = if x = id then none else idxFind? x idx := by
  unfold idxFind?
  rw [idxErase_find?]
  by_cases hx : x = id
  · simp [hx]
  · simp [hx]

theorem idxFind?_insert (x id : Nat) (v : Side × Int) (idx : OrderIndex) :
    idxFind? x (idxInsert id v idx) = if x = id then some v else idxFind? x idx := by
  unfold idxInsert idxFind?
  rw [List.find?_append, idxErase_find?]
  by_cases hx : x = id
  · simp [hx]
  · rw [if_neg hx, if_neg hx]
    have : (List.find? (fun e => e.1 == x) [(id, v)]) = none := by
      have hne : ((id, v).1 == x) = false := beq_eq_false_iff_ne.mpr (fun h => hx h.symm)
      simp [List.find?_singleton, hne]
    rw [this]
    simp

/-! ### Structure of the level-local matching loop -/

theorem matchAux_taker (p : Int) (t : Nat) (ms : List Order) :
    ∀ a : Order, ∀ tr ∈ (matchAux p t a ms).1,
      tr.takerOrderId = a.id ∧ tr.takerSide = a.side ∧ tr.price = p ∧ tr.timestamp = t := by
  induction ms with
  | nil => intro a tr htr; simp [matchAux] at htr
  | cons m rest ih =>
    intro a tr htr
    by_cases h0 : a.remaining = 0
    · simp [matchAux, h0] at htr
    · by_cases hf : m.remaining - min a.remaining m.remaining = 0
      · simp only [matchAux, if_neg h0, if_pos hf] at htr
        rcases List.mem_cons.mp htr with h | h
        · subst h; exact ⟨rfl, rfl, rfl, rfl⟩
        · have h3 := ih (a.fill (min a.remaining m.remaining)) tr h
          simpa [Order.fill] using h3
      · simp only [matchAux, if_neg h0, if_neg hf] at htr
        rcases List.mem_cons.mp htr with h | h
        · subst h; exact ⟨rfl, rfl, rfl, rfl⟩
        · simp at h

theorem matchAux_makers (p : Int) (t : Nat) (ms : List Order) :
    ∀ a : Order,
      (matchAux p t a ms).1.map Trade.makerOrderId =
        (ms.take (matchAux p t a ms).1.length).map Order.id := by
  induction ms with
  | nil => intro a; simp [matchAux]
  | cons m rest ih =>
    intro a
    by_cases h0 : a.remaining = 0
    · simp [matchAux, h0]
    · by_cases hf : m.remaining - min a.remaining m.remaining = 0
      · simp only [matchAux, if_neg h0, if_pos hf, List.map_cons, List.length_cons,
          List.take_succ_cons]
        rw [ih]
      · simp [matchAux, if_neg h0, if_neg hf]

theorem matchAux_length_le (p : Int) (t : Nat) (a : Order) (ms : List Order) :
    (matchAux p t a ms).1.length ≤ ms.length := by
  have h := congrArg List.length (matchAux_makers p t ms a)
  simp only [List.length_map, List.length_take] at h
  omega

theorem matchAux_agg (p : Int) (t : Nat) (ms : List Order) :
    ∀ a : Order,
      (matchAux p t a ms).2.2 = a.fill (sumQty (matchAux p t a ms).1) ∧
        sumQty (matchAux p t a ms).1 ≤ a.remaining := by
  induction ms with
  | nil => intro a; constructor <;> simp [matchAux, sumQty, Order.fill]
  | cons m rest ih =>
    intro a
    by_cases h0 : a.remaining = 0
    · constructor
      · simp only [matchAux, if_pos h0, sumQty_nil]
        simp [Order.fill]
      · simp only [matchAux, if_pos h0, sumQty_nil]
        exact Nat.zero_le _
    · by_cases hf : m.remaining - min a.remaining m.remaining = 0
      · obtain ⟨ih1, ih2⟩ := ih (a.fill (min a.remaining m.remaining))
        rw [show (a.fill (min a.remaining m.remaining)).remaining
            = a.remaining - min a.remaining m.remaining from rfl] at ih2
        simp only [matchAux, if_neg h0, if_pos hf]
        try dsimp only
        constructor
        · rw [sumQty_cons, ih1, Order.fill_fill]
          try dsimp only
        · rw [sumQty_cons]
          try dsimp only
          omega
      · constructor
        · simp only [matchAux, if_neg h0, if_neg hf]
          try dsimp only
          rw [sumQty_cons, sumQty_nil]
          try dsimp only
          rw [Nat.add_zero]
        · simp only [matchAux, if_neg h0, if_neg hf]
          try dsimp only
          rw [sumQty_cons, sumQty_nil]
          try dsimp only
          have := Nat.min_le_left a.remaining m.remaining
          omega

theorem matchAux_sumRem (p : Int) (t : Nat) (ms : List Order) :
    ∀ a : Order,
      sumRem (matchAux p t a ms).2.1 = sumRem ms - sumQty (matchAux p t a ms).1 ∧
        sumQty (matchAux p t a ms).1 ≤ sumRem ms := by
  induction ms with
  | nil => intro a; simp [matchAux, sumQty]
  | cons m rest ih =>
    intro a
    by_cases h0 : a.remaining = 0
    · simp [matchAux, h0, sumQty]
    · by_cases hf : m.remaining - min a.remaining m.remaining = 0
      · have hq : min a.remaining m.remaining = m.remaining := by
          have := Nat.min_le_right a.remaining m.remaining
          omega
        obtain ⟨ih1, ih2⟩ := ih (a.fill (min a.remaining m.remaining))
        rw [hq] at ih1 ih2
        simp only [matchAux, if_neg h0, if_pos hf]
        try dsimp only
        rw [sumRem_cons, sumQty_cons]
        try dsimp only
        rw [hq]
        constructor
        · rw [ih1]
          omega
        · omega
      · simp only [matchAux, if_neg h0, if_neg hf]
        try dsimp only
        rw [sumRem_cons, sumQty_cons, sumQty_nil, sumRem_cons]
        rw [show ((m.fill (min a.remaining m.remaining)).remaining)
            = m.remaining - min a.remaining m.remaining from rfl]
        try dsimp only
        have := Nat.min_le_right a.remaining m.remaining
        constructor
        · omega
        · omega

theorem matchAux_suffix (p : Int) (t : Nat) (ms : List Order) :
    ∀ a : Order,
      List.IsSuffix ((matchAux p t a ms).2.1.map Order.id) (ms.map Order.id) := by
  induction ms with
  | nil => intro a; simp [matchAux]
  | cons m rest ih =>
    intro a
    by_cases h0 : a.remaining = 0
    · simp [matchAux, h0]
    · by_cases hf : m.remaining - min a.remaining m.remaining = 0
      · simp only [matchAux, if_neg h0, if_pos hf]
        exact (ih (a.fill (min a.remaining m.remaining))).trans (List.suffix_cons _ _)
      · simp only [matchAux, if_neg h0, if_neg hf, List.map_cons]
        exact List.suffix_rfl

theorem matchAux_pos (p : Int) (t : Nat) (ms : List Order) :
    ∀ a : Order, (∀ q ∈ ms, 0 < q.remaining) →
      ∀ q ∈ (matchAux p t a ms).2.1, 0 < q.remaining := by
  induction ms with
  | nil => intro a _ q hq; simp [matchAux] at hq
  | cons m rest ih =>
    intro a hms q hq
    by_cases h0 : a.remaining = 0
    · simp only [matchAux, if_pos h0] at hq
      exact hms q hq
    · by_cases hf : m.remaining - min a.remaining m.remaining = 0
      · simp only [matchAux, if_neg h0, if_pos hf] at hq
        exact ih (a.fill (min a.remaining m.remaining)) (fun x hx => hms x (List.mem_cons_of_mem _ hx)) q hq
      · simp only [matchAux, if_neg h0, if_neg hf] at hq
        rcases List.mem_cons.mp hq with h | h
        · subst h
          simp only [Order.fill]
          omega
        · exact hms q (List.mem_cons_of_mem _ h)

theorem matchAux_mem (p : Int) (t : Nat) (ms : List Order) :
    ∀ a : Order, ∀ q ∈ (matchAux p t a ms).2.1, ∃ q₀ ∈ ms, ∃ d : Nat, q = q₀.fill d := by
  induction ms with
  | nil => intro a q hq; simp [matchAux] at hq
  | cons m rest ih =>
    intro a q hq
    by_cases h0 : a.remaining = 0
    · simp only [matchAux, if_pos h0] at hq
      exact ⟨q, hq, 0, by simp [Order.fill]⟩
    · by_cases hf : m.remaining - min a.remaining m.remaining = 0
      · simp only [matchAux, if_neg h0, if_pos hf] at hq
        obtain ⟨q₀, hq₀, d, hd⟩ := ih (a.fill (min a.remaining m.remaining)) q hq
        exact ⟨q₀, List.mem_cons_of_mem _ hq₀, d, hd⟩
      · simp only [matchAux, if_neg h0, if_neg hf] at hq
        rcases List.mem_cons.mp hq with h | h
        · exact ⟨m, List.mem_cons_self _ _, min a.remaining m.remaining, h⟩
        · exact ⟨q, List.mem_cons_of_mem _ h, 0, by simp [Order.fill]⟩

theorem matchAux_nonempty_out (p : Int) (t : Nat) (ms : List Order) :
    ∀ a : Order, (matchAux p t a ms).2.1 ≠ [] → (matchAux p t a ms).2.2.remaining = 0 := by
  induction ms with
  | nil => intro a h; simp [matchAux] at h
  | cons m rest ih =>
    intro a h
    by_cases h0 : a.remaining = 0
    · simp only [matchAux, if_pos h0]
      exact h0
    · by_cases hf : m.remaining - min a.remaining m.remaining = 0
      · simp only [matchAux, if_neg h0, if_pos hf] at h ⊢
        exact ih (a.fill (min a.remaining m.remaining)) h
      · simp only [matchAux, if_neg h0, if_neg hf, Order.fill]
        have : min a.remaining m.remaining = a.remaining := by
          have h1 := Nat.min_le_right a.remaining m.remaining
          have h2 := Nat.min_le_left a.remaining m.remaining
          rcases Nat.lt_or_ge a.remaining m.remaining with hlt | hge
          · exact Nat.min_eq_left (Nat.le_of_lt hlt)
          · omega
        omega

theorem matchAux_out_nil_length (p : Int) (t : Nat) (ms : List Order) :
    ∀ a : Order, (matchAux p t a ms).2.1 = [] → (matchAux p t a ms).1.length = ms.length := by
  induction ms with
  | nil => intro a _; simp [matchAux]
  | cons m rest ih =>
    intro a h
    by_cases h0 : a.remaining = 0
    · simp [matchAux, h0] at h
    · by_cases hf : m.remaining - min a.remaining m.remaining = 0
      · simp only [matchAux, if_neg h0, if_pos hf] at h ⊢
        simp only [List.length_cons]
        rw [ih (a.fill (min a.remaining m.remaining)) h]
      · simp [matchAux, if_neg h0, if_neg hf] at h

theorem matchAux_gone_is_maker (p : Int) (t : Nat) (ms : List Order) :
    ∀ a : Order, ∀ x : Nat, x ∈ ms.map Order.id →
      x ∉ (matchAux p t a ms).2.1.map Order.id →
      x ∈ (matchAux p t a ms).1.map Trade.makerOrderId := by
  induction ms with
  | nil => intro a x hx _; simp at hx
  | cons m rest ih =>
    intro a x hx hout
    by_cases h0 : a.remaining = 0
    · simp only [matchAux, if_pos h0] at hout
      exact absurd hx hout
    · by_cases hf : m.remaining - min a.remaining m.remaining = 0
      · simp only [matchAux, if_neg h0, if_pos hf] at hout ⊢
        simp only [List.map_cons, List.mem_cons] at hx ⊢
        rcases hx with h | h
        · exact Or.inl h
        · exact Or.inr (ih (a.fill (min a.remaining m.remaining)) x h hout)
      · simp only [matchAux, if_neg h0, if_neg hf, List.map_cons] at hout ⊢
        simp only [List.map_cons, List.mem_cons] at hx
        rcases hx with h | h
        · exact absurd (by simp [Order.fill, h]) hout
        · exact absurd (List.mem_cons_of_mem _ h) hout

theorem matchAux_full_fills (p : Int) (t : Nat) (ms : List Order) :
    ∀ a : Order,
      ((matchAux p t a ms).1.map Trade.qty).dropLast =
        ((ms.take (matchAux p t a ms).1.length).map Order.remaining).dropLast := by
  induction ms with
  | nil => intro a; simp [matchAux]
  | cons m rest ih =>
    intro a
    by_cases h0 : a.remaining = 0
    · simp [matchAux, h0]
    · by_cases hf : m.remaining - min a.remaining m.remaining = 0
      · have hq : min a.remaining m.remaining = m.remaining := by
          have := Nat.min_le_right a.remaining m.remaining
          omega
        have ihh := ih (a.fill (min a.remaining m.remaining))
        rw [hq] at ihh
        simp only [matchAux, if_neg h0, if_pos hf, List.map_cons, List.length_cons,
          List.take_succ_cons]
        try dsimp only
        rw [hq]
        rcases hM : (matchAux p t (a.fill m.remaining) rest).1 with _ | ⟨t1, ts1⟩
        · simp [hM]
        · rcases rest with _ | ⟨r1, rest2⟩
          · simp [matchAux] at hM
          · rw [hM] at ihh
            simp only [List.map_cons, List.length_cons, List.take_succ_cons] at ihh ⊢
            rw [List.dropLast_cons₂, List.dropLast_cons₂, ihh]
      · simp [matchAux, if_neg h0, if_neg hf]

theorem makerGone_of_absent (os : List Order) (x : Nat)
    (h : ∀ o ∈ os, ¬ o.id = x) : makerGone os x = true := by
  unfold makerGone
  have hnone : os.find? (fun o => o.id == x) = none :=
    List.find?_eq_none.mpr (fun o ho => by simp [h o ho])
  rw [hnone]

theorem makerGone_false_of_present (os : List Order) (x : Nat)
    (hpos : ∀ o ∈ os, 0 < o.remaining) (o : Order) (ho : o ∈ os) (hid : o.id = x) :
    makerGone os x = false := by
  rcases hfind : os.find? (fun o => o.id == x) with _ | q
  · rw [List.find?_eq_none] at hfind
    exact absurd (by simp [hid]) (hfind o ho)
  · have hq : q ∈ os := List.mem_of_find?_eq_some hfind
    have hp := hpos q hq
    have hfill : q.isFilled = false := by
      unfold Order.isFilled
      exact beq_eq_false_iff_ne.mpr (by omega)
    unfold makerGone
    rw [hfind]
    exact hfill

theorem eraseFilledMakers_find? (os : List Order) (ts : List Trade) (x : Nat) :
    ∀ idx : OrderIndex,
      idxFind? x (eraseFilledMakers os ts idx) =
        if x ∈ ts.map Trade.makerOrderId ∧ makerGone os x = true then none
        else idxFind? x idx := by
  induction ts with
  | nil => intro idx; simp [eraseFilledMakers]
  | cons t ts ih =>
    intro idx
    have hstep : eraseFilledMakers os (t :: ts) idx =
        eraseFilledMakers os ts
          (if makerGone os t.makerOrderId = true then idxErase t.makerOrderId idx else idx) := rfl
    rw [hstep, ih]
    simp only [List.map_cons, List.mem_cons]
    by_cases hmem : x ∈ ts.map Trade.makerOrderId ∧ makerGone os x = true
    · rw [if_pos hmem, if_pos ⟨Or.inr hmem.1, hmem.2⟩]
    · rw [if_neg hmem]
      by_cases hx : x = t.makerOrderId
      · by_cases hg : makerGone os x = true
        · rw [if_pos (by rw [hx] at hg; exact hg), idxFind?_erase, if_pos hx,
            if_pos ⟨Or.inl hx, hg⟩]
        · rw [if_neg (fun hc => hg (by rw [hx]; exact hc)), if_neg (fun hc => hg hc.2)]
      · by_cases hg : makerGone os t.makerOrderId = true
        · rw [if_pos hg, idxFind?_erase, if_neg hx,
            if_neg (fun hc => hmem ⟨hc.1.resolve_left hx, hc.2⟩)]
        · rw [if_neg hg, if_neg (fun hc => hmem ⟨hc.1.resolve_left hx, hc.2⟩)]

/-! ### Preservation of the book invariant through matching -/

theorem matchStep_asks (bids rest : List PriceLevel) (L : PriceLevel) (idx : OrderIndex)
    (a : Order) (t : Nat) (hWF : OrderBook.WF ⟨bids, L :: rest, idx⟩) :
    ∀ ts os' agg, matchAux L.price t a L.orders = (ts, os', agg) →
      (os' = [] → OrderBook.WF ⟨bids, rest, eraseFilledMakers os' ts idx⟩) ∧
      (os' ≠ [] → OrderBook.WF
        ⟨bids, { L with totalQty := L.totalQty - sumQty ts, orders := os' } :: rest,
          eraseFilledMakers os' ts idx⟩) := by
  intro ts os' agg hA
  obtain ⟨hLne, hLtq, hLpos⟩ := hWF.asksWF L (List.mem_cons_self _ _)
  have hpos' : ∀ q ∈ os', 0 < q.remaining := by
    have h := matchAux_pos L.price t L.orders a hLpos
    rw [hA] at h
    exact h
  have hsuf : List.IsSuffix (os'.map Order.id) (L.orders.map Order.id) := by
    have h := matchAux_suffix L.price t L.orders a
    rw [hA] at h
    exact h
  have hmakers : ts.map Trade.makerOrderId = (L.orders.take ts.length).map Order.id := by
    have h := matchAux_makers L.price t L.orders a
    rw [hA] at h
    exact h
  have hmaker_mem : ∀ x ∈ ts.map Trade.makerOrderId, x ∈ L.orders.map Order.id := by
    intro x hx
    rw [hmakers] at hx
    obtain ⟨o, ho, rfl⟩ := List.mem_map.mp hx
    exact List.mem_map_of_mem _ (List.take_subset _ _ ho)
  have hsum : sumRem os' = sumRem L.orders - sumQty ts := by
    have h := (matchAux_sumRem L.price t L.orders a).1
    rw [hA] at h
    exact h
  have hgone : ∀ x, x ∈ L.orders.map Order.id → x ∉ os'.map Order.id →
      x ∈ ts.map Trade.makerOrderId := by
    have h := matchAux_gone_is_maker L.price t L.orders a
    rw [hA] at h
    exact h
  have hmem' : ∀ q ∈ os', ∃ q₀ ∈ L.orders, ∃ d : Nat, q = q₀.fill d := by
    have h := matchAux_mem L.price t L.orders a
    rw [hA] at h
    exact h
  have hfind : ∀ x, idxFind? x (eraseFilledMakers os' ts idx) =
      if x ∈ ts.map Trade.makerOrderId ∧ makerGone os' x = true then none
      else idxFind? x idx := fun x => eraseFilledMakers_find? os' ts x idx
  have hnodup := hWF.nodupIds
  simp only [allIds, List.map_cons, List.flatten_cons] at hnodup
  have hdisjBA := List.disjoint_of_nodup_append hnodup
  have hnA := hnodup.of_append_right
  have hdisjLR := List.disjoint_of_nodup_append hnA
  have hkeepBid : ∀ Lb ∈ bids, ∀ o ∈ Lb.orders,
      idxFind? o.id (eraseFilledMakers os' ts idx) = idxFind? o.id idx := by
    intro Lb hLb o ho
    rw [hfind o.id]
    have hno : ¬ (o.id ∈ ts.map Trade.makerOrderId ∧ makerGone os' o.id = true) := by
      rintro ⟨hmk, _⟩
      have h1 : o.id ∈ L.orders.map Order.id := hmaker_mem _ hmk
      have h2 : o.id ∈ (bids.map (fun M => M.orders.map Order.id)).flatten :=
        List.mem_flatten.mpr ⟨Lb.orders.map Order.id, List.mem_map_of_mem _ hLb,
          List.mem_map_of_mem _ ho⟩
      exact hdisjBA h2 (List.mem_append.mpr (Or.inl h1))
    rw [if_neg hno]
  have hkeepRest : ∀ M ∈ rest, ∀ o ∈ M.orders,
      idxFind? o.id (eraseFilledMakers os' ts idx) = idxFind? o.id idx := by
    intro M hM o ho
    rw [hfind o.id]
    have hno : ¬ (o.id ∈ ts.map Trade.makerOrderId ∧ makerGone os' o.id = true) := by
      rintro ⟨hmk, _⟩
      have h1 : o.id ∈ L.orders.map Order.id := hmaker_mem _ hmk
      have h2 : o.id ∈ (rest.map (fun M => M.orders.map Order.id)).flatten :=
        List.mem_flatten.mpr ⟨M.orders.map Order.id, List.mem_map_of_mem _ hM,
          List.mem_map_of_mem _ ho⟩
      exact hdisjLR h1 h2
    rw [if_neg hno]
  have hkeepOut : ∀ q ∈ os',
      idxFind? q.id (eraseFilledMakers os' ts idx) = idxFind? q.id idx := by
    intro q hq
    rw [hfind q.id]
    have hno : ¬ (q.id ∈ ts.map Trade.makerOrderId ∧ makerGone os' q.id = true) := by
      rintro ⟨_, hgn⟩
      rw [makerGone_false_of_present os' q.id hpos' q hq rfl] at hgn
      exact Bool.false_ne_true hgn
    rw [if_neg hno]
  constructor
  · intro hnil
    subst hnil
    refine ⟨hWF.bidsSorted, (List.pairwise_cons.mp hWF.asksSorted).2, hWF.bidsWF,
      fun M hM => hWF.asksWF M (List.mem_cons_of_mem _ hM),
      fun Lb hLb M hM => hWF.cross Lb hLb M (List.mem_cons_of_mem _ hM),
      ?_, ?_, ?_, ?_⟩
    · intro Lb hLb o ho
      rw [hkeepBid Lb hLb o ho]
      exact hWF.bidsIdx Lb hLb o ho
    · intro M hM o ho
      rw [hkeepRest M hM o ho]
      exact hWF.asksIdx M (List.mem_cons_of_mem _ hM) o ho
    · intro x s p hx
      rw [hfind x] at hx
      by_cases hc : x ∈ ts.map Trade.makerOrderId ∧ makerGone [] x = true
      · rw [if_pos hc] at hx
        exact absurd hx (by simp)
      · rw [if_neg hc] at hx
        obtain ⟨L₀, hL₀, hp, o, ho, hoid⟩ := hWF.idxSound x s p hx
        cases s with
        | Buy => exact ⟨L₀, hL₀, hp, o, ho, hoid⟩
        | Sell =>
          rcases List.mem_cons.mp hL₀ with h | h
          · exfalso
            have hxL : x ∈ L.orders.map Order.id := by
              subst h
              exact hoid ▸ List.mem_map_of_mem _ ho
            have hmk := hgone x hxL (by simp)
            exact hc ⟨hmk, rfl⟩
          · exact ⟨L₀, h, hp, o, ho, hoid⟩
    · simp only [allIds]
      refine List.Nodup.sublist ?s hnodup
      exact (List.sublist_append_right _ _).append_left _
  · intro hne
    refine ⟨hWF.bidsSorted, ?_, hWF.bidsWF, ?_, ?_, ?_, ?_, ?_, ?_⟩
    · refine List.pairwise_cons.mpr ⟨?_, (List.pairwise_cons.mp hWF.asksSorted).2⟩
      intro M hM
      exact (List.pairwise_cons.mp hWF.asksSorted).1 M hM
    · intro M hM
      rcases List.mem_cons.mp hM with h | h
      · subst h
        refine ⟨hne, ?_, hpos'⟩
        show L.totalQty - sumQty ts = sumRem os'
        rw [hLtq, hsum]
      · exact hWF.asksWF M (List.mem_cons_of_mem _ h)
    · intro Lb hLb M hM
      rcases List.mem_cons.mp hM with h | h
      · subst h
        exact hWF.cross Lb hLb L (List.mem_cons_self _ _)
      · exact hWF.cross Lb hLb M (List.mem_cons_of_mem _ h)
    · intro Lb hLb o ho
      rw [hkeepBid Lb hLb o ho]
      exact hWF.bidsIdx Lb hLb o ho
    · intro M hM o ho
      rcases List.mem_cons.mp hM with h | h
      · have hq : o ∈ os' := by
          rw [h]  at ho
          exact ho
        rw [hkeepOut o hq]
        obtain ⟨q₀, hq₀, d, hd⟩ := hmem' o hq
        have hid : o.id = q₀.id := by rw [hd]; rfl
        rw [hid]
        have := hWF.asksIdx L (List.mem_cons_self _ _) q₀ hq₀
        rw [this]
        subst h
        rfl
      · rw [hkeepRest M h o ho]
        exact hWF.asksIdx M (List.mem_cons_of_mem _ h) o ho
    · intro x s p hx
      rw [hfind x] at hx
      by_cases hc : x ∈ ts.map Trade.makerOrderId ∧ makerGone os' x = true
      · rw [if_pos hc] at hx
        exact absurd hx (by simp)
      · rw [if_neg hc] at hx
        obtain ⟨L₀, hL₀, hp, o, ho, hoid⟩ := hWF.idxSound x s p hx
        cases s with
        | Buy => exact ⟨L₀, hL₀, hp, o, ho, hoid⟩
        | Sell =>
          rcases List.mem_cons.mp hL₀ with h | h
          · by_cases hxo : x ∈ os'.map Order.id
            · obtain ⟨q, hq, hqid⟩ := List.mem_map.mp hxo
              refine ⟨_, List.mem_cons_self _ _, ?_, q, hq, hqid⟩
              show L.price = p
              subst h
              exact hp
            · exfalso
              have hxL : x ∈ L.orders.map Order.id := by
                subst h
                exact hoid ▸ List.mem_map_of_mem _ ho
              have hmk := hgone x hxL hxo
              have hgn : makerGone os' x = true := by
                refine makerGone_of_absent os' x ?_
                intro q hq hqx
                exact hxo (hqx ▸ List.mem_map_of_mem _ hq)
              exact hc ⟨hmk, hgn⟩
          · exact ⟨L₀, List.mem_cons_of_mem _ h, hp, o, ho, hoid⟩
    · simp only [allIds, List.map_cons, List.flatten_cons]
      refine List.Nodup.sublist ?s2 hnodup
      exact ((hsuf.sublist.append_right _).append_left _)

theorem matchStep_bids (asks rest : List PriceLevel) (L : PriceLevel) (idx : OrderIndex)
    (a : Order) (t : Nat) (hWF : OrderBook.WF ⟨L :: rest, asks, idx⟩) :
    ∀ ts os' agg, matchAux L.price t a L.orders = (ts, os', agg) →
      (os' = [] → OrderBook.WF ⟨rest, asks, eraseFilledMakers os' ts idx⟩) ∧
      (os' ≠ [] → OrderBook.WF
        ⟨{ L with totalQty := L.totalQty - sumQty ts, orders := os' } :: rest, asks,
          eraseFilledMakers os' ts idx⟩) := by
  intro ts os' agg hA
  obtain ⟨hLne, hLtq, hLpos⟩ := hWF.bidsWF L (List.mem_cons_self _ _)
  have hpos' : ∀ q ∈ os', 0 < q.remaining := by
    have h := matchAux_pos L.price t L.orders a hLpos
    rw [hA] at h
    exact h
  have hsuf : List.IsSuffix (os'.map Order.id) (L.orders.map Order.id) := by
    have h := matchAux_suffix L.price t L.orders a
    rw [hA] at h
    exact h
  have hmakers : ts.map Trade.makerOrderId = (L.orders.take ts.length).map Order.id := by
    have h := matchAux_makers L.price t L.orders a
    rw [hA] at h
    exact h
  have hmaker_mem : ∀ x ∈ ts.map Trade.makerOrderId, x ∈ L.orders.map Order.id := by
    intro x hx
    rw [hmakers] at hx
    obtain ⟨o, ho, rfl⟩ := List.mem_map.mp hx
    exact List.mem_map_of_mem _ (List.take_subset _ _ ho)
  have hsum : sumRem os' = sumRem L.orders - sumQty ts := by
    have h := (matchAux_sumRem L.price t L.orders a).1
    rw [hA] at h
    exact h
  have hgone : ∀ x, x ∈ L.orders.map Order.id → x ∉ os'.map Order.id →
      x ∈ ts.map Trade.makerOrderId := by
    have h := matchAux_gone_is_maker L.price t L.orders a
    rw [hA] at h
    exact h
  have hmem' : ∀ q ∈ os', ∃ q₀ ∈ L.orders, ∃ d : Nat, q = q₀.fill d := by
    have h := matchAux_mem L.price t L.orders a
    rw [hA] at h
    exact h
  have hfind : ∀ x, idxFind? x (eraseFilledMakers os' ts idx) =
      if x ∈ ts.map Trade.makerOrderId ∧ makerGone os' x = true then none
      else idxFind? x idx := fun x => eraseFilledMakers_find? os' ts x idx
  have hnodup := hWF.nodupIds
  simp only [allIds, List.map_cons, List.flatten_cons] at hnodup
  have hdisjA := List.disjoint_of_nodup_append hnodup
  have hnB := hnodup.of_append_left
  have hdisjLR := List.disjoint_of_nodup_append hnB
  have hkeepAsk : ∀ La ∈ asks, ∀ o ∈ La.orders,
      idxFind? o.id (eraseFilledMakers os' ts idx) = idxFind? o.id idx := by
    intro La hLa o ho
    rw [hfind o.id]
    have hno : ¬ (o.id ∈ ts.map Trade.makerOrderId ∧ makerGone os' o.id = true) := by
      rintro ⟨hmk, _⟩
      have h1 : o.id ∈ L.orders.map Order.id := hmaker_mem _ hmk
      have h2 : o.id ∈ (asks.map (fun M => M.orders.map Order.id)).flatten :=
        List.mem_flatten.mpr ⟨La.orders.map Order.id, List.mem_map_of_mem _ hLa,
          List.mem_map_of_mem _ ho⟩
      exact hdisjA (List.mem_append.mpr (Or.inl h1)) h2
    rw [if_neg hno]
  have hkeepRest : ∀ M ∈ rest, ∀ o ∈ M.orders,
      idxFind? o.id (eraseFilledMakers os' ts idx) = idxFind? o.id idx := by
    intro M hM o ho
    rw [hfind o.id]
    have hno : ¬ (o.id ∈ ts.map Trade.makerOrderId ∧ makerGone os' o.id = true) := by
      rintro ⟨hmk, _⟩
      have h1 : o.id ∈ L.orders.map Order.id := hmaker_mem _ hmk
      have h2 : o.id ∈ (rest.map (fun M => M.orders.map Order.id)).flatten :=
        List.mem_flatten.mpr ⟨M.orders.map Order.id, List.mem_map_of_mem _ hM,
          List.mem_map_of_mem _ ho⟩
      exact hdisjLR h1 h2
    rw [if_neg hno]
  have hkeepOut : ∀ q ∈ os',
      idxFind? q.id (eraseFilledMakers os' ts idx) = idxFind? q.id idx := by
    intro q hq
    rw [hfind q.id]
    have hno : ¬ (q.id ∈ ts.map Trade.makerOrderId ∧ makerGone os' q.id = true) := by
      rintro ⟨_, hgn⟩
      rw [makerGone_false_of_present os' q.id hpos' q hq rfl] at hgn
      exact Bool.false_ne_true hgn
    rw [if_neg hno]
  constructor
  · intro hnil
    subst hnil
    refine ⟨(List.pairwise_cons.mp hWF.bidsSorted).2, hWF.asksSorted,
      fun M hM => hWF.bidsWF M (List.mem_cons_of_mem _ hM), hWF.asksWF,
      fun M hM La hLa => hWF.cross M (List.mem_cons_of_mem _ hM) La hLa,
      ?_, ?_, ?_, ?_⟩
    · intro M hM o ho
      rw [hkeepRest M hM o ho]
      exact hWF.bidsIdx M (List.mem_cons_of_mem _ hM) o ho
    · intro La hLa o ho
      rw [hkeepAsk La hLa o ho]
      exact hWF.asksIdx La hLa o ho
    · intro x s p hx
      rw [hfind x] at hx
      by_cases hc : x ∈ ts.map Trade.makerOrderId ∧ makerGone [] x = true
      · rw [if_pos hc] at hx
        exact absurd hx (by simp)
      · rw [if_neg hc] at hx
        obtain ⟨L₀, hL₀, hp, o, ho, hoid⟩ := hWF.idxSound x s p hx
        cases s with
        | Sell => exact ⟨L₀, hL₀, hp, o, ho, hoid⟩
        | Buy =>
          rcases List.mem_cons.mp hL₀ with h | h
          · exfalso
            have hxL : x ∈ L.orders.map Order.id := by
              subst h
              exact hoid ▸ List.mem_map_of_mem _ ho
            have hmk := hgone x hxL (by simp)
            exact hc ⟨hmk, rfl⟩
          · exact ⟨L₀, h, hp, o, ho, hoid⟩
    · simp only [allIds]
      refine List.Nodup.sublist ?s hnodup
      exact (List.sublist_append_right _ _).append_right _
  · intro hne
    refine ⟨?_, hWF.asksSorted, ?_, hWF.asksWF, ?_, ?_, ?_, ?_, ?_⟩
    · refine List.pairwise_cons.mpr ⟨?_, (List.pairwise_cons.mp hWF.bidsSorted).2⟩
      intro M hM
      exact (List.pairwise_cons.mp hWF.bidsSorted).1 M hM
    · intro M hM
      rcases List.mem_cons.mp hM with h | h
      · subst h
        refine ⟨hne, ?_, hpos'⟩
        show L.totalQty - sumQty ts = sumRem os'
        rw [hLtq, hsum]
      · exact hWF.bidsWF M (List.mem_cons_of_mem _ h)
    · intro M hM La hLa
      rcases List.mem_cons.mp hM with h | h
      · subst h
        exact hWF.cross L (List.mem_cons_self _ _) La hLa
      · exact hWF.cross M (List.mem_cons_of_mem _ h) La hLa
    · intro M hM o ho
      rcases List.mem_cons.mp hM with h | h
      · have hq : o ∈ os' := by
          rw [h] at ho
          exact ho
        rw [hkeepOut o hq]
        obtain ⟨q₀, hq₀, d, hd⟩ := hmem' o hq
        have hid : o.id = q₀.id := by rw [hd]; rfl
        rw [hid]
        have hv := hWF.bidsIdx L (List.mem_cons_self _ _) q₀ hq₀
        rw [hv]
        subst h
        rfl
      · rw [hkeepRest M h o ho]
        exact hWF.bidsIdx M (List.mem_cons_of_mem _ h) o ho
    · intro La hLa o ho
      rw [hkeepAsk La hLa o ho]
      exact hWF.asksIdx La hLa o ho
    · intro x s p hx
      rw [hfind x] at hx
      by_cases hc : x ∈ ts.map Trade.makerOrderId ∧ makerGone os' x = true
      · rw [if_pos hc] at hx
        exact absurd hx (by simp)
      · rw [if_neg hc] at hx
        obtain ⟨L₀, hL₀, hp, o, ho, hoid⟩ := hWF.idxSound x s p hx
        cases s with
        | Sell => exact ⟨L₀, hL₀, hp, o, ho, hoid⟩
        | Buy =>
          rcases List.mem_cons.mp hL₀ with h | h
          · by_cases hxo : x ∈ os'.map Order.id
            · obtain ⟨q, hq, hqid⟩ := List.mem_map.mp hxo
              refine ⟨_, List.mem_cons_self _ _, ?_, q, hq, hqid⟩
              show L.price = p
              subst h
              exact hp
            · exfalso
              have hxL : x ∈ L.orders.map Order.id := by
                subst h
                exact hoid ▸ List.mem_map_of_mem _ ho
              have hmk := hgone x hxL hxo
              have hgn : makerGone os' x = true := by
                refine makerGone_of_absent os' x ?_
                intro q hq hqx
                exact hxo (hqx ▸ List.mem_map_of_mem _ hq)
              exact hc ⟨hmk, hgn⟩
          · exact ⟨L₀, List.mem_cons_of_mem _ h, hp, o, ho, hoid⟩
    · simp only [allIds, List.map_cons, List.flatten_cons]
      refine List.Nodup.sublist ?s2 hnodup
      exact ((hsuf.sublist.append_right _).append_right _)

theorem priceStops_fill (a : Order) (s : Nat) (x : Int) :
    priceStops (a.fill s) x = priceStops a x := rfl

theorem matchLoop_WF_asks (bids : List PriceLevel) (t : Nat) (asks : List PriceLevel) :
    ∀ (a : Order) (idx : OrderIndex),
      OrderBook.WF ⟨bids, asks, idx⟩ →
      OrderBook.WF ⟨bids, (matchLoop t a idx asks).2.1, (matchLoop t a idx asks).2.2.1⟩ := by
  induction asks with
  | nil => intro a idx h; simpa [matchLoop] using h
  | cons L rest ih =>
    intro a idx hWF
    by_cases h0 : a.remaining = 0
    · simpa [matchLoop, h0] using hWF
    · by_cases hstop : a.type = OrderType.Limit ∧ priceStops a L.price
      · simpa [matchLoop, h0, hstop] using hWF
      · rcases hA : matchAux L.price t a L.orders with ⟨ts, os', agg⟩
        have hML : L.matchLevel a t = (ts, ⟨L.price, L.totalQty - sumQty ts, os'⟩, agg) := by
          unfold PriceLevel.matchLevel
          rw [hA]
        have hstep := matchStep_asks bids rest L idx a t hWF ts os' agg hA
        simp only [matchLoop, if_neg h0, if_neg hstop, hML]
        by_cases hemp : os'.isEmpty = true
        · have hnil : os' = [] := List.isEmpty_iff.mp hemp
          simp only [hemp, if_true]
          exact ih agg (eraseFilledMakers os' ts idx) (hstep.1 hnil)
        · have hne : os' ≠ [] := fun hc => hemp (by simp [hc])
          simp only [hemp, if_false]
          exact hstep.2 hne

theorem matchLoop_WF_bids (asks : List PriceLevel) (t : Nat) (bids : List PriceLevel) :
    ∀ (a : Order) (idx : OrderIndex),
      OrderBook.WF ⟨bids, asks, idx⟩ →
      OrderBook.WF ⟨(matchLoop t a idx bids).2.1, asks, (matchLoop t a idx bids).2.2.1⟩ := by
  induction bids with
  | nil => intro a idx h; simpa [matchLoop] using h
  | cons L rest ih =>
    intro a idx hWF
    by_cases h0 : a.remaining = 0
    · simpa [matchLoop, h0] using hWF
    · by_cases hstop : a.type = OrderType.Limit ∧ priceStops a L.price
      · simpa [matchLoop, h0, hstop] using hWF
      · rcases hA : matchAux L.price t a L.orders with ⟨ts, os', agg⟩
        have hML : L.matchLevel a t = (ts, ⟨L.price, L.totalQty - sumQty ts, os'⟩, agg) := by
          unfold PriceLevel.matchLevel
          rw [hA]
        have hstep := matchStep_bids asks rest L idx a t hWF ts os' agg hA
        simp only [matchLoop, if_neg h0, if_neg hstop, hML]
        by_cases hemp : os'.isEmpty = true
        · have hnil : os' = [] := List.isEmpty_iff.mp hemp
          simp only [hemp, if_true]
          exact ih agg (eraseFilledMakers os' ts idx) (hstep.1 hnil)
        · have hne : os' ≠ [] := fun hc => hemp (by simp [hc])
          simp only [hemp, if_false]
          exact hstep.2 hne

theorem matchLoop_agg (t : Nat) (lad : List PriceLevel) :
    ∀ (a : Order) (idx : OrderIndex),
      (matchLoop t a idx lad).2.2.2 = a.fill (sumQty (matchLoop t a idx lad).1) ∧
        sumQty (matchLoop t a idx lad).1 ≤ a.remaining := by
  induction lad with
  | nil => intro a idx; constructor <;> simp [matchLoop, sumQty, Order.fill]
  | cons L rest ih =>
    intro a idx
    by_cases h0 : a.remaining = 0
    · constructor
      · simp only [matchLoop, if_pos h0, sumQty_nil]
        simp [Order.fill]
      · simp only [matchLoop, if_pos h0, sumQty_nil]
        exact Nat.zero_le _
    · by_cases hstop : a.type = OrderType.Limit ∧ priceStops a L.price
      · constructor
        · simp only [matchLoop, if_neg h0, if_pos hstop, sumQty_nil]
          simp [Order.fill]
        · simp only [matchLoop, if_neg h0, if_pos hstop, sumQty_nil]
          exact Nat.zero_le _
      · rcases hA : matchAux L.price t a L.orders with ⟨ts, os', agg⟩
        have hML : L.matchLevel a t = (ts, ⟨L.price, L.totalQty - sumQty ts, os'⟩, agg) := by
          unfold PriceLevel.matchLevel
          rw [hA]
        have hagg : agg = a.fill (sumQty ts) ∧ sumQty ts ≤ a.remaining := by
          have h := matchAux_agg L.price t L.orders a
          rw [hA] at h
          exact h
        simp only [matchLoop, if_neg h0, if_neg hstop, hML]
        by_cases hemp : os'.isEmpty = true
        · simp only [hemp, if_true]
          obtain ⟨ih1, ih2⟩ := ih agg (eraseFilledMakers os' ts idx)
          try dsimp only
          constructor
          · rw [sumQty_append, ih1, hagg.1, Order.fill_fill]
          · rw [sumQty_append]
            have h2 := hagg.2
            have h3 : agg.remaining = a.remaining - sumQty ts := by
              rw [hagg.1]
              rfl
            omega
        · simp only [hemp, if_false]
          try dsimp only
          exact hagg

theorem matchLoop_stop (t : Nat) (lad : List PriceLevel) :
    ∀ (a : Order) (idx : OrderIndex),
      (matchLoop t a idx lad).2.2.2.remaining = 0 ∨
      (matchLoop t a idx lad).2.1 = [] ∨
      (∃ L2 rest2, (matchLoop t a idx lad).2.1 = L2 :: rest2 ∧
        a.type = OrderType.Limit ∧ priceStops a L2.price = true) := by
  induction lad with
  | nil => intro a idx; exact Or.inr (Or.inl rfl)
  | cons L rest ih =>
    intro a idx
    by_cases h0 : a.remaining = 0
    · left
      simp [matchLoop, h0]
    · by_cases hstop : a.type = OrderType.Limit ∧ priceStops a L.price
      · right
        right
        refine ⟨L, rest, ?_, hstop.1, ?_⟩
        · simp [matchLoop, h0, hstop]
        · have := hstop.2
          simpa using this
      · rcases hA : matchAux L.price t a L.orders with ⟨ts, os', agg⟩
        have hML : L.matchLevel a t = (ts, ⟨L.price, L.totalQty - sumQty ts, os'⟩, agg) := by
          unfold PriceLevel.matchLevel
          rw [hA]
        have hagg : agg = a.fill (sumQty ts) := by
          have h := (matchAux_agg L.price t L.orders a).1
          rw [hA] at h
          exact h
        simp only [matchLoop, if_neg h0, if_neg hstop, hML]
        by_cases hemp : os'.isEmpty = true
        · simp only [hemp, if_true]
          rcases ih agg (eraseFilledMakers os' ts idx) with h | h | ⟨L2, rest2, hout, hty, hps⟩
          · left
            exact h
          · right
            left
            exact h
          · right
            right
            refine ⟨L2, rest2, hout, ?_, ?_⟩
            · rw [hagg] at hty
              exact hty
            · rw [hagg, priceStops_fill] at hps
              exact hps
        · simp only [hemp, if_false]
          left
          have hne : os' ≠ [] := fun hc => hemp (by simp [hc])
          have h := matchAux_nonempty_out L.price t L.orders a
          rw [hA] at h
          exact h hne

theorem matchLoop_idx_none (t : Nat) (lad : List PriceLevel) :
    ∀ (a : Order) (idx : OrderIndex) (x : Nat), idxFind? x idx = none →
      idxFind? x (matchLoop t a idx lad).2.2.1 = none := by
  induction lad with
  | nil => intro a idx x h; simpa [matchLoop] using h
  | cons L rest ih =>
    intro a idx x h
    by_cases h0 : a.remaining = 0
    · simpa [matchLoop, h0] using h
    · by_cases hstop : a.type = OrderType.Limit ∧ priceStops a L.price
      · simpa [matchLoop, h0, hstop] using h
      · rcases hA : matchAux L.price t a L.orders with ⟨ts, os', agg⟩
        have hML : L.matchLevel a t = (ts, ⟨L.price, L.totalQty - sumQty ts, os'⟩, agg) := by
          unfold PriceLevel.matchLevel
          rw [hA]
        have hstepidx : idxFind? x (eraseFilledMakers os' ts idx) = none := by
          rw [eraseFilledMakers_find?]
          by_cases hc : x ∈ ts.map Trade.makerOrderId ∧ makerGone os' x = true
          · rw [if_pos hc]
          · rw [if_neg hc]
            exact h
        simp only [matchLoop, if_neg h0, if_neg hstop, hML]
        by_cases hemp : os'.isEmpty = true
        · simp only [hemp, if_true]
          exact ih agg (eraseFilledMakers os' ts idx) x hstepidx
        · simp only [hemp, if_false]
          exact hstepidx

theorem matchLoop_ids (t : Nat) (lad : List PriceLevel) :
    ∀ (a : Order) (idx : OrderIndex), ∀ M ∈ (matchLoop t a idx lad).2.1, ∀ q ∈ M.orders,
      ∃ M₀ ∈ lad, ∃ q₀ ∈ M₀.orders, q₀.id = q.id := by
  induction lad with
  | nil => intro a idx M hM; simp [matchLoop] at hM
  | cons L rest ih =>
    intro a idx M hM q hq
    by_cases h0 : a.remaining = 0
    · simp only [matchLoop, if_pos h0] at hM
      exact ⟨M, hM, q, hq, rfl⟩
    · by_cases hstop : a.type = OrderType.Limit ∧ priceStops a L.price
      · simp only [matchLoop, if_neg h0, if_pos hstop] at hM
        exact ⟨M, hM, q, hq, rfl⟩
      · rcases hA : matchAux L.price t a L.orders with ⟨ts, os', agg⟩
        have hML : L.matchLevel a t = (ts, ⟨L.price, L.totalQty - sumQty ts, os'⟩, agg) := by
          unfold PriceLevel.matchLevel
          rw [hA]
        simp only [matchLoop, if_neg h0, if_neg hstop, hML] at hM
        by_cases hemp : os'.isEmpty = true
        · simp only [hemp, if_true] at hM
          obtain ⟨M₀, hM₀, q₀, hq₀, hid⟩ := ih agg (eraseFilledMakers os' ts idx) M hM q hq
          exact ⟨M₀, List.mem_cons_of_mem _ hM₀, q₀, hq₀, hid⟩
        · simp only [hemp, if_false] at hM
          rcases List.mem_cons.mp hM with h | h
          · have hq' : q ∈ os' := by
              rw [h] at hq
              exact hq
            have hmm := matchAux_mem L.price t L.orders a
            rw [hA] at hmm
            obtain ⟨q₀, hq₀, d, hd⟩ := hmm q hq'
            refine ⟨L, List.mem_cons_self _ _, q₀, hq₀, ?_⟩
            rw [hd]
            rfl
          · exact ⟨M, List.mem_cons_of_mem _ h, q, hq, rfl⟩

/-! ### Locating orders and levels -/

theorem splitFirstById_none_iff (id : Nat) (os : List Order) :
    splitFirstById id os = none ↔ ∀ o ∈ os, ¬ o.id = id := by
  induction os with
  | nil => simp [splitFirstById]
  | cons o rest ih =>
    by_cases h : o.id = id
    · simp [splitFirstById, h]
    · rcases hs : splitFirstById id rest with _ | ⟨pre, m, post⟩
      · simp only [splitFirstById, if_neg h, hs, List.mem_cons]
        constructor
        · intro _ q hq
          rcases hq with hq | hq
          · rw [hq]
            exact h
          · exact (ih.mp hs) q hq
        · intro _
          trivial
      · simp only [splitFirstById, if_neg h, hs, List.mem_cons]
        constructor
        · intro hc
          exact absurd hc (by simp)
        · intro hall
          have hnone : splitFirstById id rest = none := ih.mpr (fun q hq => hall q (Or.inr hq))
          rw [hnone] at hs
          exact absurd hs (by simp)

theorem splitFirstById_some_spec (id : Nat) (os : List Order) :
    ∀ pre m post, splitFirstById id os = some (pre, m, post) →
      os = pre ++ m :: post ∧ m.id = id ∧ ∀ o ∈ pre, ¬ o.id = id := by
  induction os with
  | nil => intro pre m post h; simp [splitFirstById] at h
  | cons o rest ih =>
    intro pre m post h
    by_cases ho : o.id = id
    · simp only [splitFirstById, if_pos ho, Option.some.injEq, Prod.mk.injEq] at h
      obtain ⟨h1, h2, h3⟩ := h
      subst h1
      subst h2
      subst h3
      exact ⟨rfl, ho, by simp⟩
    · simp only [splitFirstById, if_neg ho] at h
      rcases hs : splitFirstById id rest with _ | ⟨pre2, m2, post2⟩
      · rw [hs] at h
        simp at h
      · rw [hs] at h
        simp only [Option.some.injEq, Prod.mk.injEq] at h
        obtain ⟨h1, h2, h3⟩ := h
        obtain ⟨heq, hid, hprev⟩ := ih pre2 m2 post2 hs
        subst h2
        subst h3
        rw [← h1]
        refine ⟨?_, hid, ?_⟩
        · simp [heq]
        · intro q hq
          rcases List.mem_cons.mp hq with hq | hq
          · rw [hq]
            exact ho
          · exact hprev q hq

theorem splitFirstById_found (id : Nat) (os : List Order) (o : Order)
    (ho : o ∈ os) (hid : o.id = id) : splitFirstById id os ≠ none := by
  intro hc
  exact (splitFirstById_none_iff id os).mp hc o ho hid

theorem pairwise_set_price (R : Int → Int → Prop) (pre post : List PriceLevel) (L L' : PriceLevel)
    (hp : L'.price = L.price)
    (h : (pre ++ L :: post).Pairwise (fun A B => R A.price B.price)) :
    (pre ++ L' :: post).Pairwise (fun A B => R A.price B.price) := by
  rw [List.pairwise_append] at h ⊢
  obtain ⟨h1, h2, h3⟩ := h
  rw [List.pairwise_cons] at h2 ⊢
  refine ⟨h1, ⟨fun M hM => ?_, h2.2⟩, fun x hx y hy => ?_⟩
  · rw [hp]
    exact h2.1 M hM
  · rcases List.mem_cons.mp hy with hy | hy
    · rw [hy, hp]
      exact h3 x hx L (List.mem_cons_self _ _)
    · exact h3 x hx y (List.mem_cons_of_mem _ hy)

theorem cancelInLadder_decomp (id : Nat) (p : Int) (pre post : List PriceLevel) (L : PriceLevel)
    (hpre : ∀ M ∈ pre, ¬ M.price = p) (hL : L.price = p) :
    cancelInLadder id p (pre ++ L :: post) =
      ((L.removeOrder id).1,
        if (L.removeOrder id).2.orders.isEmpty then pre ++ post
        else pre ++ (L.removeOrder id).2 :: post) := by
  induction pre with
  | nil =>
    simp only [List.nil_append, cancelInLadder, if_pos hL]
    by_cases h : (L.removeOrder id).2.orders.isEmpty = true <;> simp [h]
  | cons M pre2 ih =>
    have hM : ¬ M.price = p := hpre M (List.mem_cons_self _ _)
    simp only [List.cons_append, cancelInLadder, if_neg hM, List.append_eq]
    rw [ih (fun N hN => hpre N (List.mem_cons_of_mem _ hN))]
    by_cases h : (L.removeOrder id).2.orders.isEmpty = true <;> simp [h]

/-! ### The cancel path -/

theorem removeOrder_price (L : PriceLevel) (id : Nat) :
    (L.removeOrder id).2.price = L.price := by
  unfold PriceLevel.removeOrder
  rcases h : splitFirstById id L.orders with _ | ⟨pre, m, post⟩ <;> rfl

theorem cancelInLadder_prices (id : Nat) (p : Int) (lad : List PriceLevel) :
    ∀ M ∈ (cancelInLadder id p lad).2, M.price ∈ lad.map PriceLevel.price := by
  induction lad with
  | nil => intro M hM; simp [cancelInLadder] at hM
  | cons L rest ih =>
    intro M hM
    by_cases hL : L.price = p
    · simp only [cancelInLadder, if_pos hL] at hM
      by_cases he : (L.removeOrder id).2.orders.isEmpty = true
      · rw [if_pos he] at hM
        exact List.mem_cons_of_mem _ (List.mem_map_of_mem _ hM)
      · rw [if_neg he] at hM
        rcases List.mem_cons.mp hM with h | h
        · rw [h, removeOrder_price]
          exact List.mem_cons_self _ _
        · exact List.mem_cons_of_mem _ (List.mem_map_of_mem _ h)
    · simp only [cancelInLadder, if_neg hL] at hM
      rcases List.mem_cons.mp hM with h | h
      · rw [h]
        exact List.mem_cons_self _ _
      · exact List.mem_cons_of_mem _ (ih M h)

theorem cancelOrder_eq_of_idx_none (b : OrderBook) (id : Nat)
    (h : idxFind? id b.orderIndex = none) : b.cancelOrder id = (false, b) := by
  unfold OrderBook.cancelOrder
  rw [h]

theorem cancelInLadder_found (R : Int → Int → Prop) (hirr : ∀ x y : Int, R x y → ¬ x = y)
    (id : Nat) (p : Int) (lad : List PriceLevel)
    (hsort : lad.Pairwise (fun A B => R A.price B.price))
    (L : PriceLevel) (hL : L ∈ lad) (hLp : L.price = p)
    (o : Order) (ho : o ∈ L.orders) (hoid : o.id = id) :
    ∃ pre post pre2 m post2,
      lad = pre ++ L :: post ∧
      L.orders = pre2 ++ m :: post2 ∧ m.id = id ∧ (∀ q ∈ pre2, ¬ q.id = id) ∧
      cancelInLadder id p lad =
        (true,
          if (pre2 ++ post2).isEmpty then pre ++ post
          else pre ++ { L with totalQty := L.totalQty - m.remaining, orders := pre2 ++ post2 } :: post) := by
  obtain ⟨pre, post, hdecomp⟩ := List.append_of_mem hL
  have hpre : ∀ M ∈ pre, ¬ M.price = p := by
    intro M hM hMp
    rw [hdecomp] at hsort
    have hr := (List.pairwise_append.mp hsort).2.2 M hM L (List.mem_cons_self _ _)
    exact hirr _ _ hr (by rw [hMp, hLp])
  rcases hsp : splitFirstById id L.orders with _ | ⟨pre2, m, post2⟩
  · exact absurd hsp (splitFirstById_found id L.orders o ho hoid)
  · obtain ⟨heq, hmid, hprev⟩ := splitFirstById_some_spec id L.orders pre2 m post2 hsp
    have hrem : L.removeOrder id =
        (true, { L with totalQty := L.totalQty - m.remaining, orders := pre2 ++ post2 }) := by
      unfold PriceLevel.removeOrder
      rw [hsp]
    refine ⟨pre, post, pre2, m, post2, hdecomp, heq, hmid, hprev, ?_⟩
    rw [hdecomp, cancelInLadder_decomp id p pre post L hpre hLp, hrem]

theorem hasResting_iff_idx (b : OrderBook) (hWF : b.WF) (id : Nat) :
    b.hasResting id = true ↔ (idxFind? id b.orderIndex).isSome = true := by
  constructor
  · intro h
    unfold OrderBook.hasResting at h
    rw [List.any_eq_true] at h
    obtain ⟨L, hL, h2⟩ := h
    rw [List.any_eq_true] at h2
    obtain ⟨o, ho, hid⟩ := h2
    have hid' : o.id = id := by simpa using hid
    rcases List.mem_append.mp hL with h | h
    · have hv := hWF.bidsIdx L h o ho
      rw [hid'] at hv
      rw [hv]
      rfl
    · have hv := hWF.asksIdx L h o ho
      rw [hid'] at hv
      rw [hv]
      rfl
  · intro h
    rcases hidx : idxFind? id b.orderIndex with _ | ⟨s, p⟩
    · rw [hidx] at h
      simp at h
    · obtain ⟨L, hL, hp, o, ho, hoid⟩ := hWF.idxSound id s p hidx
      unfold OrderBook.hasResting
      rw [List.any_eq_true]
      refine ⟨L, ?_, ?_⟩
      · cases s with
        | Buy => exact List.mem_append.mpr (Or.inl hL)
        | Sell => exact List.mem_append.mpr (Or.inr hL)
      · rw [List.any_eq_true]
        exact ⟨o, ho, by simp [hoid]⟩

theorem nodup_once {l A B : List Nat} {x : Nat} (h : l.Nodup) (hdec : l = A ++ x :: B) :
    x ∉ A ∧ x ∉ B := by
  rw [hdec, List.nodup_append] at h
  obtain ⟨_, h2, h3⟩ := h
  rw [List.nodup_cons] at h2
  exact ⟨fun hx => h3 hx (List.mem_cons_self _ _), h2.1⟩

theorem cancelOrder_found_buy (b : OrderBook) (id : Nat) (hWF : b.WF) (p : Int)
    (hidx : idxFind? id b.orderIndex = some (Side.Buy, p)) :
    (b.cancelOrder id).1 = true ∧ (b.cancelOrder id).2.WF ∧
      idxFind? id (b.cancelOrder id).2.orderIndex = none := by
  obtain ⟨L, hL, hLp, o, ho, hoid⟩ := hWF.idxSound id Side.Buy p hidx
  obtain ⟨pre, post, pre2, m, post2, hdecomp, heq, hmid, hprev, hcl⟩ :=
    cancelInLadder_found (fun x y => y < x) (fun x y h hx => by omega) id p b.bids
      hWF.bidsSorted L hL hLp o ho hoid
  have hc : b.cancelOrder id =
      (true,
        { b with bids := (cancelInLadder id p b.bids).2, orderIndex := idxErase id b.orderIndex }) := by
    unfold OrderBook.cancelOrder
    simp only [hidx, hcl]
    simp
  have hdec2 : allIds b =
      ((pre.map (fun M => M.orders.map Order.id)).flatten ++ pre2.map Order.id) ++
        id :: (post2.map Order.id ++ ((post.map (fun M => M.orders.map Order.id)).flatten ++
          (b.asks.map (fun M => M.orders.map Order.id)).flatten)) := by
    rw [allIds, hdecomp]
    simp only [List.map_append, List.map_cons, List.flatten_append, List.flatten_cons, heq]
    rw [hmid]
    simp [List.append_assoc]
  obtain ⟨hnotA, hnotB⟩ := nodup_once hWF.nodupIds hdec2
  have hne_pre : ∀ M ∈ pre, ∀ q ∈ M.orders, ¬ q.id = id := by
    intro M hM q hq hc2
    refine hnotA (List.mem_append.mpr (Or.inl ?_))
    rw [← hc2]
    exact List.mem_flatten.mpr ⟨M.orders.map Order.id, List.mem_map_of_mem _ hM,
      List.mem_map_of_mem _ hq⟩
  have hne_post : ∀ M ∈ post, ∀ q ∈ M.orders, ¬ q.id = id := by
    intro M hM q hq hc2
    refine hnotB (List.mem_append.mpr (Or.inr (List.mem_append.mpr (Or.inl ?_))))
    rw [← hc2]
    exact List.mem_flatten.mpr ⟨M.orders.map Order.id, List.mem_map_of_mem _ hM,
      List.mem_map_of_mem _ hq⟩
  have hne_asks : ∀ M ∈ b.asks, ∀ q ∈ M.orders, ¬ q.id = id := by
    intro M hM q hq hc2
    refine hnotB (List.mem_append.mpr (Or.inr (List.mem_append.mpr (Or.inr ?_))))
    rw [← hc2]
    exact List.mem_flatten.mpr ⟨M.orders.map Order.id, List.mem_map_of_mem _ hM,
      List.mem_map_of_mem _ hq⟩
  have hne_pre2 : ∀ q ∈ pre2, ¬ q.id = id := by
    intro q hq hc2
    refine hnotA (List.mem_append.mpr (Or.inr ?_))
    rw [← hc2]
    exact List.mem_map_of_mem _ hq
  have hne_post2 : ∀ q ∈ post2, ¬ q.id = id := by
    intro q hq hc2
    refine hnotB (List.mem_append.mpr (Or.inl ?_))
    rw [← hc2]
    exact List.mem_map_of_mem _ hq
  obtain ⟨hLne, hLtq, hLpos⟩ := hWF.bidsWF L hL
  have hmemL : ∀ q ∈ pre2 ++ post2, q ∈ L.orders := by
    intro q hq
    rw [heq]
    rcases List.mem_append.mp hq with h | h
    · exact List.mem_append.mpr (Or.inl h)
    · exact List.mem_append.mpr (Or.inr (List.mem_cons_of_mem _ h))
  have hLtq' : L.totalQty - m.remaining = sumRem (pre2 ++ post2) := by
    rw [hLtq, heq, sumRem_append, sumRem_cons, sumRem_append]
    omega
  have hkeep : ∀ q : Nat, ¬ q = id →
      idxFind? q (idxErase id b.orderIndex) = idxFind? q b.orderIndex := by
    intro q hq
    rw [idxFind?_erase, if_neg hq]
  have hmempre : ∀ M ∈ pre, M ∈ b.bids := by
    intro M hM
    rw [hdecomp]
    exact List.mem_append.mpr (Or.inl hM)
  have hmempost : ∀ M ∈ post, M ∈ b.bids := by
    intro M hM
    rw [hdecomp]
    exact List.mem_append.mpr (Or.inr (List.mem_cons_of_mem _ hM))
  rw [hc]
  refine ⟨rfl, ?_, ?_⟩
  · rw [hcl]
    by_cases hemp : (pre2 ++ post2).isEmpty = true
    · have hnil : pre2 ++ post2 = [] := List.isEmpty_iff.mp hemp
      obtain ⟨hnil2, hnil3⟩ := List.append_eq_nil.mp hnil
      rw [if_pos hemp]
      have hsub : List.Sublist (pre ++ post) b.bids := by
        rw [hdecomp]
        exact (List.sublist_cons_self L post).append_left pre
      refine ⟨List.Pairwise.sublist hsub hWF.bidsSorted, hWF.asksSorted,
        fun M hM => hWF.bidsWF M (hsub.subset hM), hWF.asksWF,
        fun Lb hLb M hM => hWF.cross Lb (hsub.subset hLb) M hM, ?_, ?_, ?_, ?_⟩
      · intro M hM q hq
        have hne : ¬ q.id = id := by
          rcases List.mem_append.mp hM with h | h
          · exact hne_pre M h q hq
          · exact hne_post M h q hq
        rw [hkeep q.id hne]
        exact hWF.bidsIdx M (hsub.subset hM) q hq
      · intro M hM q hq
        rw [hkeep q.id (hne_asks M hM q hq)]
        exact hWF.asksIdx M hM q hq
      · intro x s₀ p₀ hx
        by_cases hxid : x = id
        · rw [hxid, idxFind?_erase, if_pos rfl] at hx
          exact absurd hx (by simp)
        · rw [hkeep x hxid] at hx
          obtain ⟨L₀, hL₀, hp₀, o₀, ho₀, ho₀id⟩ := hWF.idxSound x s₀ p₀ hx
          cases s₀ with
          | Sell => exact ⟨L₀, hL₀, hp₀, o₀, ho₀, ho₀id⟩
          | Buy =>
            simp only [OrderBook.ladderOf] at hL₀
            rw [hdecomp] at hL₀
            rcases List.mem_append.mp hL₀ with h | h
            · exact ⟨L₀, List.mem_append.mpr (Or.inl h), hp₀, o₀, ho₀, ho₀id⟩
            · rcases List.mem_cons.mp h with h2 | h2
              · exfalso
                rw [h2, heq, hnil2, hnil3] at ho₀
                simp only [List.nil_append] at ho₀
                rcases List.mem_singleton.mp ho₀ with h3
                rw [h3] at ho₀id
                rw [hmid] at ho₀id
                exact hxid ho₀id.symm
              · exact ⟨L₀, List.mem_append.mpr (Or.inr h2), hp₀, o₀, ho₀, ho₀id⟩
      · have hn := hWF.nodupIds
        rw [allIds, hdecomp] at hn
        simp only [List.map_append, List.map_cons, List.flatten_append, List.flatten_cons] at hn
        simp only [allIds, List.map_append, List.flatten_append]
        refine List.Nodup.sublist ?sb hn
        exact ((List.sublist_append_right _ _).append_left _).append_right _
    · have hne2 : pre2 ++ post2 ≠ [] := fun hcc => hemp (by simp [hcc])
      rw [if_neg hemp]
      refine ⟨?_, hWF.asksSorted, ?_, hWF.asksWF, ?_, ?_, ?_, ?_, ?_⟩
      · have hs := hWF.bidsSorted
        rw [hdecomp] at hs
        exact pairwise_set_price (fun x y => y < x) pre post L _ rfl hs
      · intro M hM
        rcases List.mem_append.mp hM with h | h
        · exact hWF.bidsWF M (hmempre M h)
        · rcases List.mem_cons.mp h with h2 | h2
          · rw [h2]
            refine ⟨hne2, ?_, fun q hq => hLpos q (hmemL q hq)⟩
            exact hLtq'
          · exact hWF.bidsWF M (hmempost M h2)
      · intro Lb hLb M hM
        rcases List.mem_append.mp hLb with h | h
        · exact hWF.cross Lb (hmempre Lb h) M hM
        · rcases List.mem_cons.mp h with h2 | h2
          · rw [h2]
            exact hWF.cross L hL M hM
          · exact hWF.cross Lb (hmempost Lb h2) M hM
      · intro M hM q hq
        rcases List.mem_append.mp hM with h | h
        · rw [hkeep q.id (hne_pre M h q hq)]
          exact hWF.bidsIdx M (hmempre M h) q hq
        · rcases List.mem_cons.mp h with h2 | h2
          · have hq2 : q ∈ pre2 ++ post2 := by
              rw [h2] at hq
              exact hq
            have hne : ¬ q.id = id := by
              rcases List.mem_append.mp hq2 with h3 | h3
              · exact hne_pre2 q h3
              · exact hne_post2 q h3
            rw [hkeep q.id hne]
            have hv := hWF.bidsIdx L hL q (hmemL q hq2)
            rw [hv, h2]
          · rw [hkeep q.id (hne_post M h2 q hq)]
            exact hWF.bidsIdx M (hmempost M h2) q hq
      · intro M hM q hq
        rw [hkeep q.id (hne_asks M hM q hq)]
        exact hWF.asksIdx M hM q hq
      · intro x s₀ p₀ hx
        by_cases hxid : x = id
        · rw [hxid, idxFind?_erase, if_pos rfl] at hx
          exact absurd hx (by simp)
        · rw [hkeep x hxid] at hx
          obtain ⟨L₀, hL₀, hp₀, o₀, ho₀, ho₀id⟩ := hWF.idxSound x s₀ p₀ hx
          cases s₀ with
          | Sell => exact ⟨L₀, hL₀, hp₀, o₀, ho₀, ho₀id⟩
          | Buy =>
            simp only [OrderBook.ladderOf] at hL₀
            rw [hdecomp] at hL₀
            rcases List.mem_append.mp hL₀ with h | h
            · exact ⟨L₀, List.mem_append.mpr (Or.inl h), hp₀, o₀, ho₀, ho₀id⟩
            · rcases List.mem_cons.mp h with h2 | h2
              · have ho₀' : o₀ ∈ pre2 ++ m :: post2 := by
                  rw [h2, heq] at ho₀
                  exact ho₀
                have ho₀ne : ¬ o₀ = m := by
                  intro hc3
                  rw [hc3, hmid] at ho₀id
                  exact hxid ho₀id.symm
                have ho₀'' : o₀ ∈ pre2 ++ post2 := by
                  rcases List.mem_append.mp ho₀' with h3 | h3
                  · exact List.mem_append.mpr (Or.inl h3)
                  · rcases List.mem_cons.mp h3 with h4 | h4
                    · exact absurd h4 ho₀ne
                    · exact List.mem_append.mpr (Or.inr h4)
                refine ⟨_, List.mem_append.mpr (Or.inr (List.mem_cons_self _ _)), ?_, o₀, ho₀'', ho₀id⟩
                show L.price = p₀
                rw [← hp₀, h2]
              · exact ⟨L₀, List.mem_append.mpr (Or.inr (List.mem_cons_of_mem _ h2)), hp₀, o₀, ho₀, ho₀id⟩
      · have hn := hWF.nodupIds
        rw [allIds, hdecomp] at hn
        simp only [List.map_append, List.map_cons, List.flatten_append, List.flatten_cons,
          heq] at hn
        simp only [allIds, List.map_append, List.map_cons, List.flatten_append,
          List.flatten_cons]
        refine List.Nodup.sublist ?sb2 hn
        have hinner : List.Sublist (List.map Order.id pre2 ++ List.map Order.id post2)
            (List.map Order.id pre2 ++ m.id :: List.map Order.id post2) :=
          (List.sublist_cons_self _ _).append_left _
        exact ((hinner.append_right _).append_left _).append_right _
  · rw [idxFind?_erase, if_pos rfl]

theorem cancelOrder_found_sell (b : OrderBook) (id : Nat) (hWF : b.WF) (p : Int)
    (hidx : idxFind? id b.orderIndex = some (Side.Sell, p)) :
    (b.cancelOrder id).1 = true ∧ (b.cancelOrder id).2.WF ∧
      idxFind? id (b.cancelOrder id).2.orderIndex = none := by
  obtain ⟨L, hL, hLp, o, ho, hoid⟩ := hWF.idxSound id Side.Sell p hidx
  obtain ⟨pre, post, pre2, m, post2, hdecomp, heq, hmid, hprev, hcl⟩ :=
    cancelInLadder_found (fun x y => x < y) (fun x y h hx => by omega) id p b.asks
      hWF.asksSorted L hL hLp o ho hoid
  have hc : b.cancelOrder id =
      (true,
        { b with asks := (cancelInLadder id p b.asks).2, orderIndex := idxErase id b.orderIndex }) := by
    unfold OrderBook.cancelOrder
    simp only [hidx, hcl]
    simp
  have hdec2 : allIds b =
      (((b.bids.map (fun M => M.orders.map Order.id)).flatten ++
          (pre.map (fun M => M.orders.map Order.id)).flatten) ++ pre2.map Order.id) ++
        id :: (post2.map Order.id ++ (post.map (fun M => M.orders.map Order.id)).flatten) := by
    rw [allIds, hdecomp]
    simp only [List.map_append, List.map_cons, List.flatten_append, List.flatten_cons, heq]
    rw [hmid]
    simp [List.append_assoc]
  obtain ⟨hnotA, hnotB⟩ := nodup_once hWF.nodupIds hdec2
  have hne_bids : ∀ M ∈ b.bids, ∀ q ∈ M.orders, ¬ q.id = id := by
    intro M hM q hq hc2
    refine hnotA (List.mem_append.mpr (Or.inl (List.mem_append.mpr (Or.inl ?_))))
    rw [← hc2]
    exact List.mem_flatten.mpr ⟨M.orders.map Order.id, List.mem_map_of_mem _ hM,
      List.mem_map_of_mem _ hq⟩
  have hne_pre : ∀ M ∈ pre, ∀ q ∈ M.orders, ¬ q.id = id := by
    intro M hM q hq hc2
    refine hnotA (List.mem_append.mpr (Or.inl (List.mem_append.mpr (Or.inr ?_))))
    rw [← hc2]
    exact List.mem_flatten.mpr ⟨M.orders.map Order.id, List.mem_map_of_mem _ hM,
      List.mem_map_of_mem _ hq⟩
  have hne_post : ∀ M ∈ post, ∀ q ∈ M.orders, ¬ q.id = id := by
    intro M hM q hq hc2
    refine hnotB (List.mem_append.mpr (Or.inr ?_))
    rw [← hc2]
    exact List.mem_flatten.mpr ⟨M.orders.map Order.id, List.mem_map_of_mem _ hM,
      List.mem_map_of_mem _ hq⟩
  have hne_pre2 : ∀ q ∈ pre2, ¬ q.id = id := by
    intro q hq hc2
    refine hnotA (List.mem_append.mpr (Or.inr ?_))
    rw [← hc2]
    exact List.mem_map_of_mem _ hq
  have hne_post2 : ∀ q ∈ post2, ¬ q.id = id := by
    intro q hq hc2
    refine hnotB (List.mem_append.mpr (Or.inl ?_))
    rw [← hc2]
    exact List.mem_map_of_mem _ hq
  obtain ⟨hLne, hLtq, hLpos⟩ := hWF.asksWF L hL
  have hmemL : ∀ q ∈ pre2 ++ post2, q ∈ L.orders := by
    intro q hq
    rw [heq]
    rcases List.mem_append.mp hq with h | h
    · exact List.mem_append.mpr (Or.inl h)
    · exact List.mem_append.mpr (Or.inr (List.mem_cons_of_mem _ h))
  have hLtq' : L.totalQty - m.remaining = sumRem (pre2 ++ post2) := by
    rw [hLtq, heq, sumRem_append, sumRem_cons, sumRem_append]
    omega
  have hkeep : ∀ q : Nat, ¬ q = id →
      idxFind? q (idxErase id b.orderIndex) = idxFind? q b.orderIndex := by
    intro q hq
    rw [idxFind?_erase, if_neg hq]
  have hmempre : ∀ M ∈ pre, M ∈ b.asks := by
    intro M hM
    rw [hdecomp]
    exact List.mem_append.mpr (Or.inl hM)
  have hmempost : ∀ M ∈ post, M ∈ b.asks := by
    intro M hM
    rw [hdecomp]
    exact List.mem_append.mpr (Or.inr (List.mem_cons_of_mem _ hM))
  rw [hc]
  refine ⟨rfl, ?_, ?_⟩
  · rw [hcl]
    by_cases hemp : (pre2 ++ post2).isEmpty = true
    · have hnil : pre2 ++ post2 = [] := List.isEmpty_iff.mp hemp
      obtain ⟨hnil2, hnil3⟩ := List.append_eq_nil.mp hnil
      rw [if_pos hemp]
      have hsub : List.Sublist (pre ++ post) b.asks := by
        rw [hdecomp]
        exact (List.sublist_cons_self L post).append_left pre
      refine ⟨hWF.bidsSorted, List.Pairwise.sublist hsub hWF.asksSorted, hWF.bidsWF,
        fun M hM => hWF.asksWF M (hsub.subset hM),
        fun Lb hLb M hM => hWF.cross Lb hLb M (hsub.subset hM), ?_, ?_, ?_, ?_⟩
      · intro M hM q hq
        rw [hkeep q.id (hne_bids M hM q hq)]
        exact hWF.bidsIdx M hM q hq
      · intro M hM q hq
        have hne : ¬ q.id = id := by
          rcases List.mem_append.mp hM with h | h
          · exact hne_pre M h q hq
          · exact hne_post M h q hq
        rw [hkeep q.id hne]
        exact hWF.asksIdx M (hsub.subset hM) q hq
      · intro x s₀ p₀ hx
        by_cases hxid : x = id
        · rw [hxid, idxFind?_erase, if_pos rfl] at hx
          exact absurd hx (by simp)
        · rw [hkeep x hxid] at hx
          obtain ⟨L₀, hL₀, hp₀, o₀, ho₀, ho₀id⟩ := hWF.idxSound x s₀ p₀ hx
          cases s₀ with
          | Buy => exact ⟨L₀, hL₀, hp₀, o₀, ho₀, ho₀id⟩
          | Sell =>
            simp only [OrderBook.ladderOf] at hL₀
            rw [hdecomp] at hL₀
            rcases List.mem_append.mp hL₀ with h | h
            · exact ⟨L₀, List.mem_append.mpr (Or.inl h), hp₀, o₀, ho₀, ho₀id⟩
            · rcases List.mem_cons.mp h with h2 | h2
              · exfalso
                rw [h2, heq, hnil2, hnil3] at ho₀
                simp only [List.nil_append] at ho₀
                rcases List.mem_singleton.mp ho₀ with h3
                rw [h3] at ho₀id
                rw [hmid] at ho₀id
                exact hxid ho₀id.symm
              · exact ⟨L₀, List.mem_append.mpr (Or.inr h2), hp₀, o₀, ho₀, ho₀id⟩
      · have hn := hWF.nodupIds
        rw [allIds, hdecomp] at hn
        simp only [List.map_append, List.map_cons, List.flatten_append, List.flatten_cons] at hn
        simp only [allIds, List.map_append, List.flatten_append]
        refine List.Nodup.sublist ?sb hn
        exact ((List.sublist_append_right _ _).append_left _).append_left _
    · have hne2 : pre2 ++ post2 ≠ [] := fun hcc => hemp (by simp [hcc])
      rw [if_neg hemp]
      refine ⟨hWF.bidsSorted, ?_, hWF.bidsWF, ?_, ?_, ?_, ?_, ?_, ?_⟩
      · have hs := hWF.asksSorted
        rw [hdecomp] at hs
        exact pairwise_set_price (fun x y => x < y) pre post L _ rfl hs
      · intro M hM
        rcases List.mem_append.mp hM with h | h
        · exact hWF.asksWF M (hmempre M h)
        · rcases List.mem_cons.mp h with h2 | h2
          · rw [h2]
            refine ⟨hne2, ?_, fun q hq => hLpos q (hmemL q hq)⟩
            exact hLtq'
          · exact hWF.asksWF M (hmempost M h2)
      · intro Lb hLb M hM
        rcases List.mem_append.mp hM with h | h
        · exact hWF.cross Lb hLb M (hmempre M h)
        · rcases List.mem_cons.mp h with h2 | h2
          · rw [h2]
            exact hWF.cross Lb hLb L hL
          · exact hWF.cross Lb hLb M (hmempost M h2)
      · intro M hM q hq
        rw [hkeep q.id (hne_bids M hM q hq)]
        exact hWF.bidsIdx M hM q hq
      · intro M hM q hq
        rcases List.mem_append.mp hM with h | h
        · rw [hkeep q.id (hne_pre M h q hq)]
          exact hWF.asksIdx M (hmempre M h) q hq
        · rcases List.mem_cons.mp h with h2 | h2
          · have hq2 : q ∈ pre2 ++ post2 := by
              rw [h2] at hq
              exact hq
            have hne : ¬ q.id = id := by
              rcases List.mem_append.mp hq2 with h3 | h3
              · exact hne_pre2 q h3
              · exact hne_post2 q h3
            rw [hkeep q.id hne]
            have hv := hWF.asksIdx L hL q (hmemL q hq2)
            rw [hv, h2]
          · rw [hkeep q.id (hne_post M h2 q hq)]
            exact hWF.asksIdx M (hmempost M h2) q hq
      · intro x s₀ p₀ hx
        by_cases hxid : x = id
        · rw [hxid, idxFind?_erase, if_pos rfl] at hx
          exact absurd hx (by simp)
        · rw [hkeep x hxid] at hx
          obtain ⟨L₀, hL₀, hp₀, o₀, ho₀, ho₀id⟩ := hWF.idxSound x s₀ p₀ hx
          cases s₀ with
          | Buy => exact ⟨L₀, hL₀, hp₀, o₀, ho₀, ho₀id⟩
          | Sell =>
            simp only [OrderBook.ladderOf] at hL₀
            rw [hdecomp] at hL₀
            rcases List.mem_append.mp hL₀ with h | h
            · exact ⟨L₀, List.mem_append.mpr (Or.inl h), hp₀, o₀, ho₀, ho₀id⟩
            · rcases List.mem_cons.mp h with h2 | h2
              · have ho₀' : o₀ ∈ pre2 ++ m :: post2 := by
                  rw [h2, heq] at ho₀
                  exact ho₀
                have ho₀ne : ¬ o₀ = m := by
                  intro hc3
                  rw [hc3, hmid] at ho₀id
                  exact hxid ho₀id.symm
                have ho₀'' : o₀ ∈ pre2 ++ post2 := by
                  rcases List.mem_append.mp ho₀' with h3 | h3
                  · exact List.mem_append.mpr (Or.inl h3)
                  · rcases List.mem_cons.mp h3 with h4 | h4
                    · exact absurd h4 ho₀ne
                    · exact List.mem_append.mpr (Or.inr h4)
                refine ⟨_, List.mem_append.mpr (Or.inr (List.mem_cons_self _ _)), ?_, o₀, ho₀'', ho₀id⟩
                show L.price = p₀
                rw [← hp₀, h2]
              · exact ⟨L₀, List.mem_append.mpr (Or.inr (List.mem_cons_of_mem _ h2)), hp₀, o₀, ho₀, ho₀id⟩
      · have hn := hWF.nodupIds
        rw [allIds, hdecomp] at hn
        simp only [List.map_append, List.map_cons, List.flatten_append, List.flatten_cons,
          heq] at hn
        simp only [allIds, List.map_append, List.map_cons, List.flatten_append,
          List.flatten_cons]
        refine List.Nodup.sublist ?sb2 hn
        have hinner : List.Sublist (List.map Order.id pre2 ++ List.map Order.id post2)
            (List.map Order.id pre2 ++ m.id :: List.map Order.id post2) :=
          (List.sublist_cons_self _ _).append_left _
        exact (((hinner.append_right _).append_left _)).append_left _
  · rw [idxFind?_erase, if_pos rfl]

theorem cancelOrder_spec (b : OrderBook) (id : Nat) (hWF : b.WF) :
    (b.cancelOrder id).2.WF ∧
    idxFind? id (b.cancelOrder id).2.orderIndex = none ∧
    ((b.cancelOrder id).1 = true ↔ b.hasResting id = true) := by
  rcases hidx : idxFind? id b.orderIndex with _ | ⟨s, p⟩
  · rw [cancelOrder_eq_of_idx_none b id hidx]
    refine ⟨hWF, hidx, ?_⟩
    rw [hasResting_iff_idx b hWF id, hidx]
    simp
  · have hrest : b.hasResting id = true := by
      rw [hasResting_iff_idx b hWF id, hidx]
      rfl
    cases s with
    | Buy =>
      obtain ⟨h1, h2, h3⟩ := cancelOrder_found_buy b id hWF p hidx
      exact ⟨h2, h3, by simp [h1, hrest]⟩
    | Sell =>
      obtain ⟨h1, h2, h3⟩ := cancelOrder_found_sell b id hWF p hidx
      exact ⟨h2, h3, by simp [h1, hrest]⟩

theorem cancelOrder_prices_bids (b : OrderBook) (id : Nat) :
    ∀ M ∈ (b.cancelOrder id).2.bids, M.price ∈ b.bids.map PriceLevel.price := by
  intro M hM
  unfold OrderBook.cancelOrder at hM
  rcases hidx : idxFind? id b.orderIndex with _ | ⟨s, p⟩ <;> rw [hidx] at hM
  · exact List.mem_map_of_mem _ hM
  · cases s with
    | Buy =>
      by_cases hr : (cancelInLadder id p b.bids).1 = true <;> simp only [hr] at hM
      · simp only [if_true] at hM
        exact cancelInLadder_prices id p b.bids M hM
      · simp only [Bool.false_eq_true, if_false] at hM
        exact cancelInLadder_prices id p b.bids M hM
    | Sell =>
      by_cases hr : (cancelInLadder id p b.asks).1 = true <;> simp only [hr] at hM
      · simp only [if_true] at hM
        exact List.mem_map_of_mem _ hM
      · simp only [Bool.false_eq_true, if_false] at hM
        exact List.mem_map_of_mem _ hM

theorem cancelOrder_prices_asks (b : OrderBook) (id : Nat) :
    ∀ M ∈ (b.cancelOrder id).2.asks, M.price ∈ b.asks.map PriceLevel.price := by
  intro M hM
  unfold OrderBook.cancelOrder at hM
  rcases hidx : idxFind? id b.orderIndex with _ | ⟨s, p⟩ <;> rw [hidx] at hM
  · exact List.mem_map_of_mem _ hM
  · cases s with
    | Buy =>
      by_cases hr : (cancelInLadder id p b.bids).1 = true <;> simp only [hr] at hM
      · simp only [if_true] at hM
        exact List.mem_map_of_mem _ hM
      · simp only [Bool.false_eq_true, if_false] at hM
        exact List.mem_map_of_mem _ hM
    | Sell =>
      by_cases hr : (cancelInLadder id p b.asks).1 = true <;> simp only [hr] at hM
      · simp only [if_true] at hM
        exact cancelInLadder_prices id p b.asks M hM
      · simp only [Bool.false_eq_true, if_false] at hM
        exact cancelInLadder_prices id p b.asks M hM

/-! ### The insert path -/

theorem emplaceAdd_mem (before : Int → Int → Bool) (o : Order) (lad : List PriceLevel) :
    ∀ M ∈ ladderEmplaceAdd before o lad,
      M ∈ lad ∨ (∃ M₀ ∈ lad, M₀.price = o.price ∧ M = M₀.addOrder o) ∨
        M = (PriceLevel.init o.price).addOrder o := by
  induction lad with
  | nil =>
    intro M hM
    simp only [ladderEmplaceAdd, List.mem_singleton] at hM
    exact Or.inr (Or.inr hM)
  | cons L rest ih =>
    intro M hM
    by_cases heq : L.price = o.price
    · simp only [ladderEmplaceAdd, if_pos heq] at hM
      rcases List.mem_cons.mp hM with h | h
      · exact Or.inr (Or.inl ⟨L, List.mem_cons_self _ _, heq, h⟩)
      · exact Or.inl (List.mem_cons_of_mem _ h)
    · by_cases hbef : before o.price L.price = true
      · simp only [ladderEmplaceAdd, if_neg heq, if_pos hbef] at hM
        rcases List.mem_cons.mp hM with h | h
        · exact Or.inr (Or.inr h)
        · exact Or.inl h
      · simp only [ladderEmplaceAdd, if_neg heq, if_neg hbef] at hM
        rcases List.mem_cons.mp hM with h | h
        · exact Or.inl (by rw [h]; exact List.mem_cons_self _ _)
        · rcases ih M h with h2 | h2 | h2
          · exact Or.inl (List.mem_cons_of_mem _ h2)
          · obtain ⟨M₀, hM₀, hp, he⟩ := h2
            exact Or.inr (Or.inl ⟨M₀, List.mem_cons_of_mem _ hM₀, hp, he⟩)
          · exact Or.inr (Or.inr h2)

theorem emplaceAdd_contains (before : Int → Int → Bool) (o : Order) (lad : List PriceLevel) :
    ∃ M ∈ ladderEmplaceAdd before o lad, M.price = o.price ∧
      ∃ old, M.orders = old ++ [o] ∧ (old = [] ∨ ∃ M₀ ∈ lad, old = M₀.orders) := by
  induction lad with
  | nil =>
    refine ⟨(PriceLevel.init o.price).addOrder o, List.mem_singleton.mpr rfl, rfl, [], rfl,
      Or.inl rfl⟩
  | cons L rest ih =>
    by_cases heq : L.price = o.price
    · refine ⟨L.addOrder o, ?_, heq, L.orders, rfl, Or.inr ⟨L, List.mem_cons_self _ _, rfl⟩⟩
      simp only [ladderEmplaceAdd, if_pos heq]
      exact List.mem_cons_self _ _
    · by_cases hbef : before o.price L.price = true
      · refine ⟨(PriceLevel.init o.price).addOrder o, ?_, rfl, [], rfl, Or.inl rfl⟩
        simp only [ladderEmplaceAdd, if_neg heq, if_pos hbef]
        exact List.mem_cons_self _ _
      · obtain ⟨M, hM, hp, old, ho, hold⟩ := ih
        refine ⟨M, ?_, hp, old, ho, ?_⟩
        · simp only [ladderEmplaceAdd, if_neg heq, if_neg hbef]
          exact List.mem_cons_of_mem _ hM
        · rcases hold with h | ⟨M₀, hM₀, he⟩
          · exact Or.inl h
          · exact Or.inr ⟨M₀, List.mem_cons_of_mem _ hM₀, he⟩

theorem emplaceAdd_ids_perm (before : Int → Int → Bool) (o : Order) (lad : List PriceLevel) :
    List.Perm (((ladderEmplaceAdd before o lad).map (fun M => M.orders.map Order.id)).flatten)
      (o.id :: (lad.map (fun M => M.orders.map Order.id)).flatten) := by
  induction lad with
  | nil => simp [ladderEmplaceAdd, PriceLevel.addOrder, PriceLevel.init]
  | cons L rest ih =>
    by_cases heq : L.price = o.price
    · simp only [ladderEmplaceAdd, if_pos heq, List.map_cons, List.flatten_cons,
        PriceLevel.addOrder, List.map_append, List.map_singleton]
      exact (List.perm_append_singleton _ _).append_right _
    · by_cases hbef : before o.price L.price = true
      · simp only [ladderEmplaceAdd, if_neg heq, if_pos hbef, List.map_cons, List.flatten_cons,
          PriceLevel.addOrder, PriceLevel.init, List.map_append, List.map_singleton]
        simp
      · simp only [ladderEmplaceAdd, if_neg heq, if_neg hbef, List.map_cons, List.flatten_cons]
        exact (List.Perm.append_left _ ih).trans List.perm_middle

theorem emplaceAdd_mem_price (before : Int → Int → Bool) (o : Order) (lad : List PriceLevel) :
    ∀ M ∈ ladderEmplaceAdd before o lad,
      M.price ∈ lad.map PriceLevel.price ∨ M.price = o.price := by
  intro M hM
  rcases emplaceAdd_mem before o lad M hM with h | ⟨M₀, hM₀, hp, he⟩ | h
  · exact Or.inl (List.mem_map_of_mem _ h)
  · right
    rw [he, ← hp]
    rfl
  · right
    rw [h]
    rfl

theorem emplaceAdd_sorted (R : Int → Int → Prop) (before : Int → Int → Bool)
    (hcompat : ∀ x y, before x y = true → R x y)
    (htri : ∀ x y, ¬ x = y → ¬ before x y = true → R y x)
    (htrans : ∀ x y z, R x y → R y z → R x z) (o : Order) (lad : List PriceLevel)
    (h : lad.Pairwise (fun A B => R A.price B.price)) :
    (ladderEmplaceAdd before o lad).Pairwise (fun A B => R A.price B.price) := by
  induction lad with
  | nil => simp [ladderEmplaceAdd]
  | cons L rest ih =>
    obtain ⟨hhead, htail⟩ := List.pairwise_cons.mp h
    by_cases heq : L.price = o.price
    · simp only [ladderEmplaceAdd, if_pos heq]
      refine List.pairwise_cons.mpr ⟨?_, htail⟩
      intro M hM
      exact hhead M hM
    · by_cases hbef : before o.price L.price = true
      · simp only [ladderEmplaceAdd, if_neg heq, if_pos hbef]
        refine List.pairwise_cons.mpr ⟨?_, h⟩
        intro M hM
        rcases List.mem_cons.mp hM with h2 | h2
        · rw [h2]
          exact hcompat _ _ hbef
        · exact htrans _ _ _ (hcompat _ _ hbef) (hhead M h2)
      · simp only [ladderEmplaceAdd, if_neg heq, if_neg hbef]
        refine List.pairwise_cons.mpr ⟨?_, ih htail⟩
        intro M hM
        rcases emplaceAdd_mem_price before o rest M hM with h2 | h2
        · obtain ⟨M₀, hM₀, hp⟩ := List.mem_map.mp h2
          rw [← hp]
          exact hhead M₀ hM₀
        · rw [h2]
          exact htri _ _ (fun hh => heq hh.symm) hbef

theorem ladderFind?_of_sorted (R : Int → Int → Prop) (hirr : ∀ x y : Int, R x y → ¬ x = y)
    (lad : List PriceLevel) (hsort : lad.Pairwise (fun A B => R A.price B.price))
    (M : PriceLevel) (hM : M ∈ lad) : ladderFind? M.price lad = some M := by
  induction lad with
  | nil => simp at hM
  | cons L rest ih =>
    obtain ⟨hhead, htail⟩ := List.pairwise_cons.mp hsort
    by_cases heq : L.price = M.price
    · have hLM : L = M := by
        rcases List.mem_cons.mp hM with h | h
        · exact h.symm
        · exact absurd heq (hirr _ _ (hhead M h))
      unfold ladderFind?
      rw [List.find?_cons_of_pos _ (by simp [heq])]
      rw [hLM]
    · have hMrest : M ∈ rest := by
        rcases List.mem_cons.mp hM with h | h
        · exact absurd (by rw [h]) heq
        · exact h
      unfold ladderFind?
      rw [List.find?_cons_of_neg _ (by simp [heq])]
      exact ih htail hMrest

theorem no_order_of_idx_none (b : OrderBook) (hWF : b.WF) (x : Nat)
    (h : idxFind? x b.orderIndex = none) :
    ∀ M ∈ b.bids ++ b.asks, ∀ q ∈ M.orders, ¬ q.id = x := by
  intro M hM q hq hcq
  rcases List.mem_append.mp hM with h2 | h2
  · have hv := hWF.bidsIdx M h2 q hq
    rw [hcq, h] at hv
    exact absurd hv (by simp)
  · have hv := hWF.asksIdx M h2 q hq
    rw [hcq, h] at hv
    exact absurd hv (by simp)

theorem emplaceAdd_to (before : Int → Int → Bool) (o : Order) (lad : List PriceLevel) :
    ∀ M₀ ∈ lad, M₀ ∈ ladderEmplaceAdd before o lad ∨
      (M₀.price = o.price ∧ M₀.addOrder o ∈ ladderEmplaceAdd before o lad) := by
  induction lad with
  | nil => intro M₀ hM₀; simp at hM₀
  | cons L rest ih =>
    intro M₀ hM₀
    by_cases heq : L.price = o.price
    · simp only [ladderEmplaceAdd, if_pos heq]
      rcases List.mem_cons.mp hM₀ with h | h
      · right
        rw [h]
        exact ⟨heq, List.mem_cons_self _ _⟩
      · exact Or.inl (List.mem_cons_of_mem _ h)
    · by_cases hbef : before o.price L.price = true
      · simp only [ladderEmplaceAdd, if_neg heq, if_pos hbef]
        exact Or.inl (List.mem_cons_of_mem _ hM₀)
      · simp only [ladderEmplaceAdd, if_neg heq, if_neg hbef]
        rcases List.mem_cons.mp hM₀ with h | h
        · left
          rw [h]
          exact List.mem_cons_self _ _
        · rcases ih M₀ h with h2 | ⟨hp, h2⟩
          · exact Or.inl (List.mem_cons_of_mem _ h2)
          · exact Or.inr ⟨hp, List.mem_cons_of_mem _ h2⟩

theorem insertOrder_spec_buy (b : OrderBook) (o : Order) (hWF : b.WF) (hpos : 0 < o.remaining)
    (hside : o.side = Side.Buy) (hcross : ∀ M ∈ b.asks, o.price < M.price) :
    (b.insertOrder o).WF ∧
    idxFind? o.id (b.insertOrder o).orderIndex = some (o.side, o.price) ∧
    (b.insertOrder o).findOrder o.id = some o ∧
    (∀ M ∈ (b.insertOrder o).bids ++ (b.insertOrder o).asks, ∀ q ∈ M.orders,
      q.id = o.id → q = o) := by
  have hb1 : ∃ b1 : OrderBook, (b.insertOrder o) =
      { b1 with bids := ladderEmplaceAdd bidBefore o b1.bids, orderIndex := idxInsert o.id (o.side, o.price) b1.orderIndex } ∧
      b1.WF ∧ idxFind? o.id b1.orderIndex = none ∧ (∀ M ∈ b1.asks, o.price < M.price) := by
    by_cases hp : (idxFind? o.id b.orderIndex).isSome = true
    · refine ⟨(b.cancelOrder o.id).2, ?_, (cancelOrder_spec b o.id hWF).1,
        (cancelOrder_spec b o.id hWF).2.1, ?_⟩
      · unfold OrderBook.insertOrder
        rw [if_pos hp]
        cases hs : o.side
        · rfl
        · rw [hs] at hside; exact absurd hside (by simp)
      · intro M hM
        obtain ⟨M₀, hM₀, hp₀⟩ := List.mem_map.mp (cancelOrder_prices_asks b o.id M hM)
        rw [← hp₀]
        exact hcross M₀ hM₀
    · refine ⟨b, ?_, hWF, ?_, hcross⟩
      · unfold OrderBook.insertOrder
        rw [if_neg hp]
        cases hs : o.side
        · rfl
        · rw [hs] at hside; exact absurd hside (by simp)
      · rcases h : idxFind? o.id b.orderIndex with _ | v
        · rfl
        · rw [h] at hp
          exact absurd rfl hp
  obtain ⟨b1, hres, hWF1, hidx1, hcross1⟩ := hb1
  have hno1 := no_order_of_idx_none b1 hWF1 o.id hidx1
  have hkeep : ∀ q : Nat, ¬ q = o.id →
      idxFind? q (idxInsert o.id (o.side, o.price) b1.orderIndex) = idxFind? q b1.orderIndex := by
    intro q hq
    rw [idxFind?_insert, if_neg hq]
  have hnew : idxFind? o.id (idxInsert o.id (o.side, o.price) b1.orderIndex) =
      some (o.side, o.price) := by
    rw [idxFind?_insert, if_pos rfl]
  have hsorted' : (ladderEmplaceAdd bidBefore o b1.bids).Pairwise
      (fun A B => B.price < A.price) := by
    refine emplaceAdd_sorted (fun x y => y < x) bidBefore ?_ ?_ ?_ o b1.bids hWF1.bidsSorted
    · intro x y h
      simpa [bidBefore] using h
    · intro x y hne hb
      simp only [bidBefore, decide_eq_true_eq] at hb
      omega
    · intro x y z h1 h2
      omega
  have hWF' : (b.insertOrder o).WF := by
    rw [hres]
    refine ⟨hsorted', hWF1.asksSorted, ?_, hWF1.asksWF, ?_, ?_, ?_, ?_, ?_⟩
    · intro M hM
      rcases emplaceAdd_mem bidBefore o b1.bids M hM with h | ⟨M₀, hM₀, hp₀, he⟩ | h
      · exact hWF1.bidsWF M h
      · obtain ⟨hn0, ht0, hp0⟩ := hWF1.bidsWF M₀ hM₀
        rw [he]
        refine ⟨by simp [PriceLevel.addOrder], ?_, ?_⟩
        · show M₀.totalQty + o.remaining = sumRem (M₀.orders ++ [o])
          rw [sumRem_append, sumRem_cons, sumRem_nil, ht0]
          omega
        · intro q hq
          rcases List.mem_append.mp hq with h2 | h2
          · exact hp0 q h2
          · rw [List.mem_singleton.mp h2]
            exact hpos
      · rw [h]
        refine ⟨by simp [PriceLevel.addOrder, PriceLevel.init], ?_, ?_⟩
        · show 0 + o.remaining = sumRem ([] ++ [o])
          simp [sumRem]
        · intro q hq
          simp only [PriceLevel.addOrder, PriceLevel.init, List.nil_append,
            List.mem_singleton] at hq
          rw [hq]
          exact hpos
    · intro Lb hLb Ma hMa
      rcases emplaceAdd_mem_price bidBefore o b1.bids Lb hLb with h | h
      · obtain ⟨M₀, hM₀, hp₀⟩ := List.mem_map.mp h
        rw [← hp₀]
        exact hWF1.cross M₀ hM₀ Ma hMa
      · rw [h]
        exact hcross1 Ma hMa
    · intro M hM q hq
      rcases emplaceAdd_mem bidBefore o b1.bids M hM with h | ⟨M₀, hM₀, hp₀, he⟩ | h
      · have hne : ¬ q.id = o.id := hno1 M (List.mem_append.mpr (Or.inl h)) q hq
        rw [hkeep q.id hne]
        exact hWF1.bidsIdx M h q hq
      · rw [he] at hq
        simp only [PriceLevel.addOrder] at hq
        rcases List.mem_append.mp hq with h2 | h2
        · have hne : ¬ q.id = o.id := hno1 M₀ (List.mem_append.mpr (Or.inl hM₀)) q h2
          rw [hkeep q.id hne, hWF1.bidsIdx M₀ hM₀ q h2, he]
          rfl
        · rw [List.mem_singleton.mp h2, hnew, hside, he]
          show some (Side.Buy, o.price) = some (Side.Buy, M₀.price)
          rw [← hp₀]
      · rw [h] at hq
        simp only [PriceLevel.addOrder, PriceLevel.init, List.nil_append,
          List.mem_singleton] at hq
        rw [hq, hnew, hside, h]
        rfl
    · intro M hM q hq
      have hne : ¬ q.id = o.id := hno1 M (List.mem_append.mpr (Or.inr hM)) q hq
      rw [hkeep q.id hne]
      exact hWF1.asksIdx M hM q hq
    · intro x s₀ p₀ hx
      by_cases hxo : x = o.id
      · rw [hxo, hnew] at hx
        have hsp : s₀ = o.side ∧ p₀ = o.price := by
          have := Option.some.injEq .. ▸ hx
          exact ⟨(Prod.mk.injEq .. ▸ this).1.symm, (Prod.mk.injEq .. ▸ this).2.symm⟩
        obtain ⟨M, hM, hMp, old, holds, _⟩ := emplaceAdd_contains bidBefore o b1.bids
        rw [hsp.1, hside]
        refine ⟨M, hM, ?_, o, ?_, hxo.symm⟩
        · rw [hMp, hsp.2]
        · rw [holds]
          exact List.mem_append.mpr (Or.inr (List.mem_singleton.mpr rfl))
      · rw [hkeep x hxo] at hx
        obtain ⟨L₀, hL₀, hp₀', o₀, ho₀, ho₀id⟩ := hWF1.idxSound x s₀ p₀ hx
        cases s₀ with
        | Sell => exact ⟨L₀, hL₀, hp₀', o₀, ho₀, ho₀id⟩
        | Buy =>
          rcases emplaceAdd_to bidBefore o b1.bids L₀ hL₀ with h | ⟨hp2, h⟩
          · exact ⟨L₀, h, hp₀', o₀, ho₀, ho₀id⟩
          · refine ⟨L₀.addOrder o, h, ?_, o₀, ?_, ho₀id⟩
            · show L₀.price = p₀
              exact hp₀'
            · simp only [PriceLevel.addOrder]
              exact List.mem_append.mpr (Or.inl ho₀)
    · have hperm : List.Perm (allIds { b1 with bids := ladderEmplaceAdd bidBefore o b1.bids, orderIndex := idxInsert o.id (o.side, o.price) b1.orderIndex })
          (o.id :: allIds b1) := by
        simp only [allIds]
        exact (List.Perm.append_right _ (emplaceAdd_ids_perm bidBefore o b1.bids))
      rw [List.Perm.nodup_iff hperm, List.nodup_cons]
      refine ⟨?_, hWF1.nodupIds⟩
      intro hmem
      rcases List.mem_append.mp hmem with h | h
      · obtain ⟨l, hl, hin⟩ := List.mem_flatten.mp h
        obtain ⟨M, hM, hMl⟩ := List.mem_map.mp hl
        rw [← hMl] at hin
        obtain ⟨q, hq, hqid⟩ := List.mem_map.mp hin
        exact hno1 M (List.mem_append.mpr (Or.inl hM)) q hq hqid
      · obtain ⟨l, hl, hin⟩ := List.mem_flatten.mp h
        obtain ⟨M, hM, hMl⟩ := List.mem_map.mp hl
        rw [← hMl] at hin
        obtain ⟨q, hq, hqid⟩ := List.mem_map.mp hin
        exact hno1 M (List.mem_append.mpr (Or.inr hM)) q hq hqid
  refine ⟨hWF', ?_, ?_, ?_⟩
  · rw [hres]
    exact hnew
  · obtain ⟨M, hM, hMp, old, holds, hold⟩ := emplaceAdd_contains bidBefore o b1.bids
    have holdne : ∀ q ∈ old, ¬ q.id = o.id := by
      intro q hq
      rcases hold with h | ⟨M₀, hM₀, he⟩
      · rw [h] at hq
        simp at hq
      · rw [he] at hq
        exact hno1 M₀ (List.mem_append.mpr (Or.inl hM₀)) q hq
    have hlf : ladderFind? o.price (ladderEmplaceAdd bidBefore o b1.bids) = some M := by
      rw [← hMp]
      exact ladderFind?_of_sorted (fun x y => y < x) (fun x y h => by omega) _ hsorted' M hM
    have h1 : old.find? (fun q => q.id == o.id) = none :=
      List.find?_eq_none.mpr (fun q hq => by simp [holdne q hq])
    unfold OrderBook.findOrder
    rw [hres]
    dsimp only
    rw [hnew, hside]
    dsimp only [OrderBook.ladderOf]
    rw [hlf]
    dsimp only
    rw [holds, List.find?_append, h1]
    simp
  · intro M hM q hq hqid
    rw [hres] at hM
    rcases List.mem_append.mp hM with h | h
    · rcases emplaceAdd_mem bidBefore o b1.bids M h with h2 | ⟨M₀, hM₀, hp₀, he⟩ | h2
      · exact absurd hqid (hno1 M (List.mem_append.mpr (Or.inl h2)) q hq)
      · rw [he] at hq
        simp only [PriceLevel.addOrder] at hq
        rcases List.mem_append.mp hq with h3 | h3
        · exact absurd hqid (hno1 M₀ (List.mem_append.mpr (Or.inl hM₀)) q h3)
        · exact List.mem_singleton.mp h3
      · rw [h2] at hq
        simp only [PriceLevel.addOrder, PriceLevel.init, List.nil_append,
          List.mem_singleton] at hq
        exact hq
    · exact absurd hqid (hno1 M (List.mem_append.mpr (Or.inr h)) q hq)

theorem insertOrder_spec_sell (b : OrderBook) (o : Order) (hWF : b.WF) (hpos : 0 < o.remaining)
    (hside : o.side = Side.Sell) (hcross : ∀ M ∈ b.bids, M.price < o.price) :
    (b.insertOrder o).WF ∧
    idxFind? o.id (b.insertOrder o).orderIndex = some (o.side, o.price) ∧
    (b.insertOrder o).findOrder o.id = some o ∧
    (∀ M ∈ (b.insertOrder o).bids ++ (b.insertOrder o).asks, ∀ q ∈ M.orders,
      q.id = o.id → q = o) := by
  have hb1 : ∃ b1 : OrderBook, (b.insertOrder o) =
      { b1 with asks := ladderEmplaceAdd askBefore o b1.asks, orderIndex := idxInsert o.id (o.side, o.price) b1.orderIndex } ∧
      b1.WF ∧ idxFind? o.id b1.orderIndex = none ∧ (∀ M ∈ b1.bids, M.price < o.price) := by
    by_cases hp : (idxFind? o.id b.orderIndex).isSome = true
    · refine ⟨(b.cancelOrder o.id).2, ?_, (cancelOrder_spec b o.id hWF).1,
        (cancelOrder_spec b o.id hWF).2.1, ?_⟩
      · unfold OrderBook.insertOrder
        rw [if_pos hp]
        cases hs : o.side
        · rw [hs] at hside; exact absurd hside (by simp)
        · rfl
      · intro M hM
        obtain ⟨M₀, hM₀, hp₀⟩ := List.mem_map.mp (cancelOrder_prices_bids b o.id M hM)
        rw [← hp₀]
        exact hcross M₀ hM₀
    · refine ⟨b, ?_, hWF, ?_, hcross⟩
      · unfold OrderBook.insertOrder
        rw [if_neg hp]
        cases hs : o.side
        · rw [hs] at hside; exact absurd hside (by simp)
        · rfl
      · rcases h : idxFind? o.id b.orderIndex with _ | v
        · rfl
        · rw [h] at hp
          exact absurd rfl hp
  obtain ⟨b1, hres, hWF1, hidx1, hcross1⟩ := hb1
  have hno1 := no_order_of_idx_none b1 hWF1 o.id hidx1
  have hkeep : ∀ q : Nat, ¬ q = o.id →
      idxFind? q (idxInsert o.id (o.side, o.price) b1.orderIndex) = idxFind? q b1.orderIndex := by
    intro q hq
    rw [idxFind?_insert, if_neg hq]
  have hnew : idxFind? o.id (idxInsert o.id (o.side, o.price) b1.orderIndex) =
      some (o.side, o.price) := by
    rw [idxFind?_insert, if_pos rfl]
  have hsorted' : (ladderEmplaceAdd askBefore o b1.asks).Pairwise
      (fun A B => A.price < B.price) := by
    refine emplaceAdd_sorted (fun x y => x < y) askBefore ?_ ?_ ?_ o b1.asks hWF1.asksSorted
    · intro x y h
      simpa [askBefore] using h
    · intro x y hne hb
      simp only [askBefore, decide_eq_true_eq] at hb
      omega
    · intro x y z h1 h2
      omega
  have hWF' : (b.insertOrder o).WF := by
    rw [hres]
    refine ⟨hWF1.bidsSorted, hsorted', hWF1.bidsWF, ?_, ?_, ?_, ?_, ?_, ?_⟩
    · intro M hM
      rcases emplaceAdd_mem askBefore o b1.asks M hM with h | ⟨M₀, hM₀, hp₀, he⟩ | h
      · exact hWF1.asksWF M h
      · obtain ⟨hn0, ht0, hp0⟩ := hWF1.asksWF M₀ hM₀
        rw [he]
        refine ⟨by simp [PriceLevel.addOrder], ?_, ?_⟩
        · show M₀.totalQty + o.remaining = sumRem (M₀.orders ++ [o])
          rw [sumRem_append, sumRem_cons, sumRem_nil, ht0]
          omega
        · intro q hq
          rcases List.mem_append.mp hq with h2 | h2
          · exact hp0 q h2
          · rw [List.mem_singleton.mp h2]
            exact hpos
      · rw [h]
        refine ⟨by simp [PriceLevel.addOrder, PriceLevel.init], ?_, ?_⟩
        · show 0 + o.remaining = sumRem ([] ++ [o])
          simp [sumRem]
        · intro q hq
          simp only [PriceLevel.addOrder, PriceLevel.init, List.nil_append,
            List.mem_singleton] at hq
          rw [hq]
          exact hpos
    · intro Lb hLb Ma hMa
      rcases emplaceAdd_mem_price askBefore o b1.asks Ma hMa with h | h
      · obtain ⟨M₀, hM₀, hp₀⟩ := List.mem_map.mp h
        rw [← hp₀]
        exact hWF1.cross Lb hLb M₀ hM₀
      · rw [h]
        exact hcross1 Lb hLb
    · intro M hM q hq
      have hne : ¬ q.id = o.id := hno1 M (List.mem_append.mpr (Or.inl hM)) q hq
      rw [hkeep q.id hne]
      exact hWF1.bidsIdx M hM q hq
    · intro M hM q hq
      rcases emplaceAdd_mem askBefore o b1.asks M hM with h | ⟨M₀, hM₀, hp₀, he⟩ | h
      · have hne : ¬ q.id = o.id := hno1 M (List.mem_append.mpr (Or.inr h)) q hq
        rw [hkeep q.id hne]
        exact hWF1.asksIdx M h q hq
      · rw [he] at hq
        simp only [PriceLevel.addOrder] at hq
        rcases List.mem_append.mp hq with h2 | h2
        · have hne : ¬ q.id = o.id := hno1 M₀ (List.mem_append.mpr (Or.inr hM₀)) q h2
          rw [hkeep q.id hne, hWF1.asksIdx M₀ hM₀ q h2, he]
          rfl
        · rw [List.mem_singleton.mp h2, hnew, hside, he]
          show some (Side.Sell, o.price) = some (Side.Sell, M₀.price)
          rw [← hp₀]
      · rw [h] at hq
        simp only [PriceLevel.addOrder, PriceLevel.init, List.nil_append,
          List.mem_singleton] at hq
        rw [hq, hnew, hside, h]
        rfl
    · intro x s₀ p₀ hx
      by_cases hxo : x = o.id
      · rw [hxo, hnew] at hx
        have hsp : s₀ = o.side ∧ p₀ = o.price := by
          have := Option.some.injEq .. ▸ hx
          exact ⟨(Prod.mk.injEq .. ▸ this).1.symm, (Prod.mk.injEq .. ▸ this).2.symm⟩
        obtain ⟨M, hM, hMp, old, holds, _⟩ := emplaceAdd_contains askBefore o b1.asks
        rw [hsp.1, hside]
        refine ⟨M, hM, ?_, o, ?_, hxo.symm⟩
        · rw [hMp, hsp.2]
        · rw [holds]
          exact List.mem_append.mpr (Or.inr (List.mem_singleton.mpr rfl))
      · rw [hkeep x hxo] at hx
        obtain ⟨L₀, hL₀, hp₀', o₀, ho₀, ho₀id⟩ := hWF1.idxSound x s₀ p₀ hx
        cases s₀ with
        | Buy => exact ⟨L₀, hL₀, hp₀', o₀, ho₀, ho₀id⟩
        | Sell =>
          rcases emplaceAdd_to askBefore o b1.asks L₀ hL₀ with h | ⟨hp2, h⟩
          · exact ⟨L₀, h, hp₀', o₀, ho₀, ho₀id⟩
          · refine ⟨L₀.addOrder o, h, ?_, o₀, ?_, ho₀id⟩
            · show L₀.price = p₀
              exact hp₀'
            · simp only [PriceLevel.addOrder]
              exact List.mem_append.mpr (Or.inl ho₀)
    · have hperm : List.Perm (allIds { b1 with asks := ladderEmplaceAdd askBefore o b1.asks, orderIndex := idxInsert o.id (o.side, o.price) b1.orderIndex })
          (o.id :: allIds b1) := by
        simp only [allIds]
        exact (List.Perm.append_left _ (emplaceAdd_ids_perm askBefore o b1.asks)).trans
          List.perm_middle
      rw [List.Perm.nodup_iff hperm, List.nodup_cons]
      refine ⟨?_, hWF1.nodupIds⟩
      intro hmem
      rcases List.mem_append.mp hmem with h | h
      · obtain ⟨l, hl, hin⟩ := List.mem_flatten.mp h
        obtain ⟨M, hM, hMl⟩ := List.mem_map.mp hl
        rw [← hMl] at hin
        obtain ⟨q, hq, hqid⟩ := List.mem_map.mp hin
        exact hno1 M (List.mem_append.mpr (Or.inl hM)) q hq hqid
      · obtain ⟨l, hl, hin⟩ := List.mem_flatten.mp h
        obtain ⟨M, hM, hMl⟩ := List.mem_map.mp hl
        rw [← hMl] at hin
        obtain ⟨q, hq, hqid⟩ := List.mem_map.mp hin
        exact hno1 M (List.mem_append.mpr (Or.inr hM)) q hq hqid
  refine ⟨hWF', ?_, ?_, ?_⟩
  · rw [hres]
    exact hnew
  · obtain ⟨M, hM, hMp, old, holds, hold⟩ := emplaceAdd_contains askBefore o b1.asks
    have holdne : ∀ q ∈ old, ¬ q.id = o.id := by
      intro q hq
      rcases hold with h | ⟨M₀, hM₀, he⟩
      · rw [h] at hq
        simp at hq
      · rw [he] at hq
        exact hno1 M₀ (List.mem_append.mpr (Or.inr hM₀)) q hq
    have hlf : ladderFind? o.price (ladderEmplaceAdd askBefore o b1.asks) = some M := by
      rw [← hMp]
      exact ladderFind?_of_sorted (fun x y => x < y) (fun x y h => by omega) _ hsorted' M hM
    have h1 : old.find? (fun q => q.id == o.id) = none :=
      List.find?_eq_none.mpr (fun q hq => by simp [holdne q hq])
    unfold OrderBook.findOrder
    rw [hres]
    dsimp only
    rw [hnew, hside]
    dsimp only [OrderBook.ladderOf]
    rw [hlf]
    dsimp only
    rw [holds, List.find?_append, h1]
    simp
  · intro M hM q hq hqid
    rw [hres] at hM
    rcases List.mem_append.mp hM with h | h
    · exact absurd hqid (hno1 M (List.mem_append.mpr (Or.inl h)) q hq)
    · rcases emplaceAdd_mem askBefore o b1.asks M h with h2 | ⟨M₀, hM₀, hp₀, he⟩ | h2
      · exact absurd hqid (hno1 M (List.mem_append.mpr (Or.inr h2)) q hq)
      · rw [he] at hq
        simp only [PriceLevel.addOrder] at hq
        rcases List.mem_append.mp hq with h3 | h3
        · exact absurd hqid (hno1 M₀ (List.mem_append.mpr (Or.inr hM₀)) q h3)
        · exact List.mem_singleton.mp h3
      · rw [h2] at hq
        simp only [PriceLevel.addOrder, PriceLevel.init, List.nil_append,
          List.mem_singleton] at hq
        exact hq

/-! ### The add path -/

theorem addOrderFull_spec (b : OrderBook) (o : Order) (t : Nat) (hWF : b.WF) :
    ∀ ts bF oF, b.addOrderFull o t = (ts, bF, oF) →
      bF.WF ∧ oF = o.fill (sumQty ts) ∧ sumQty ts ≤ o.remaining ∧
      (oF.isFilled = false → o.type = OrderType.Limit →
        (bF.findOrder o.id = some oF ∧
         ∀ M ∈ bF.bids ++ bF.asks, ∀ q ∈ M.orders, q.id = o.id → q = oF)) := by
  intro ts bF oF hdef
  rcases hr : (if b.canMatch o = true then b.matchOrder o t else ([], b, o)) with ⟨ts1, b1, o1⟩
  have hfacts : b1.WF ∧ o1 = o.fill (sumQty ts1) ∧ sumQty ts1 ≤ o.remaining ∧
      (o.type = OrderType.Limit → o1.remaining ≠ 0 →
        ((o.side = Side.Buy → ∀ M ∈ b1.asks, o.price < M.price) ∧
         (o.side = Side.Sell → ∀ M ∈ b1.bids, M.price < o.price))) := by
    by_cases hcm : b.canMatch o = true
    · rw [if_pos hcm] at hr
      cases hside : o.side
      · have hmo : b.matchOrder o t =
            ((matchLoop t o b.orderIndex b.asks).1,
              { b with asks := (matchLoop t o b.orderIndex b.asks).2.1, orderIndex := (matchLoop t o b.orderIndex b.asks).2.2.1 },
              (matchLoop t o b.orderIndex b.asks).2.2.2) := by
          unfold OrderBook.matchOrder
          rw [hside]
        rw [hmo] at hr
        simp only [Prod.mk.injEq] at hr
        obtain ⟨hts, hb1, ho1⟩ := hr
        subst hts
        subst hb1
        subst ho1
        refine ⟨matchLoop_WF_asks b.bids t b.asks o b.orderIndex hWF,
          (matchLoop_agg t b.asks o b.orderIndex).1,
          (matchLoop_agg t b.asks o b.orderIndex).2, ?_⟩
        intro hty hrem
        refine ⟨?_, fun h => absurd h (by simp)⟩
        intro _
        rcases matchLoop_stop t b.asks o b.orderIndex with h | h | ⟨L2, rest2, hout, hty2, hps⟩
        · exact absurd h hrem
        · intro M hM
          rw [show ({ b with asks := (matchLoop t o b.orderIndex b.asks).2.1, orderIndex := (matchLoop t o b.orderIndex b.asks).2.2.1 } : OrderBook).asks = (matchLoop t o b.orderIndex b.asks).2.1 from rfl, h] at hM
          simp at hM
        · have hps' : o.price < L2.price := by
            simpa [priceStops, hside] using hps
          have hWFr := matchLoop_WF_asks b.bids t b.asks o b.orderIndex hWF
          have hsorted := hWFr.asksSorted
          rw [show (⟨b.bids, (matchLoop t o b.orderIndex b.asks).2.1, (matchLoop t o b.orderIndex b.asks).2.2.1⟩ : OrderBook).asks = (matchLoop t o b.orderIndex b.asks).2.1 from rfl, hout] at hsorted
          intro M hM
          rw [show ({ b with asks := (matchLoop t o b.orderIndex b.asks).2.1, orderIndex := (matchLoop t o b.orderIndex b.asks).2.2.1 } : OrderBook).asks = (matchLoop t o b.orderIndex b.asks).2.1 from rfl, hout] at hM
          rcases List.mem_cons.mp hM with h2 | h2
          · rw [h2]
            exact hps'
          · exact lt_trans hps' ((List.pairwise_cons.mp hsorted).1 M h2)
      · have hmo : b.matchOrder o t =
            ((matchLoop t o b.orderIndex b.bids).1,
              { b with bids := (matchLoop t o b.orderIndex b.bids).2.1, orderIndex := (matchLoop t o b.orderIndex b.bids).2.2.1 },
              (matchLoop t o b.orderIndex b.bids).2.2.2) := by
          unfold OrderBook.matchOrder
          rw [hside]
        rw [hmo] at hr
        simp only [Prod.mk.injEq] at hr
        obtain ⟨hts, hb1, ho1⟩ := hr
        subst hts
        subst hb1
        subst ho1
        refine ⟨matchLoop_WF_bids b.asks t b.bids o b.orderIndex hWF,
          (matchLoop_agg t b.bids o b.orderIndex).1,
          (matchLoop_agg t b.bids o b.orderIndex).2, ?_⟩
        intro hty hrem
        refine ⟨fun h => absurd h (by simp), ?_⟩
        intro _
        rcases matchLoop_stop t b.bids o b.orderIndex with h | h | ⟨L2, rest2, hout, hty2, hps⟩
        · exact absurd h hrem
        · intro M hM
          rw [show ({ b with bids := (matchLoop t o b.orderIndex b.bids).2.1, orderIndex := (matchLoop t o b.orderIndex b.bids).2.2.1 } : OrderBook).bids = (matchLoop t o b.orderIndex b.bids).2.1 from rfl, h] at hM
          simp at hM
        · have hps' : L2.price < o.price := by
            simpa [priceStops, hside] using hps
          have hWFr := matchLoop_WF_bids b.asks t b.bids o b.orderIndex hWF
          have hsorted := hWFr.bidsSorted
          rw [show (⟨(matchLoop t o b.orderIndex b.bids).2.1, b.asks, (matchLoop t o b.orderIndex b.bids).2.2.1⟩ : OrderBook).bids = (matchLoop t o b.orderIndex b.bids).2.1 from rfl, hout] at hsorted
          intro M hM
          rw [show ({ b with bids := (matchLoop t o b.orderIndex b.bids).2.1, orderIndex := (matchLoop t o b.orderIndex b.bids).2.2.1 } : OrderBook).bids = (matchLoop t o b.orderIndex b.bids).2.1 from rfl, hout] at hM
          rcases List.mem_cons.mp hM with h2 | h2
          · rw [h2]
            exact hps'
          · exact lt_trans ((List.pairwise_cons.mp hsorted).1 M h2) hps'
    · rw [if_neg hcm] at hr
      simp only [Prod.mk.injEq] at hr
      obtain ⟨hts, hb1, ho1⟩ := hr
      subst hts
      subst hb1
      subst ho1
      refine ⟨hWF, by simp [Order.fill, sumQty], by simp [sumQty], ?_⟩
      intro hty hrem
      constructor
      · intro hside M hM
        unfold OrderBook.canMatch at hcm
        rw [hty, hside] at hcm
        rcases hasks : b.asks with _ | ⟨L, rest⟩
        · rw [hasks] at hM
          simp at hM
        · rw [hasks] at hcm hM
          simp only [decide_eq_true_eq] at hcm
          have hlt : o.price < L.price := by omega
          rcases List.mem_cons.mp hM with h2 | h2
          · rw [h2]
            exact hlt
          · have hs := hWF.asksSorted
            rw [hasks] at hs
            exact lt_trans hlt ((List.pairwise_cons.mp hs).1 M h2)
      · intro hside M hM
        unfold OrderBook.canMatch at hcm
        rw [hty, hside] at hcm
        rcases hbids : b.bids with _ | ⟨L, rest⟩
        · rw [hbids] at hM
          simp at hM
        · rw [hbids] at hcm hM
          simp only [decide_eq_true_eq] at hcm
          have hlt : L.price < o.price := by omega
          rcases List.mem_cons.mp hM with h2 | h2
          · rw [h2]
            exact hlt
          · have hs := hWF.bidsSorted
            rw [hbids] at hs
            exact lt_trans ((List.pairwise_cons.mp hs).1 M h2) hlt
  obtain ⟨hWF1, ho1eq, hle, hcrossf⟩ := hfacts
  have hp1 : o1.price = o.price := by
    rw [ho1eq]
    rfl
  have hs1 : o1.side = o.side := by
    rw [ho1eq]
    rfl
  have ht1 : o1.type = o.type := by
    rw [ho1eq]
    rfl
  have hi1 : o1.id = o.id := by
    rw [ho1eq]
    rfl
  have hdef2 : (ts, bF, oF) =
      (if o1.isFilled = false ∧ o1.type = OrderType.Limit then (ts1, b1.insertOrder o1, o1)
       else (ts1, b1, o1)) := by
    rw [← hdef]
    unfold OrderBook.addOrderFull
    rw [hr]
  by_cases hins : o1.isFilled = false ∧ o1.type = OrderType.Limit
  · rw [if_pos hins] at hdef2
    simp only [Prod.mk.injEq] at hdef2
    obtain ⟨hts, hbF, hoF⟩ := hdef2
    subst hts
    subst hbF
    subst hoF
    have hrem0 : oF.remaining ≠ 0 := by
      intro hc
      have h2 := hins.1
      simp [Order.isFilled, hc] at h2
    have hpos : 0 < oF.remaining := Nat.pos_of_ne_zero hrem0
    have hty : o.type = OrderType.Limit := by
      rw [← ht1]
      exact hins.2
    obtain ⟨hcb, hcs⟩ := hcrossf hty hrem0
    cases hside : oF.side
    · have hsideo : o.side = Side.Buy := by
        rw [hs1] at hside
        exact hside
      have hcb' : ∀ M ∈ b1.asks, oF.price < M.price := by
        intro M hM
        rw [hp1]
        exact hcb hsideo M hM
      obtain ⟨hW, hx, hf, hu⟩ := insertOrder_spec_buy b1 oF hWF1 hpos hside hcb'
      refine ⟨hW, ho1eq, hle, ?_⟩
      intro _ _
      constructor
      · rw [← hi1]
        exact hf
      · intro M hM q hq hqid
        exact hu M hM q hq (hqid.trans hi1.symm)
    · have hsideo : o.side = Side.Sell := by
        rw [hs1] at hside
        exact hside
      have hcs' : ∀ M ∈ b1.bids, M.price < oF.price := by
        intro M hM
        rw [hp1]
        exact hcs hsideo M hM
      obtain ⟨hW, hx, hf, hu⟩ := insertOrder_spec_sell b1 oF hWF1 hpos hside hcs'
      refine ⟨hW, ho1eq, hle, ?_⟩
      intro _ _
      constructor
      · rw [← hi1]
        exact hf
      · intro M hM q hq hqid
        exact hu M hM q hq (hqid.trans hi1.symm)
  · rw [if_neg hins] at hdef2
    simp only [Prod.mk.injEq] at hdef2
    obtain ⟨hts, hbF, hoF⟩ := hdef2
    subst hts
    subst hbF
    subst hoF
    refine ⟨hWF1, ho1eq, hle, ?_⟩
    intro hfil hty
    exfalso
    refine hins ⟨hfil, ?_⟩
    rw [ht1]
    exact hty

/-! ### The modify path -/

theorem splitFirstById_of_decomp (id : Nat) (pre2 post2 : List Order) (m : Order)
    (hpre : ∀ q ∈ pre2, ¬ q.id = id) (hm : m.id = id) :
    splitFirstById id (pre2 ++ m :: post2) = some (pre2, m, post2) := by
  induction pre2 with
  | nil => simp [splitFirstById, hm]
  | cons q rest ih =>
    have hq : ¬ q.id = id := hpre q (List.mem_cons_self _ _)
    have h2 := ih (fun x hx => hpre x (List.mem_cons_of_mem _ hx))
    simp [splitFirstById, hq, h2]

theorem ladderFind?_decomp (p : Int) (pre post : List PriceLevel) (L : PriceLevel)
    (hpre : ∀ M ∈ pre, (M.price == p) = false) (hL : L.price = p) :
    ladderFind? p (pre ++ L :: post) = some L := by
  unfold ladderFind?
  rw [List.find?_append, List.find?_eq_none.mpr (fun M hM => by simp [hpre M hM]),
    List.find?_cons_of_pos _ (by simp [hL])]
  rfl

theorem reduceInLadder_decomp (id : Nat) (p : Int) (reduceBy : Nat)
    (pre post : List PriceLevel) (L : PriceLevel)
    (hpre : ∀ M ∈ pre, ¬ M.price = p) (hL : L.price = p) :
    reduceInLadder id p reduceBy (pre ++ L :: post) =
      ((L.reduceOrder id reduceBy).1, pre ++ (L.reduceOrder id reduceBy).2 :: post) := by
  induction pre with
  | nil => simp [reduceInLadder, hL]
  | cons M pre2 ih =>
    have hM : ¬ M.price = p := hpre M (List.mem_cons_self _ _)
    simp only [List.cons_append, reduceInLadder, if_neg hM, List.append_eq]
    rw [ih (fun N hN => hpre N (List.mem_cons_of_mem _ hN))]

theorem find?_id_decomp (id : Nat) (os : List Order) (o0 : Order)
    (h : os.find? (fun o => o.id == id) = some o0) :
    o0.id = id ∧ ∃ pre2 post2, os = pre2 ++ o0 :: post2 ∧ ∀ x ∈ pre2, ¬ x.id = id := by
  induction os with
  | nil => simp [List.find?] at h
  | cons w rest ih =>
    by_cases hw : w.id = id
    · rw [List.find?_cons_of_pos _ (by simp [hw])] at h
      cases h
      exact ⟨hw, [], rest, rfl, fun x hx => absurd hx (List.not_mem_nil _)⟩
    · rw [List.find?_cons_of_neg _ (by simp [hw])] at h
      obtain ⟨h1, pre2, post2, hdec, hpre⟩ := ih h
      refine ⟨h1, w :: pre2, post2, by rw [hdec]; rfl, fun x hx => ?_⟩
      rcases List.mem_cons.mp hx with rfl | hx2
      · exact hw
      · exact hpre x hx2

theorem ladderFind?_found_decomp (p : Int) (lad : List PriceLevel) (L : PriceLevel)
    (h : ladderFind? p lad = some L) :
    L.price = p ∧ ∃ pre post, lad = pre ++ L :: post ∧ ∀ M ∈ pre, ¬ M.price = p := by
  unfold ladderFind? at h
  induction lad with
  | nil => simp [List.find?] at h
  | cons M rest ih =>
    by_cases hM : M.price = p
    · rw [List.find?_cons_of_pos _ (by simp [hM])] at h
      cases h
      exact ⟨hM, [], rest, rfl, fun x hx => absurd hx (List.not_mem_nil _)⟩
    · rw [List.find?_cons_of_neg _ (by simp [hM])] at h
      obtain ⟨h1, pre, post, hdec, hpre⟩ := ih h
      refine ⟨h1, M :: pre, post, by rw [hdec]; rfl, fun x hx => ?_⟩
      rcases List.mem_cons.mp hx with rfl | hx2
      · exact hM
      · exact hpre x hx2

/-- The reduce branch of `modifyOrder` on the bid side: the order's queue
position is kept, its remaining becomes `q`, the level's `totalQty` drops
by the difference, nothing else changes, and the invariant is
preserved. -/
theorem modifyOrder_reduce_buy (b : OrderBook) (id q : Nat) (hWF : b.WF)
    (p : Int) (L : PriceLevel) (o0 : Order)
    (hidx : idxFind? id b.orderIndex = some (Side.Buy, p))
    (hlf : ladderFind? p b.bids = some L)
    (hfo : L.orders.find? (fun o => o.id == id) = some o0)
    (hq : 0 < q) (hlt : q < o0.remaining) :
    ∃ pre post pre2 post2,
      b.bids = pre ++ L :: post ∧ (∀ M ∈ pre, ¬ M.price = p) ∧
      L.orders = pre2 ++ o0 :: post2 ∧ (∀ x ∈ pre2, ¬ x.id = id) ∧
      b.modifyOrder id q = (true, { b with bids := pre ++ ({ L with totalQty := L.totalQty - (o0.remaining - q), orders := pre2 ++ ({ o0 with remaining := q } : Order) :: post2 } : PriceLevel) :: post }) ∧
      (b.modifyOrder id q).2.WF := by
  obtain ⟨ho0id, pre2, post2, horders, hpre2⟩ := find?_id_decomp id L.orders o0 hfo
  obtain ⟨hLp, pre, post, hdecomp, hpre⟩ := ladderFind?_found_decomp p b.bids L hlf
  obtain ⟨L', hL'⟩ : ∃ L', ({ L with totalQty := L.totalQty - (o0.remaining - q), orders := pre2 ++ ({ o0 with remaining := q } : Order) :: post2 } : PriceLevel) = L' := ⟨_, rfl⟩
  have hL'p : L'.price = L.price := by rw [← hL']
  have hL'o : L'.orders = pre2 ++ ({ o0 with remaining := q } : Order) :: post2 := by rw [← hL']
  have hL't : L'.totalQty = L.totalQty - (o0.remaining - q) := by rw [← hL']
  have hsplit : splitFirstById id L.orders = some (pre2, o0, post2) := by
    rw [horders]
    exact splitFirstById_of_decomp id pre2 post2 o0 hpre2 ho0id
  have hnotle : ¬ (o0.remaining ≤ o0.remaining - q) := by omega
  have hred : L.reduceOrder id (o0.remaining - q) = (true, L') := by
    unfold PriceLevel.reduceOrder
    rw [hsplit]
    simp only [if_neg hnotle]
    rw [← hL']
    have hr2 : o0.remaining - (o0.remaining - q) = q := by omega
    rw [hr2]
  have hril : reduceInLadder id p (o0.remaining - q) b.bids = (true, pre ++ L' :: post) := by
    rw [hdecomp, reduceInLadder_decomp id p _ pre post L hpre hLp, hred]
  have hle : ¬ (o0.remaining ≤ q) := by omega
  have hq0 : ¬ (q = 0) := by omega
  have hmod : b.modifyOrder id q = (true, { b with bids := pre ++ L' :: post }) := by
    unfold OrderBook.modifyOrder
    simp only [hidx, hlf, hfo, if_neg hle, if_neg hq0, hril]
  have hLmem : L ∈ b.bids := by rw [hdecomp]; exact List.mem_append_right _ (List.mem_cons_self _ _)
  have hLWF := hWF.bidsWF L hLmem
  have hmapid : L'.orders.map Order.id = L.orders.map Order.id := by
    rw [hL'o, horders]
    simp [Order.id]
  have hids : allIds { b with bids := pre ++ L' :: post } = allIds b := by
    unfold allIds
    rw [hdecomp]
    simp only [List.map_append, List.map_cons, List.flatten_append, List.flatten_cons]
    rw [hmapid]
  have hBWF : OrderBook.WF { b with bids := pre ++ L' :: post } := by
    refine ⟨?_, ?_, ?_, ?_, ?_, ?_, ?_, ?_, ?_⟩
    · exact pairwise_set_price (fun x y => y < x) pre post L L' hL'p (hdecomp ▸ hWF.bidsSorted)
    · exact hWF.asksSorted
    · intro M hM
      rcases List.mem_append.mp hM with hM2 | hM2
      · exact hWF.bidsWF M (by rw [hdecomp]; exact List.mem_append_left _ hM2)
      · rcases List.mem_cons.mp hM2 with rfl | hM3
        · refine ⟨by simp [hL'o], ?_, ?_⟩
          · rw [hL't, hL'o, sumRem_append, sumRem_cons]
            have h2 := hLWF.2.1
            rw [horders, sumRem_append, sumRem_cons] at h2
            have := hLWF.2.2 o0 (by rw [horders]; exact List.mem_append_right _ (List.mem_cons_self _ _))
            simp only [Order.fill]
            omega
          · intro o ho
            rw [hL'o] at ho
            rcases List.mem_append.mp ho with ho2 | ho2
            · exact hLWF.2.2 o (by rw [horders]; exact List.mem_append_left _ ho2)
            · rcases List.mem_cons.mp ho2 with rfl | ho3
              · simpa using hq
              · exact hLWF.2.2 o (by rw [horders]; exact List.mem_append_right _ (List.mem_cons_of_mem _ ho3))
        · exact hWF.bidsWF M (by rw [hdecomp]; exact List.mem_append_right _ (List.mem_cons_of_mem _ hM3))
    · exact hWF.asksWF
    · intro M hM N hN
      rcases List.mem_append.mp hM with hM2 | hM2
      · exact hWF.cross M (by rw [hdecomp]; exact List.mem_append_left _ hM2) N hN
      · rcases List.mem_cons.mp hM2 with rfl | hM3
        · rw [hL'p]
          exact hWF.cross L hLmem N hN
        · exact hWF.cross M (by rw [hdecomp]; exact List.mem_append_right _ (List.mem_cons_of_mem _ hM3)) N hN
    · intro M hM o ho
      rcases List.mem_append.mp hM with hM2 | hM2
      · exact hWF.bidsIdx M (by rw [hdecomp]; exact List.mem_append_left _ hM2) o ho
      · rcases List.mem_cons.mp hM2 with rfl | hM3
        · rw [hL'p]
          rw [hL'o] at ho
          rcases List.mem_append.mp ho with ho2 | ho2
          · exact hWF.bidsIdx L hLmem o (by rw [horders]; exact List.mem_append_left _ ho2)
          · rcases List.mem_cons.mp ho2 with rfl | ho3
            · have := hWF.bidsIdx L hLmem o0 (by rw [horders]; exact List.mem_append_right _ (List.mem_cons_self _ _))
              simpa using this
            · exact hWF.bidsIdx L hLmem o (by rw [horders]; exact List.mem_append_right _ (List.mem_cons_of_mem _ ho3))
        · exact hWF.bidsIdx M (by rw [hdecomp]; exact List.mem_append_right _ (List.mem_cons_of_mem _ hM3)) o ho
    · exact hWF.asksIdx
    · intro x s pP hx
      obtain ⟨M, hM, hMp, o, ho, hoid⟩ := hWF.idxSound x s pP hx
      cases s with
      | Buy =>
        simp only [OrderBook.ladderOf] at hM ⊢
        rw [hdecomp] at hM
        rcases List.mem_append.mp hM with hM2 | hM2
        · exact ⟨M, List.mem_append_left _ hM2, hMp, o, ho, hoid⟩
        · rcases List.mem_cons.mp hM2 with rfl | hM3
          · rw [horders] at ho
            rcases List.mem_append.mp ho with ho2 | ho2
            · exact ⟨L', List.mem_append_right _ (List.mem_cons_self _ _), by rw [hL'p]; exact hMp, o, by rw [hL'o]; exact List.mem_append_left _ ho2, hoid⟩
            · rcases List.mem_cons.mp ho2 with rfl | ho3
              · exact ⟨L', List.mem_append_right _ (List.mem_cons_self _ _), by rw [hL'p]; exact hMp, { o with remaining := q }, by rw [hL'o]; exact List.mem_append_right _ (List.mem_cons_self _ _), by simpa using hoid⟩
              · exact ⟨L', List.mem_append_right _ (List.mem_cons_self _ _), by rw [hL'p]; exact hMp, o, by rw [hL'o]; exact List.mem_append_right _ (List.mem_cons_of_mem _ ho3), hoid⟩
          · exact ⟨M, List.mem_append_right _ (List.mem_cons_of_mem _ hM3), hMp, o, ho, hoid⟩
      | Sell =>
        simp only [OrderBook.ladderOf] at hM ⊢
        exact ⟨M, hM, hMp, o, ho, hoid⟩
    · rw [hids]
      exact hWF.nodupIds
  refine ⟨pre, post, pre2, post2, hdecomp, hpre, horders, hpre2, by rw [hmod, hL'], ?_⟩
  rw [hmod]
  exact hBWF

/-- The reduce branch of `modifyOrder` on the ask side, mirroring the bid
side statement. -/
theorem modifyOrder_reduce_sell (b : OrderBook) (id q : Nat) (hWF : b.WF)
    (p : Int) (L : PriceLevel) (o0 : Order)
    (hidx : idxFind? id b.orderIndex = some (Side.Sell, p))
    (hlf : ladderFind? p b.asks = some L)
    (hfo : L.orders.find? (fun o => o.id == id) = some o0)
    (hq : 0 < q) (hlt : q < o0.remaining) :
    ∃ pre post pre2 post2,
      b.asks = pre ++ L :: post ∧ (∀ M ∈ pre, ¬ M.price = p) ∧
      L.orders = pre2 ++ o0 :: post2 ∧ (∀ x ∈ pre2, ¬ x.id = id) ∧
      b.modifyOrder id q = (true, { b with asks := pre ++ ({ L with totalQty := L.totalQty - (o0.remaining - q), orders := pre2 ++ ({ o0 with remaining := q } : Order) :: post2 } : PriceLevel) :: post }) ∧
      (b.modifyOrder id q).2.WF := by
  obtain ⟨ho0id, pre2, post2, horders, hpre2⟩ := find?_id_decomp id L.orders o0 hfo
  obtain ⟨hLp, pre, post, hdecomp, hpre⟩ := ladderFind?_found_decomp p b.asks L hlf
  obtain ⟨L', hL'⟩ : ∃ L', ({ L with totalQty := L.totalQty - (o0.remaining - q), orders := pre2 ++ ({ o0 with remaining := q } : Order) :: post2 } : PriceLevel) = L' := ⟨_, rfl⟩
  have hL'p : L'.price = L.price := by rw [← hL']
  have hL'o : L'.orders = pre2 ++ ({ o0 with remaining := q } : Order) :: post2 := by rw [← hL']
  have hL't : L'.totalQty = L.totalQty - (o0.remaining - q) := by rw [← hL']
  have hsplit : splitFirstById id L.orders = some (pre2, o0, post2) := by
    rw [horders]
    exact splitFirstById_of_decomp id pre2 post2 o0 hpre2 ho0id
  have hnotle : ¬ (o0.remaining ≤ o0.remaining - q) := by omega
  have hred : L.reduceOrder id (o0.remaining - q) = (true, L') := by
    unfold PriceLevel.reduceOrder
    rw [hsplit]
    simp only [if_neg hnotle]
    rw [← hL']
    have hr2 : o0.remaining - (o0.remaining - q) = q := by omega
    rw [hr2]
  have hril : reduceInLadder id p (o0.remaining - q) b.asks = (true, pre ++ L' :: post) := by
    rw [hdecomp, reduceInLadder_decomp id p _ pre post L hpre hLp, hred]
  have hle : ¬ (o0.remaining ≤ q) := by omega
  have hq0 : ¬ (q = 0) := by omega
  have hmod : b.modifyOrder id q = (true, { b with asks := pre ++ L' :: post }) := by
    unfold OrderBook.modifyOrder
    simp only [hidx, hlf, hfo, if_neg hle, if_neg hq0, hril]
  have hLmem : L ∈ b.asks := by rw [hdecomp]; exact List.mem_append_right _ (List.mem_cons_self _ _)
  have hLWF := hWF.asksWF L hLmem
  have hmapid : L'.orders.map Order.id = L.orders.map Order.id := by
    rw [hL'o, horders]
    simp [Order.id]
  have hids : allIds { b with asks := pre ++ L' :: post } = allIds b := by
    unfold allIds
    rw [hdecomp]
    simp only [List.map_append, List.map_cons, List.flatten_append, List.flatten_cons]
    rw [hmapid]
  have hBWF : OrderBook.WF { b with asks := pre ++ L' :: post } := by
    refine ⟨?_, ?_, ?_, ?_, ?_, ?_, ?_, ?_, ?_⟩
    · exact hWF.bidsSorted
    · exact pairwise_set_price (fun x y => x < y) pre post L L' hL'p (hdecomp ▸ hWF.asksSorted)
    · exact hWF.bidsWF
    · intro M hM
      rcases List.mem_append.mp hM with hM2 | hM2
      · exact hWF.asksWF M (by rw [hdecomp]; exact List.mem_append_left _ hM2)
      · rcases List.mem_cons.mp hM2 with rfl | hM3
        · refine ⟨by simp [hL'o], ?_, ?_⟩
          · rw [hL't, hL'o, sumRem_append, sumRem_cons]
            have h2 := hLWF.2.1
            rw [horders, sumRem_append, sumRem_cons] at h2
            have := hLWF.2.2 o0 (by rw [horders]; exact List.mem_append_right _ (List.mem_cons_self _ _))
            simp only [Order.fill]
            omega
          · intro o ho
            rw [hL'o] at ho
            rcases List.mem_append.mp ho with ho2 | ho2
            · exact hLWF.2.2 o (by rw [horders]; exact List.mem_append_left _ ho2)
            · rcases List.mem_cons.mp ho2 with rfl | ho3
              · simpa using hq
              · exact hLWF.2.2 o (by rw [horders]; exact List.mem_append_right _ (List.mem_cons_of_mem _ ho3))
        · exact hWF.asksWF M (by rw [hdecomp]; exact List.mem_append_right _ (List.mem_cons_of_mem _ hM3))
    · intro M hM N hN
      rcases List.mem_append.mp hN with hN2 | hN2
      · exact hWF.cross M hM N (by rw [hdecomp]; exact List.mem_append_left _ hN2)
      · rcases List.mem_cons.mp hN2 with rfl | hN3
        · rw [hL'p]
          exact hWF.cross M hM L hLmem
        · exact hWF.cross M hM N (by rw [hdecomp]; exact List.mem_append_right _ (List.mem_cons_of_mem _ hN3))
    · exact hWF.bidsIdx
    · intro M hM o ho
      rcases List.mem_append.mp hM with hM2 | hM2
      · exact hWF.asksIdx M (by rw [hdecomp]; exact List.mem_append_left _ hM2) o ho
      · rcases List.mem_cons.mp hM2 with rfl | hM3
        · rw [hL'p]
          rw [hL'o] at ho
          rcases List.mem_append.mp ho with ho2 | ho2
          · exact hWF.asksIdx L hLmem o (by rw [horders]; exact List.mem_append_left _ ho2)
          · rcases List.mem_cons.mp ho2 with rfl | ho3
            · have := hWF.asksIdx L hLmem o0 (by rw [horders]; exact List.mem_append_right _ (List.mem_cons_self _ _))
              simpa using this
            · exact hWF.asksIdx L hLmem o (by rw [horders]; exact List.mem_append_right _ (List.mem_cons_of_mem _ ho3))
        · exact hWF.asksIdx M (by rw [hdecomp]; exact List.mem_append_right _ (List.mem_cons_of_mem _ hM3)) o ho
    · intro x s pP hx
      obtain ⟨M, hM, hMp, o, ho, hoid⟩ := hWF.idxSound x s pP hx
      cases s with
      | Sell =>
        simp only [OrderBook.ladderOf] at hM ⊢
        rw [hdecomp] at hM
        rcases List.mem_append.mp hM with hM2 | hM2
        · exact ⟨M, List.mem_append_left _ hM2, hMp, o, ho, hoid⟩
        · rcases List.mem_cons.mp hM2 with rfl | hM3
          · rw [horders] at ho
            rcases List.mem_append.mp ho with ho2 | ho2
            · exact ⟨L', List.mem_append_right _ (List.mem_cons_self _ _), by rw [hL'p]; exact hMp, o, by rw [hL'o]; exact List.mem_append_left _ ho2, hoid⟩
            · rcases List.mem_cons.mp ho2 with rfl | ho3
              · exact ⟨L', List.mem_append_right _ (List.mem_cons_self _ _), by rw [hL'p]; exact hMp, { o with remaining := q }, by rw [hL'o]; exact List.mem_append_right _ (List.mem_cons_self _ _), by simpa using hoid⟩
              · exact ⟨L', List.mem_append_right _ (List.mem_cons_self _ _), by rw [hL'p]; exact hMp, o, by rw [hL'o]; exact List.mem_append_right _ (List.mem_cons_of_mem _ ho3), hoid⟩
          · exact ⟨M, List.mem_append_right _ (List.mem_cons_of_mem _ hM3), hMp, o, ho, hoid⟩
      | Buy =>
        simp only [OrderBook.ladderOf] at hM ⊢
        exact ⟨M, hM, hMp, o, ho, hoid⟩
    · rw [hids]
      exact hWF.nodupIds
  refine ⟨pre, post, pre2, post2, hdecomp, hpre, horders, hpre2, by rw [hmod, hL'], ?_⟩
  rw [hmod]
  exact hBWF

/-- `modifyOrder` preserves the representation invariant on every path. -/
theorem modifyOrder_WF (b : OrderBook) (id q : Nat) (hWF : b.WF) :
    (b.modifyOrder id q).2.WF := by
  rcases hidx : idxFind? id b.orderIndex with _ | ⟨s, p⟩
  · unfold OrderBook.modifyOrder
    simp only [hidx]
    exact hWF
  · cases s with
    | Buy =>
      rcases hlf : ladderFind? p b.bids with _ | L
      · unfold OrderBook.modifyOrder
        simp only [hidx, hlf]
        exact hWF
      · rcases hfo : L.orders.find? (fun o => o.id == id) with _ | o0
        · unfold OrderBook.modifyOrder
          simp only [hidx, hlf, hfo]
          exact hWF
        · by_cases hle : o0.remaining ≤ q
          · unfold OrderBook.modifyOrder
            simp only [hidx, hlf, hfo, if_pos hle]
            exact hWF
          · by_cases hq0 : q = 0
            · unfold OrderBook.modifyOrder
              simp only [hidx, hlf, hfo, if_neg hle, if_pos hq0]
              exact (cancelOrder_spec b id hWF).1
            · obtain ⟨_, _, _, _, _, _, _, _, _, hW⟩ :=
                modifyOrder_reduce_buy b id q hWF p L o0 hidx hlf hfo (by omega) (by omega)
              exact hW
    | Sell =>
      rcases hlf : ladderFind? p b.asks with _ | L
      · unfold OrderBook.modifyOrder
        simp only [hidx, hlf]
        exact hWF
      · rcases hfo : L.orders.find? (fun o => o.id == id) with _ | o0
        · unfold OrderBook.modifyOrder
          simp only [hidx, hlf, hfo]
          exact hWF
        · by_cases hle : o0.remaining ≤ q
          · unfold OrderBook.modifyOrder
            simp only [hidx, hlf, hfo, if_pos hle]
            exact hWF
          · by_cases hq0 : q = 0
            · unfold OrderBook.modifyOrder
              simp only [hidx, hlf, hfo, if_neg hle, if_pos hq0]
              exact (cancelOrder_spec b id hWF).1
            · obtain ⟨_, _, _, _, _, _, _, _, _, hW⟩ :=
                modifyOrder_reduce_sell b id q hWF p L o0 hidx hlf hfo (by omega) (by omega)
              exact hW

/-- `addOrder` preserves the invariant. -/
theorem addOrder_WF (b : OrderBook) (o : Order) (t : Nat) (hWF : b.WF) :
    (b.addOrder o t).2.WF := by
  rcases hh : b.addOrderFull o t with ⟨ts, bp⟩
  rcases hbp : bp with ⟨bF, oF⟩
  have hx := (addOrderFull_spec b o t hWF ts bF oF (by rw [hh, hbp])).1
  unfold OrderBook.addOrder
  rw [hh, hbp]
  exact hx

/-- The empty book satisfies the invariant. -/
theorem emptyBook_WF : OrderBook.emptyBook.WF := by
  refine ⟨?_, ?_, ?_, ?_, ?_, ?_, ?_, ?_, ?_⟩ <;>
    simp [OrderBook.emptyBook, allIds, idxFind?, List.find?]

/-- Each public operation preserves the invariant. -/
theorem applyOp_WF (b : OrderBook) (op : Op) (hWF : b.WF) : (b.applyOp op).WF := by
  cases op with
  | add o t => exact addOrder_WF b o t hWF
  | cancel id => exact (cancelOrder_spec b id hWF).1
  | modify id q => exact modifyOrder_WF b id q hWF

/-- Every reachable book state satisfies the representation invariant. -/
theorem Reachable.wf (b : OrderBook) (h : Reachable b) : b.WF := by
  obtain ⟨ops, rfl⟩ := h
  unfold runOps
  induction ops using List.reverseRecOn with
  | nil => exact emptyBook_WF
  | append_singleton ops op ih =>
    rw [List.foldl_append, List.foldl_cons, List.foldl_nil]
    exact applyOp_WF _ op ih

/-- Under the invariant, an id present in the index is found by
`findOrder`, through the unique level at the indexed price. -/
theorem findOrder_of_idx (b : OrderBook) (hWF : b.WF) (x : Nat) (s : Side) (p : Int)
    (h : idxFind? x b.orderIndex = some (s, p)) :
    ∃ L o0, ladderFind? p (b.ladderOf s) = some L ∧
      L.orders.find? (fun o => o.id == x) = some o0 ∧
      b.findOrder x = some o0 ∧ o0.id = x ∧ o0 ∈ L.orders := by
  obtain ⟨L, hL, hLp, o, ho, hoid⟩ := hWF.idxSound x s p h
  have hlf : ladderFind? p (b.ladderOf s) = some L := by
    rw [← hLp]
    cases s with
    | Buy =>
      exact ladderFind?_of_sorted (fun a c => c < a) (fun a c h2 h3 => by omega)
        (b.ladderOf Side.Buy) hWF.bidsSorted L hL
    | Sell =>
      exact ladderFind?_of_sorted (fun a c => a < c) (fun a c h2 h3 => by omega)
        (b.ladderOf Side.Sell) hWF.asksSorted L hL
  have hsome : (L.orders.find? (fun o2 => o2.id == x)).isSome = true :=
    List.find?_isSome.mpr ⟨o, ho, by simp [hoid]⟩
  rcases hfo : L.orders.find? (fun o2 => o2.id == x) with _ | o0
  · rw [hfo] at hsome
    simp at hsome
  · have hid : o0.id = x := by simpa using List.find?_some hfo
    have hmem : o0 ∈ L.orders := List.mem_of_find?_eq_some hfo
    refine ⟨L, o0, hlf, hfo, ?_, hid, hmem⟩
    unfold OrderBook.findOrder
    simp only [h, hlf, hfo]

/-! ### The claims -/

/-- C10: an order submitted to `addOrder` with `remaining = 0` (outside the
documented `qty > 0` precondition) produces no trades — so the trade
callback fires zero times — is never rested on either side, and leaves
the whole book state unchanged. -/
theorem claim_C10 (b : OrderBook) (o : Order) (t : Nat) (h : o.remaining = 0) :
    b.addOrder o t = ([], b) := by
  have hml : ∀ (idx : OrderIndex) (lad : List PriceLevel),
      matchLoop t o idx lad = ([], lad, idx, o) := by
    intro idx lad
    cases lad with
    | nil => rfl
    | cons L rest => simp [matchLoop, h]
  have hmo : b.matchOrder o t = ([], b, o) := by
    unfold OrderBook.matchOrder
    cases o.side <;> simp [hml]
  have hr : (if b.canMatch o = true then b.matchOrder o t else ([], b, o)) = ([], b, o) := by
    by_cases hc : b.canMatch o = true
    · rw [if_pos hc, hmo]
    · rw [if_neg hc]
  have hfil : o.isFilled = true := by simp [Order.isFilled, h]
  unfold OrderBook.addOrder OrderBook.addOrderFull
  rw [hr]
  simp [hfil]

theorem claim_C10_witness :
    (⟨1, Side.Buy, OrderType.Limit, 50, 10, 0, 3⟩ : Order).remaining = 0 ∧
      (OrderBook.mk [PriceLevel.mk 40 5 [⟨7, Side.Buy, OrderType.Limit, 40, 5, 5, 0⟩]] []
          [(7, Side.Buy, 40)]).addOrder ⟨1, Side.Buy, OrderType.Limit, 50, 10, 0, 3⟩ 3 =
        ([], OrderBook.mk [PriceLevel.mk 40 5 [⟨7, Side.Buy, OrderType.Limit, 40, 5, 5, 0⟩]] []
          [(7, Side.Buy, 40)]) :=
  ⟨rfl, claim_C10 _ _ 3 rfl⟩

/-- C5: on every reachable book state — i.e. after every sequence of
public operations on a fresh book — every price level of both ladders
has its cached `totalQty` equal to the sum of `remaining` over the
orders in its queue. -/
theorem claim_C5 (b : OrderBook) (hR : Reachable b) :
    ∀ L ∈ b.bids ++ b.asks, L.totalQty = sumRem L.orders := by
  have hWF := Reachable.wf b hR
  intro L hL
  rcases List.mem_append.mp hL with h | h
  · exact (hWF.bidsWF L h).2.1
  · exact (hWF.asksWF L h).2.1

theorem claim_C5_witness :
    (⟨60, 4, [⟨2, Side.Sell, OrderType.Limit, 60, 4, 4, 1⟩]⟩ : PriceLevel).totalQty =
      sumRem (⟨60, 4, [⟨2, Side.Sell, OrderType.Limit, 60, 4, 4, 1⟩]⟩ : PriceLevel).orders :=
  claim_C5 (runOps [Op.add ⟨1, Side.Buy, OrderType.Limit, 50, 10, 10, 0⟩ 0,
      Op.add ⟨2, Side.Sell, OrderType.Limit, 60, 4, 4, 1⟩ 1]) ⟨_, rfl⟩
    ⟨60, 4, [⟨2, Side.Sell, OrderType.Limit, 60, 4, 4, 1⟩]⟩ (by decide)

/-- C6: on every reachable book state, no price level with an empty order
queue exists in either ladder. -/
theorem claim_C6 (b : OrderBook) (hR : Reachable b) :
    ∀ L ∈ b.bids ++ b.asks, L.orders ≠ [] := by
  have hWF := Reachable.wf b hR
  intro L hL
  rcases List.mem_append.mp hL with h | h
  · exact (hWF.bidsWF L h).1
  · exact (hWF.asksWF L h).1

theorem claim_C6_witness :
    (⟨50, 6, [⟨1, Side.Buy, OrderType.Limit, 50, 10, 6, 0⟩]⟩ : PriceLevel).orders ≠ [] :=
  claim_C6 (runOps [Op.add ⟨1, Side.Buy, OrderType.Limit, 50, 10, 10, 0⟩ 0,
      Op.add ⟨2, Side.Sell, OrderType.Limit, 50, 4, 4, 1⟩ 1]) ⟨_, rfl⟩
    ⟨50, 6, [⟨1, Side.Buy, OrderType.Limit, 50, 10, 6, 0⟩]⟩ (by decide)

/-- C4: on every reachable book state, whenever both ladders are
non-empty the best bid price is strictly below the best ask price. -/
theorem claim_C4 (b : OrderBook) (hR : Reachable b) (pb pa : Int)
    (hb : b.bestBid = some pb) (ha : b.bestAsk = some pa) : pb < pa := by
  have hWF := Reachable.wf b hR
  cases hbids : b.bids with
  | nil => rw [OrderBook.bestBid, hbids] at hb; simp at hb
  | cons L rest =>
    cases hasks : b.asks with
    | nil => rw [OrderBook.bestAsk, hasks] at ha; simp at ha
    | cons M rest2 =>
      have hcr := hWF.cross L (by rw [hbids]; exact List.mem_cons_self _ _)
        M (by rw [hasks]; exact List.mem_cons_self _ _)
      rw [OrderBook.bestBid, hbids] at hb
      rw [OrderBook.bestAsk, hasks] at ha
      simp at hb ha
      omega

theorem claim_C4_witness :
    (runOps [Op.add ⟨1, Side.Buy, OrderType.Limit, 50, 10, 10, 0⟩ 0,
      Op.add ⟨2, Side.Sell, OrderType.Limit, 100, 10, 10, 1⟩ 1]).bestBid = some (50 : Int) ∧
    (runOps [Op.add ⟨1, Side.Buy, OrderType.Limit, 50, 10, 10, 0⟩ 0,
      Op.add ⟨2, Side.Sell, OrderType.Limit, 100, 10, 10, 1⟩ 1]).bestAsk = some (100 : Int) ∧
    (50 : Int) < 100 :=
  ⟨by decide, by decide,
    claim_C4 (runOps [Op.add ⟨1, Side.Buy, OrderType.Limit, 50, 10, 10, 0⟩ 0,
        Op.add ⟨2, Side.Sell, OrderType.Limit, 100, 10, 10, 1⟩ 1])
      ⟨_, rfl⟩ 50 100 (by decide) (by decide)⟩

/-- C8: on every reachable book state `cancelOrder` returns `true` exactly
when an order with the id was resting, afterwards the id no longer rests
(its level disappearing when emptied is part of the preserved invariant),
and cancelling is idempotent: the second call returns `false` and leaves
the book of the first call unchanged. -/
theorem claim_C8 (b : OrderBook) (id : Nat) (hR : Reachable b) :
    ((b.cancelOrder id).1 = true ↔ b.hasResting id = true) ∧
    (b.cancelOrder id).2.hasResting id = false ∧
    ((b.cancelOrder id).2.cancelOrder id).1 = false ∧
    ((b.cancelOrder id).2.cancelOrder id).2 = (b.cancelOrder id).2 := by
  have hWF := Reachable.wf b hR
  obtain ⟨hWF', hidx', hiff⟩ := cancelOrder_spec b id hWF
  have hrest' : (b.cancelOrder id).2.hasResting id = false := by
    have h2 := hasResting_iff_idx (b.cancelOrder id).2 hWF' id
    rw [hidx'] at h2
    simp at h2
    exact h2
  have hsecond := cancelOrder_eq_of_idx_none (b.cancelOrder id).2 id hidx'
  exact ⟨hiff, hrest', by rw [hsecond], by rw [hsecond]⟩

theorem claim_C8_witness :
    (((runOps [Op.add ⟨1, Side.Buy, OrderType.Limit, 50, 10, 10, 0⟩ 0]).cancelOrder 1).1 = true ↔
      (runOps [Op.add ⟨1, Side.Buy, OrderType.Limit, 50, 10, 10, 0⟩ 0]).hasResting 1 = true) ∧
    ((runOps [Op.add ⟨1, Side.Buy, OrderType.Limit, 50, 10, 10, 0⟩ 0]).cancelOrder 1).2.hasResting 1 = false ∧
    ((((runOps [Op.add ⟨1, Side.Buy, OrderType.Limit, 50, 10, 10, 0⟩ 0]).cancelOrder 1).2.cancelOrder 1).1 = false) ∧
    ((((runOps [Op.add ⟨1, Side.Buy, OrderType.Limit, 50, 10, 10, 0⟩ 0]).cancelOrder 1).2.cancelOrder 1).2 =
      ((runOps [Op.add ⟨1, Side.Buy, OrderType.Limit, 50, 10, 10, 0⟩ 0]).cancelOrder 1).2) :=
  claim_C8 (runOps [Op.add ⟨1, Side.Buy, OrderType.Limit, 50, 10, 10, 0⟩ 0]) 1 ⟨_, rfl⟩

/-- C3: for every `addOrder` call on a reachable book with an order
entering with `remaining = qty`, the trade quantities sum to at most
`qty`; and for a Limit order the residual remaining after matching (the
quantity that rests, or zero) plus the trade quantity sum equals `qty`
exactly. -/
theorem claim_C3 (b : OrderBook) (o : Order) (t : Nat) (hR : Reachable b)
    (hrem : o.remaining = o.qty) :
    sumQty (b.addOrder o t).1 ≤ o.qty ∧
    (o.type = OrderType.Limit →
      (b.addOrderFull o t).2.2.remaining + sumQty (b.addOrder o t).1 = o.qty) := by
  have hWF := Reachable.wf b hR
  rcases hfull : b.addOrderFull o t with ⟨ts, bp⟩
  rcases hbp : bp with ⟨bF, oF⟩
  obtain ⟨hWF', hoF, hle, _⟩ := addOrderFull_spec b o t hWF ts bF oF (by rw [hfull, hbp])
  have hts : (b.addOrder o t).1 = ts := by
    simp only [OrderBook.addOrder, hfull, hbp]
  rw [hts]
  refine ⟨by omega, fun _ => ?_⟩
  show oF.remaining + sumQty ts = o.qty
  rw [hoF]
  simp only [Order.fill]
  omega

theorem claim_C3_witness :
    (⟨3, Side.Sell, OrderType.Limit, 45, 7, 7, 2⟩ : Order).remaining =
      (⟨3, Side.Sell, OrderType.Limit, 45, 7, 7, 2⟩ : Order).qty ∧
    sumQty ((runOps [Op.add ⟨1, Side.Buy, OrderType.Limit, 50, 4, 4, 0⟩ 0]).addOrder
      ⟨3, Side.Sell, OrderType.Limit, 45, 7, 7, 2⟩ 2).1 ≤ 7 ∧
    ((⟨3, Side.Sell, OrderType.Limit, 45, 7, 7, 2⟩ : Order).type = OrderType.Limit →
      ((runOps [Op.add ⟨1, Side.Buy, OrderType.Limit, 50, 4, 4, 0⟩ 0]).addOrderFull
          ⟨3, Side.Sell, OrderType.Limit, 45, 7, 7, 2⟩ 2).2.2.remaining +
        sumQty ((runOps [Op.add ⟨1, Side.Buy, OrderType.Limit, 50, 4, 4, 0⟩ 0]).addOrder
          ⟨3, Side.Sell, OrderType.Limit, 45, 7, 7, 2⟩ 2).1 = 7) :=
  ⟨rfl, claim_C3 (runOps [Op.add ⟨1, Side.Buy, OrderType.Limit, 50, 4, 4, 0⟩ 0])
    ⟨3, Side.Sell, OrderType.Limit, 45, 7, 7, 2⟩ 2 ⟨_, rfl⟩ rfl⟩

/-- C9: a Market order submitted through `addOrder` with an id not already
resting is never inserted into either ladder or the index, however much
of it remains unfilled: after the call the id neither rests in the book
nor appears in the index. -/
theorem claim_C9 (b : OrderBook) (o : Order) (t : Nat) (hR : Reachable b)
    (hmkt : o.type = OrderType.Market) (hfresh : b.hasResting o.id = false) :
    (b.addOrder o t).2.hasResting o.id = false ∧
    idxFind? o.id (b.addOrder o t).2.orderIndex = none := by
  have hWF := Reachable.wf b hR
  have hidx0 : idxFind? o.id b.orderIndex = none := by
    have h2 := hasResting_iff_idx b hWF o.id
    rcases h3 : idxFind? o.id b.orderIndex with _ | v
    · rfl
    · rw [hfresh] at h2
      rw [h3] at h2
      simp at h2
  rcases hr : (if b.canMatch o = true then b.matchOrder o t else ([], b, o)) with ⟨ts1, bp⟩
  rcases hbp : bp with ⟨b1, o1⟩
  have hidx1 : idxFind? o.id b1.orderIndex = none := by
    by_cases hc : b.canMatch o = true
    · rw [if_pos hc] at hr
      unfold OrderBook.matchOrder at hr
      cases hside : o.side <;> rw [hside] at hr <;> rw [hbp] at hr <;>
        (injection hr with h1 h2; injection h2 with h3 h4) <;> rw [← h3] <;>
        exact matchLoop_idx_none t _ o _ o.id hidx0
    · rw [if_neg hc] at hr
      rw [hbp] at hr
      injection hr with h1 h2
      injection h2 with h3 h4
      rw [← h3]
      exact hidx0
  have ho1t : o1.type = OrderType.Market := by
    by_cases hc : b.canMatch o = true
    · rw [if_pos hc] at hr
      unfold OrderBook.matchOrder at hr
      cases hside : o.side <;> rw [hside] at hr <;> rw [hbp] at hr <;>
        (injection hr with h1 h2; injection h2 with h3 h4) <;> rw [← h4] <;>
        rw [(matchLoop_agg t _ o _).1] <;> simp [Order.fill, hmkt]
    · rw [if_neg hc] at hr
      rw [hbp] at hr
      injection hr with h1 h2
      injection h2 with h3 h4
      rw [← h4]
      exact hmkt
  have hW1 : b1.WF := by
    rcases hfull : b.addOrderFull o t with ⟨ts2, bp2⟩
    rcases hbp2 : bp2 with ⟨bF, oF⟩
    have hbF : bF = b1 ∧ ts2 = ts1 ∧ oF = o1 := by
      unfold OrderBook.addOrderFull at hfull
      rw [hr, hbp] at hfull
      rw [hbp2] at hfull
      have hcond : ¬ (o1.isFilled = false ∧ o1.type = OrderType.Limit) := by
        rw [ho1t]
        simp
      rw [if_neg hcond] at hfull
      injection hfull with h1 h2
      injection h2 with h3 h4
      exact ⟨h3.symm, h1.symm, h4.symm⟩
    obtain ⟨heq, _, _⟩ := hbF
    exact heq ▸ (addOrderFull_spec b o t hWF ts2 bF oF (by rw [hfull, hbp2])).1
  have hb2 : (b.addOrder o t).2 = b1 := by
    unfold OrderBook.addOrder OrderBook.addOrderFull
    rw [hr, hbp]
    have hcond : ¬ (o1.isFilled = false ∧ o1.type = OrderType.Limit) := by
      rw [ho1t]
      simp
    rw [if_neg hcond]
  rw [hb2]
  refine ⟨?_, hidx1⟩
  have h2 := hasResting_iff_idx b1 hW1 o.id
  rw [hidx1] at h2
  simp at h2
  exact h2

theorem claim_C9_witness :
    (⟨5, Side.Sell, OrderType.Market, 0, 20, 20, 1⟩ : Order).type = OrderType.Market ∧
    (runOps [Op.add ⟨1, Side.Buy, OrderType.Limit, 50, 10, 10, 0⟩ 0]).hasResting 5 = false ∧
    ((runOps [Op.add ⟨1, Side.Buy, OrderType.Limit, 50, 10, 10, 0⟩ 0]).addOrder
        ⟨5, Side.Sell, OrderType.Market, 0, 20, 20, 1⟩ 1).2.hasResting 5 = false ∧
    idxFind? 5 ((runOps [Op.add ⟨1, Side.Buy, OrderType.Limit, 50, 10, 10, 0⟩ 0]).addOrder
        ⟨5, Side.Sell, OrderType.Market, 0, 20, 20, 1⟩ 1).2.orderIndex = none :=
  ⟨rfl, by decide,
    (claim_C9 (runOps [Op.add ⟨1, Side.Buy, OrderType.Limit, 50, 10, 10, 0⟩ 0])
      ⟨5, Side.Sell, OrderType.Market, 0, 20, 20, 1⟩ 1 ⟨_, rfl⟩ rfl (by decide)).1,
    (claim_C9 (runOps [Op.add ⟨1, Side.Buy, OrderType.Limit, 50, 10, 10, 0⟩ 0])
      ⟨5, Side.Sell, OrderType.Market, 0, 20, 20, 1⟩ 1 ⟨_, rfl⟩ rfl (by decide)).2⟩

/-- C2: `PriceLevel::match` consumes the FIFO queue head first.  Every
trade carries taker id and side of the aggressor, the level price and
the call's timestamp; the makers traded are exactly the first
`ts.length` queued orders in queue order; every maker except possibly
the last is filled for its whole remaining quantity; the aggressor loses
exactly the traded quantity (never more than it had); the level keeps
its price, loses the traded quantity from `totalQty` consistently with
its queue, and the surviving queue is a suffix of the original, which is
non-empty only when the aggressor is exhausted and empty only when every
queued order traded — so an earlier order is fully filled before a later
one is touched. -/
theorem claim_C2 (L : PriceLevel) (a : Order) (t : Nat) (hWF : LevelWF L)
    (ts : List Trade) (L' : PriceLevel) (a' : Order)
    (heq : L.matchLevel a t = (ts, L', a')) :
    (∀ tr ∈ ts, tr.takerOrderId = a.id ∧ tr.takerSide = a.side ∧ tr.price = L.price ∧ tr.timestamp = t) ∧
    ts.map Trade.makerOrderId = (L.orders.take ts.length).map Order.id ∧
    (ts.map Trade.qty).dropLast = ((L.orders.take ts.length).map Order.remaining).dropLast ∧
    a' = a.fill (sumQty ts) ∧ sumQty ts ≤ a.remaining ∧
    L'.price = L.price ∧
    L'.totalQty = L.totalQty - sumQty ts ∧
    L'.totalQty = sumRem L'.orders ∧
    List.IsSuffix (L'.orders.map Order.id) (L.orders.map Order.id) ∧
    (L'.orders ≠ [] → a'.remaining = 0) ∧
    (L'.orders = [] → ts.length = L.orders.length) := by
  simp only [PriceLevel.matchLevel] at heq
  injection heq with h1 h2
  injection h2 with h2 h3
  subst h1 h3
  have hords : L'.orders = (matchAux L.price t a L.orders).2.1 := by rw [← h2]
  have hprice : L'.price = L.price := by rw [← h2]
  have htq : L'.totalQty = L.totalQty - sumQty (matchAux L.price t a L.orders).1 := by rw [← h2]
  refine ⟨fun tr htr => matchAux_taker L.price t L.orders a tr htr,
    matchAux_makers L.price t L.orders a,
    matchAux_full_fills L.price t L.orders a,
    (matchAux_agg L.price t L.orders a).1,
    (matchAux_agg L.price t L.orders a).2,
    hprice, htq, ?_, ?_, ?_, ?_⟩
  · have hs := matchAux_sumRem L.price t L.orders a
    rw [htq, hords, hWF.2.1]
    omega
  · rw [hords]
    exact matchAux_suffix L.price t L.orders a
  · rw [hords]
    exact matchAux_nonempty_out L.price t L.orders a
  · rw [hords]
    exact matchAux_out_nil_length L.price t L.orders a

theorem claim_C2_witness :
    LevelWF ⟨50, 7, [⟨11, Side.Sell, OrderType.Limit, 50, 5, 5, 0⟩, ⟨12, Side.Sell, OrderType.Limit, 50, 4, 2, 1⟩]⟩ ∧
    ((∀ tr ∈ [(⟨21, 11, Side.Buy, 50, 5, 2⟩ : Trade), ⟨21, 12, Side.Buy, 50, 1, 2⟩],
        tr.takerOrderId = (⟨21, Side.Buy, OrderType.Limit, 50, 9, 6, 2⟩ : Order).id ∧
        tr.takerSide = (⟨21, Side.Buy, OrderType.Limit, 50, 9, 6, 2⟩ : Order).side ∧
        tr.price = (⟨50, 7, [⟨11, Side.Sell, OrderType.Limit, 50, 5, 5, 0⟩, ⟨12, Side.Sell, OrderType.Limit, 50, 4, 2, 1⟩]⟩ : PriceLevel).price ∧
        tr.timestamp = 2) ∧
      [(⟨21, 11, Side.Buy, 50, 5, 2⟩ : Trade), ⟨21, 12, Side.Buy, 50, 1, 2⟩].map Trade.makerOrderId =
        ((⟨50, 7, [⟨11, Side.Sell, OrderType.Limit, 50, 5, 5, 0⟩, ⟨12, Side.Sell, OrderType.Limit, 50, 4, 2, 1⟩]⟩ : PriceLevel).orders.take
          [(⟨21, 11, Side.Buy, 50, 5, 2⟩ : Trade), ⟨21, 12, Side.Buy, 50, 1, 2⟩].length).map Order.id ∧
      ([(⟨21, 11, Side.Buy, 50, 5, 2⟩ : Trade), ⟨21, 12, Side.Buy, 50, 1, 2⟩].map Trade.qty).dropLast =
        (((⟨50, 7, [⟨11, Side.Sell, OrderType.Limit, 50, 5, 5, 0⟩, ⟨12, Side.Sell, OrderType.Limit, 50, 4, 2, 1⟩]⟩ : PriceLevel).orders.take
          [(⟨21, 11, Side.Buy, 50, 5, 2⟩ : Trade), ⟨21, 12, Side.Buy, 50, 1, 2⟩].length).map Order.remaining).dropLast ∧
      (⟨21, Side.Buy, OrderType.Limit, 50, 9, 0, 2⟩ : Order) =
        (⟨21, Side.Buy, OrderType.Limit, 50, 9, 6, 2⟩ : Order).fill
          (sumQty [(⟨21, 11, Side.Buy, 50, 5, 2⟩ : Trade), ⟨21, 12, Side.Buy, 50, 1, 2⟩]) ∧
      sumQty [(⟨21, 11, Side.Buy, 50, 5, 2⟩ : Trade), ⟨21, 12, Side.Buy, 50, 1, 2⟩] ≤
        (⟨21, Side.Buy, OrderType.Limit, 50, 9, 6, 2⟩ : Order).remaining ∧
      (⟨50, 1, [⟨12, Side.Sell, OrderType.Limit, 50, 4, 1, 1⟩]⟩ : PriceLevel).price =
        (⟨50, 7, [⟨11, Side.Sell, OrderType.Limit, 50, 5, 5, 0⟩, ⟨12, Side.Sell, OrderType.Limit, 50, 4, 2, 1⟩]⟩ : PriceLevel).price ∧
      (⟨50, 1, [⟨12, Side.Sell, OrderType.Limit, 50, 4, 1, 1⟩]⟩ : PriceLevel).totalQty =
        (⟨50, 7, [⟨11, Side.Sell, OrderType.Limit, 50, 5, 5, 0⟩, ⟨12, Side.Sell, OrderType.Limit, 50, 4, 2, 1⟩]⟩ : PriceLevel).totalQty -
          sumQty [(⟨21, 11, Side.Buy, 50, 5, 2⟩ : Trade), ⟨21, 12, Side.Buy, 50, 1, 2⟩] ∧
      (⟨50, 1, [⟨12, Side.Sell, OrderType.Limit, 50, 4, 1, 1⟩]⟩ : PriceLevel).totalQty =
        sumRem (⟨50, 1, [⟨12, Side.Sell, OrderType.Limit, 50, 4, 1, 1⟩]⟩ : PriceLevel).orders ∧
      List.IsSuffix ((⟨50, 1, [⟨12, Side.Sell, OrderType.Limit, 50, 4, 1, 1⟩]⟩ : PriceLevel).orders.map Order.id)
        ((⟨50, 7, [⟨11, Side.Sell, OrderType.Limit, 50, 5, 5, 0⟩, ⟨12, Side.Sell, OrderType.Limit, 50, 4, 2, 1⟩]⟩ : PriceLevel).orders.map Order.id) ∧
      ((⟨50, 1, [⟨12, Side.Sell, OrderType.Limit, 50, 4, 1, 1⟩]⟩ : PriceLevel).orders ≠ [] →
        (⟨21, Side.Buy, OrderType.Limit, 50, 9, 0, 2⟩ : Order).remaining = 0) ∧
      ((⟨50, 1, [⟨12, Side.Sell, OrderType.Limit, 50, 4, 1, 1⟩]⟩ : PriceLevel).orders = [] →
        [(⟨21, 11, Side.Buy, 50, 5, 2⟩ : Trade), ⟨21, 12, Side.Buy, 50, 1, 2⟩].length =
          (⟨50, 7, [⟨11, Side.Sell, OrderType.Limit, 50, 5, 5, 0⟩, ⟨12, Side.Sell, OrderType.Limit, 50, 4, 2, 1⟩]⟩ : PriceLevel).orders.length)) :=
  ⟨⟨by decide, by decide, by decide⟩,
    claim_C2 ⟨50, 7, [⟨11, Side.Sell, OrderType.Limit, 50, 5, 5, 0⟩, ⟨12, Side.Sell, OrderType.Limit, 50, 4, 2, 1⟩]⟩
      ⟨21, Side.Buy, OrderType.Limit, 50, 9, 6, 2⟩ 2 ⟨by decide, by decide, by decide⟩
      [⟨21, 11, Side.Buy, 50, 5, 2⟩, ⟨21, 12, Side.Buy, 50, 1, 2⟩]
      ⟨50, 1, [⟨12, Side.Sell, OrderType.Limit, 50, 4, 1, 1⟩]⟩
      ⟨21, Side.Buy, OrderType.Limit, 50, 9, 0, 2⟩ (by decide)⟩

/-- C7: `modifyOrder` is reduce-only.  It returns `false` and leaves the
book untouched when the id is not resting or when the new quantity would
not shrink the order; with new quantity zero it is exactly a cancel; and
in the genuine reduction case it returns `true`, rewrites the resting
order in place (same queue position) with `remaining = newQty`, lowers
the level's `totalQty` by the difference, and touches neither the index
nor the other ladder. -/
theorem claim_C7 (b : OrderBook) (id q : Nat) (hR : Reachable b) :
    (b.hasResting id = false → b.modifyOrder id q = (false, b)) ∧
    (∀ o0, b.findOrder id = some o0 →
      (o0.remaining ≤ q → b.modifyOrder id q = (false, b)) ∧
      (q = 0 → b.modifyOrder id q = b.cancelOrder id) ∧
      (0 < q → q < o0.remaining →
        (b.modifyOrder id q).1 = true ∧
        (b.modifyOrder id q).2.orderIndex = b.orderIndex ∧
        ∃ s p pre post pre2 post2 L,
          idxFind? id b.orderIndex = some (s, p) ∧
          b.ladderOf s = pre ++ L :: post ∧
          L.orders = pre2 ++ o0 :: post2 ∧
          (b.modifyOrder id q).2.ladderOf s =
            pre ++ ({ L with totalQty := L.totalQty - (o0.remaining - q), orders := pre2 ++ ({ o0 with remaining := q } : Order) :: post2 } : PriceLevel) :: post ∧
          (∀ s2 : Side, s2 ≠ s → (b.modifyOrder id q).2.ladderOf s2 = b.ladderOf s2))) := by
  have hWF := Reachable.wf b hR
  constructor
  · intro hno
    have hidx : idxFind? id b.orderIndex = none := by
      have h2 := hasResting_iff_idx b hWF id
      rcases h3 : idxFind? id b.orderIndex with _ | v
      · rfl
      · rw [hno, h3] at h2
        simp at h2
    unfold OrderBook.modifyOrder
    simp only [hidx]
  · intro o0 hfo0
    rcases hidx : idxFind? id b.orderIndex with _ | ⟨s, p⟩
    · unfold OrderBook.findOrder at hfo0
      rw [hidx] at hfo0
      simp at hfo0
    · obtain ⟨L, o0', hlf, hfo, hfind, hid, hmem⟩ := findOrder_of_idx b hWF id s p hidx
      rw [hfind] at hfo0
      injection hfo0 with he
      rw [he] at hfo hid hmem
      have hLmem : L ∈ b.ladderOf s := by
        obtain ⟨_, pre, post, hdec, _⟩ := ladderFind?_found_decomp p (b.ladderOf s) L hlf
        rw [hdec]
        exact List.mem_append_right _ (List.mem_cons_self _ _)
      have hpos : 0 < o0.remaining := by
        cases s with
        | Buy => exact (hWF.bidsWF L hLmem).2.2 o0 hmem
        | Sell => exact (hWF.asksWF L hLmem).2.2 o0 hmem
      cases s with
      | Buy =>
        have hlf' : ladderFind? p b.bids = some L := by
          simpa [OrderBook.ladderOf] using hlf
        refine ⟨?_, ?_, ?_⟩
        · intro hle
          unfold OrderBook.modifyOrder
          simp only [hidx, hlf', hfo, if_pos hle]
        · intro hq0
          subst hq0
          unfold OrderBook.modifyOrder
          have hle : ¬ (o0.remaining ≤ 0) := by omega
          simp only [hidx, hlf', hfo, if_neg hle]
          simp
        · intro hq hlt
          obtain ⟨pre, post, pre2, post2, hdecomp, hpre, horders, hpre2, hmodeq, hWF'⟩ :=
            modifyOrder_reduce_buy b id q hWF p L o0 hidx hlf' hfo hq hlt
          refine ⟨by rw [hmodeq], by rw [hmodeq], Side.Buy, p, pre, post, pre2, post2, L,
            rfl, by simpa [OrderBook.ladderOf] using hdecomp, horders, ?_, ?_⟩
          · rw [hmodeq]
            simp [OrderBook.ladderOf]
          · intro s2 hs2
            cases s2 with
            | Buy => exact absurd rfl hs2
            | Sell =>
              rw [hmodeq]
              simp [OrderBook.ladderOf]
      | Sell =>
        have hlf' : ladderFind? p b.asks = some L := by
          simpa [OrderBook.ladderOf] using hlf
        refine ⟨?_, ?_, ?_⟩
        · intro hle
          unfold OrderBook.modifyOrder
          simp only [hidx, hlf', hfo, if_pos hle]
        · intro hq0
          subst hq0
          unfold OrderBook.modifyOrder
          have hle : ¬ (o0.remaining ≤ 0) := by omega
          simp only [hidx, hlf', hfo, if_neg hle]
          simp
        · intro hq hlt
          obtain ⟨pre, post, pre2, post2, hdecomp, hpre, horders, hpre2, hmodeq, hWF'⟩ :=
            modifyOrder_reduce_sell b id q hWF p L o0 hidx hlf' hfo hq hlt
          refine ⟨by rw [hmodeq], by rw [hmodeq], Side.Sell, p, pre, post, pre2, post2, L,
            rfl, by simpa [OrderBook.ladderOf] using hdecomp, horders, ?_, ?_⟩
          · rw [hmodeq]
            simp [OrderBook.ladderOf]
          · intro s2 hs2
            cases s2 with
            | Sell => exact absurd rfl hs2
            | Buy =>
              rw [hmodeq]
              simp [OrderBook.ladderOf]

theorem claim_C7_witness :
    Reachable (runOps [Op.add ⟨1, Side.Buy, OrderType.Limit, 50, 10, 10, 0⟩ 0]) ∧
    (((runOps [Op.add ⟨1, Side.Buy, OrderType.Limit, 50, 10, 10, 0⟩ 0]).hasResting 1 = false → (runOps [Op.add ⟨1, Side.Buy, OrderType.Limit, 50, 10, 10, 0⟩ 0]).modifyOrder 1 4 = (false, (runOps [Op.add ⟨1, Side.Buy, OrderType.Limit, 50, 10, 10, 0⟩ 0]))) ∧
     (∀ o0, (runOps [Op.add ⟨1, Side.Buy, OrderType.Limit, 50, 10, 10, 0⟩ 0]).findOrder 1 = some o0 →
       (o0.remaining ≤ 4 → (runOps [Op.add ⟨1, Side.Buy, OrderType.Limit, 50, 10, 10, 0⟩ 0]).modifyOrder 1 4 = (false, (runOps [Op.add ⟨1, Side.Buy, OrderType.Limit, 50, 10, 10, 0⟩ 0]))) ∧
       (4 = 0 → (runOps [Op.add ⟨1, Side.Buy, OrderType.Limit, 50, 10, 10, 0⟩ 0]).modifyOrder 1 4 = (runOps [Op.add ⟨1, Side.Buy, OrderType.Limit, 50, 10, 10, 0⟩ 0]).cancelOrder 1) ∧
       (0 < 4 → 4 < o0.remaining →
         ((runOps [Op.add ⟨1, Side.Buy, OrderType.Limit, 50, 10, 10, 0⟩ 0]).modifyOrder 1 4).1 = true ∧
         ((runOps [Op.add ⟨1, Side.Buy, OrderType.Limit, 50, 10, 10, 0⟩ 0]).modifyOrder 1 4).2.orderIndex = (runOps [Op.add ⟨1, Side.Buy, OrderType.Limit, 50, 10, 10, 0⟩ 0]).orderIndex ∧
         ∃ s p pre post pre2 post2 L,
           idxFind? 1 (runOps [Op.add ⟨1, Side.Buy, OrderType.Limit, 50, 10, 10, 0⟩ 0]).orderIndex = some (s, p) ∧
           (runOps [Op.add ⟨1, Side.Buy, OrderType.Limit, 50, 10, 10, 0⟩ 0]).ladderOf s = pre ++ L :: post ∧
           L.orders = pre2 ++ o0 :: post2 ∧
           ((runOps [Op.add ⟨1, Side.Buy, OrderType.Limit, 50, 10, 10, 0⟩ 0]).modifyOrder 1 4).2.ladderOf s =
             pre ++ ({ L with totalQty := L.totalQty - (o0.remaining - 4), orders := pre2 ++ ({ o0 with remaining := 4 } : Order) :: post2 } : PriceLevel) :: post ∧
           (∀ s2 : Side, s2 ≠ s → ((runOps [Op.add ⟨1, Side.Buy, OrderType.Limit, 50, 10, 10, 0⟩ 0]).modifyOrder 1 4).2.ladderOf s2 = (runOps [Op.add ⟨1, Side.Buy, OrderType.Limit, 50, 10, 10, 0⟩ 0]).ladderOf s2)))) :=
  ⟨⟨_, rfl⟩, claim_C7 (runOps [Op.add ⟨1, Side.Buy, OrderType.Limit, 50, 10, 10, 0⟩ 0]) 1 4 ⟨_, rfl⟩⟩

/-- C1 (amended): duplicate-id replacement happens only through
`insertOrder`, i.e. only when the incoming order's residual actually
rests (an unfilled Limit residual).  In that case the prior resting
order with the id is cancelled before the insert, so afterwards the
residual is the unique order in the book carrying the id.  When the
residual does not rest, `insertOrder` — and with it the duplicate-id
cancellation — never runs, and the prior resting order is not removed
in general: the counterexample exhibits a run where it survives
unchanged.  (Matching itself may still consume it, since the engine
has no self-trade prevention.) -/
theorem claim_C1 (b : OrderBook) (o : Order) (t : Nat) (hR : Reachable b)
    (ts : List Trade) (bF : OrderBook) (oF : Order)
    (hrun : b.addOrderFull o t = (ts, bF, oF))
    (hrest : oF.isFilled = false) (hlim : o.type = OrderType.Limit) :
    bF.findOrder o.id = some oF ∧
    ∀ M ∈ bF.bids ++ bF.asks, ∀ x ∈ M.orders, x.id = o.id → x = oF := by
  have hWF := Reachable.wf b hR
  exact (addOrderFull_spec b o t hWF ts bF oF hrun).2.2.2 hrest hlim

theorem claim_C1_witness :
    ((runOps [Op.add ⟨1, Side.Buy, OrderType.Limit, 50, 10, 10, 0⟩ 0]).addOrderFull
      ⟨1, Side.Buy, OrderType.Limit, 60, 5, 5, 1⟩ 1).2.2.isFilled = false ∧
    (((runOps [Op.add ⟨1, Side.Buy, OrderType.Limit, 50, 10, 10, 0⟩ 0]).addOrderFull
        ⟨1, Side.Buy, OrderType.Limit, 60, 5, 5, 1⟩ 1).2.1.findOrder 1 =
      some ((runOps [Op.add ⟨1, Side.Buy, OrderType.Limit, 50, 10, 10, 0⟩ 0]).addOrderFull
        ⟨1, Side.Buy, OrderType.Limit, 60, 5, 5, 1⟩ 1).2.2 ∧
     ∀ M ∈ ((runOps [Op.add ⟨1, Side.Buy, OrderType.Limit, 50, 10, 10, 0⟩ 0]).addOrderFull
          ⟨1, Side.Buy, OrderType.Limit, 60, 5, 5, 1⟩ 1).2.1.bids ++
        ((runOps [Op.add ⟨1, Side.Buy, OrderType.Limit, 50, 10, 10, 0⟩ 0]).addOrderFull
          ⟨1, Side.Buy, OrderType.Limit, 60, 5, 5, 1⟩ 1).2.1.asks,
       ∀ x ∈ M.orders, x.id = 1 →
         x = ((runOps [Op.add ⟨1, Side.Buy, OrderType.Limit, 50, 10, 10, 0⟩ 0]).addOrderFull
          ⟨1, Side.Buy, OrderType.Limit, 60, 5, 5, 1⟩ 1).2.2) :=
  ⟨by decide,
    claim_C1 (runOps [Op.add ⟨1, Side.Buy, OrderType.Limit, 50, 10, 10, 0⟩ 0])
      ⟨1, Side.Buy, OrderType.Limit, 60, 5, 5, 1⟩ 1 ⟨_, rfl⟩ _ _ _ rfl (by decide) rfl⟩

/-- C1, counterexample to the original statement: a book built by two
`addOrder` calls holds a resting bid with id 1; a further `addOrder`
with the same id 1 crosses and fully matches, so `insertOrder` never
runs — afterwards the prior resting order with id 1 is still in the
book, unchanged, instead of having been cancelled. -/
theorem claim_C1_counterexample :
    (((OrderBook.emptyBook.addOrder ⟨1, Side.Buy, OrderType.Limit, 50, 10, 10, 0⟩ 0).2.addOrder
        ⟨9, Side.Sell, OrderType.Limit, 100, 10, 10, 1⟩ 1).2.hasResting 1 = true) ∧
    ((((OrderBook.emptyBook.addOrder ⟨1, Side.Buy, OrderType.Limit, 50, 10, 10, 0⟩ 0).2.addOrder
        ⟨9, Side.Sell, OrderType.Limit, 100, 10, 10, 1⟩ 1).2.addOrder
        ⟨1, Side.Buy, OrderType.Limit, 100, 10, 10, 2⟩ 2).2.findOrder 1 =
      some ⟨1, Side.Buy, OrderType.Limit, 50, 10, 10, 0⟩) := by
  exact ⟨by decide, by decide⟩
